import Mathlib

/-!
# objtools: a verification development

A shallow embedding of `dist/lib/index.js` (isScalar, deepEquals, scalarEquals, deepCopy,
collapseToDotted, matchDottedObject, matchObject, setPath, deletePath, getPath) and theorems
about it.  The functions `merge` and `diffObjects` are not part of that file; they are modelled
from the specification.

## Data model

* A JavaScript value is a `Value`: the primitives, temporal values (`Date`), callables,
  sequences (`Array`) and mappings (plain objects).
* A number is either finite or `NaN`; `===` on numbers is `JSNumber.strictEquals`, which is
  not reflexive at `NaN`.  Finite numbers are represented by integers: the code only compares
  numbers, it never computes with them.
* A sequence is what it is in JavaScript: an object with a `length` and string-keyed
  properties.  The element at index `i` is the property keyed `String(i)`; an index below
  `length` that has no property is a hole; a sequence may carry properties that are not indices.
* A property list is read through `lookup` (first binding wins), so a list that binds a key twice
  denotes the object holding the first binding.  `for (key in o)` enumerates the list in order; a
  key that is assigned and was absent is appended.
* Only own properties exist in the embedding: a read of a key that the object does not own gives
  `undefined`, and an assignment creates or updates an own property.  The source reads and writes
  with plain `o[k]`, which sees the prototype chain: at a key that names an inherited member
  (`inheritedNames`: `toString`, `constructor`, `push`, ...) and is not an own key, the source
  reads that member, and at the key `__proto__` it reads and replaces the prototype itself.  The
  embedding is exact away from these names; every theorem whose statement depends on such a read
  or write carries the hypothesis that excludes them (`isInherited`, `noProtoKey`).  Accessors,
  frozen objects and proxies are not modelled.
* In-place mutation of a tree (`setPath`, `deletePath`) is modelled by returning the updated
  tree; this is exact for trees, where no collection is reachable along two paths.  A value of
  type `Value` is such a tree: a collection that the source would reach under two keys, and
  change under both, has no counterpart here.
* Where the identity of objects matters (what a copy shares with its original), a tree is a
  `Located` tree: every collection carries the identity of its object, and allocation is a
  counter of the identities in use.
-/

namespace Objtools

/-! ## Values -/

/-- A JavaScript number as far as `===` can tell: a finite number (an integer here) or `NaN`. -/
inductive JSNumber where
  | finite (n : Int)
  | nan
  deriving DecidableEq, Repr

/-- The operator `===` on two numbers: `NaN` is not equal to anything, itself included. -/
def JSNumber.strictEquals : JSNumber → JSNumber → Bool
  | .finite a, .finite b => decide (a = b)
  | _, _ => false

/-- JavaScript values.  `date t` is a `Date` whose `getTime()` is `t` (`NaN` for an invalid date);
`func id` is the callable with identity `id`; `arr len props` is an `Array` of length `len`;
`obj props` is a plain object. -/
inductive Value where
  | undefined
  | null
  | bool (b : Bool)
  | num (n : JSNumber)
  | str (s : String)
  | date (t : JSNumber)
  | func (id : Nat)
  | arr (len : Nat) (props : List (String × Value))
  | obj (props : List (String × Value))
  deriving Repr

/-- The own enumerable properties of an object, in enumeration order. -/
abbrev Props := List (String × Value)

/-- The property key of the sequence index `i`, that is `String(i)`. -/
def indexKey (i : Nat) : String := toString i

/-- Reading the key `k` from a property list: the first binding, `undefined` when there is none. -/
def lookup : Props → String → Value
  | [], _ => .undefined
  | (k', v) :: rest, k => if k' = k then v else lookup rest k

/-- Whether the property list binds `k` (`k in o` for own properties). -/
def hasKey : Props → String → Bool
  | [], _ => false
  | (k', _) :: rest, k => if k' = k then true else hasKey rest k

/-- The assignment `o[k] = v` on a property list: an existing binding is overwritten in place,
a new key is appended. -/
def assign : Props → String → Value → Props
  | [], k, v => [(k, v)]
  | (k', v') :: rest, k, v => if k' = k then (k', v) :: rest else (k', v') :: assign rest k v

/-- The statement `delete o[k]` on a property list. -/
def remove (ps : Props) (k : String) : Props :=
  ps.filter fun e => e.1 != k

mutual
/-- The measure the recursive functions decrease: the number of collection nodes and bindings. -/
def size : Value → Nat
  | .arr _ ps => 1 + sizeProps ps
  | .obj ps => 1 + sizeProps ps
  | _ => 0
/-- The size of a property list. -/
def sizeProps : List (String × Value) → Nat
  | [] => 0
  | (_, v) :: rest => 1 + size v + sizeProps rest
end

/-! ## The source functions -/

/-- Source `isScalar(o)`: `typeof o !== "object" || o instanceof Date || !o`. -/
def isScalar : Value → Bool
  | .arr _ _ => false
  | .obj _ => false
  | _ => true

/-- The test `Array.isArray(o)`. -/
def isArray : Value → Bool
  | .arr _ _ => true
  | _ => false

/-- The `length` of a sequence or of a string (other values have none). -/
def length : Value → Nat
  | .arr len _ => len
  | .str s => s.length
  | _ => 0

/-- The character of the string `s` at the index whose key is `k`, as a one-character string. -/
def charAt (s : String) (k : String) : Value :=
  match (List.range s.length).find? (fun i => indexKey i = k) with
  | some i =>
    match s.data.get? i with
    | some c => .str (String.singleton c)
    | none => .undefined
  | none => .undefined

/-- The property read `o[k]` of an own property.  A sequence and a string answer `length`;
numbers, booleans, temporal values and callables have no own enumerable property.  A key that the
object does not own reads as `undefined`: that is what the source reads unless the key names an
inherited member (`inheritedNames`), where the source reads the member. -/
def get : Value → String → Value
  | .arr len ps, k => if k = "length" then .num (.finite len) else lookup ps k
  | .obj ps, k => lookup ps k
  | .str s, k => if k = "length" then .num (.finite s.length) else charAt s k
  | _, _ => .undefined

/-- The keys that `for (key in o)` enumerates. -/
def forInKeys : Value → List String
  | .arr _ ps => ps.map Prod.fst
  | .obj ps => ps.map Prod.fst
  | .str s => (List.range s.length).map indexKey
  | _ => []

/-- The operator `===`.  Temporal values and collections are objects, equal only to themselves;
the embedding carries no object identity and answers `false` for two of them.  The source applies
`===` only where at least one side is a primitive or both are callables. -/
def strictEquals : Value → Value → Bool
  | .undefined, .undefined => true
  | .null, .null => true
  | .bool a, .bool b => a == b
  | .num a, .num b => a.strictEquals b
  | .str a, .str b => a == b
  | .func a, .func b => a == b
  | _, _ => false

/-- Source `scalarEquals(a1, a2)`: two dates compare by `getTime()`, everything else by `===`. -/
def scalarEquals : Value → Value → Bool
  | .date t1, .date t2 => t1.strictEquals t2
  | a1, a2 => strictEquals a1 a2

/-- The test `o === null || o === undefined`. -/
def isNullish : Value → Bool
  | .undefined => true
  | .null => true
  | _ => false

theorem size_lookup_le (ps : Props) (k : String) : size (lookup ps k) ≤ sizeProps ps := by
  induction ps with
  | nil => simp [lookup, size]
  | cons e rest ih =>
    obtain ⟨k', v⟩ := e
    simp only [lookup, sizeProps]
    split <;> omega

theorem size_get_of_scalar (a : Value) (k : String) (h : isScalar a = true) :
    size (get a k) = 0 := by
  cases a <;> simp_all [isScalar, get, size]
  split
  · simp [size]
  · simp only [charAt]
    split
    · split <;> simp [size]
    · simp [size]

theorem size_get_lt (a : Value) (k : String) (h : isScalar a = false) :
    size (get a k) < size a := by
  cases a <;> simp_all [isScalar, get, size]
  · split
    · simp [size]
    · have := size_lookup_le ‹_› k; omega
  · have := size_lookup_le ‹_› k; omega

theorem size_get_le (a : Value) (k : String) : size (get a k) ≤ size a := by
  cases h : isScalar a
  · exact Nat.le_of_lt (size_get_lt a k h)
  · rw [size_get_of_scalar a k h]; exact Nat.zero_le _

theorem size_pair_lt (a b : Value) (k k' : String) (h : ¬ (isScalar a && isScalar b) = true) :
    size (get a k) + size (get b k') < size a + size b := by
  simp only [Bool.and_eq_true, not_and_or, Bool.not_eq_true] at h
  rcases h with h | h
  · have := size_get_lt a k h; have := size_get_le b k'; omega
  · have := size_get_lt b k' h; have := size_get_le a k; omega

/-- Source `deepEquals(a, b)`. -/
def deepEquals (a b : Value) : Bool :=
  if h : isScalar a && isScalar b then scalarEquals a b
  else if isNullish a || isNullish b then strictEquals a b
  else if isArray a && isArray b then
    if length a != length b then false
    else (List.range (length a)).all fun i => deepEquals (get a (indexKey i)) (get b (indexKey i))
  else if !isArray a && !isArray b then
    ((forInKeys a).all fun key => deepEquals (get a key) (get b key))
      && ((forInKeys b).all fun key => deepEquals (get a key) (get b key))
  else false
termination_by size a + size b
decreasing_by
  all_goals exact size_pair_lt a b _ _ h

/-- Source `deepCopy(obj)`.  The sequence branch pushes `obj.length` copies onto a fresh array,
the mapping branch assigns each enumerated key of a fresh object.  The assignment
`res[key] = ...` is an own-property update (`assign`); at an own key `__proto__` of `obj` the
source's assignment sets the prototype of `res` instead, which is outside the embedding
(`noProtoKey`). -/
def deepCopy (obj : Value) : Value :=
  if h : isScalar obj then obj
  else if isArray obj then
    .arr (length obj)
      ((List.range (length obj)).map fun i => (indexKey i, deepCopy (get obj (indexKey i))))
  else
    .obj ((forInKeys obj).foldl (fun res key => assign res key (deepCopy (get obj key))) [])
termination_by size obj
decreasing_by
  all_goals exact size_get_lt obj _ (by simpa using h)

/-- The path expression `path ? path + "." + key : key` of `addObj`. -/
def joinPath (path key : String) : String :=
  if path ≠ "" then path ++ "." ++ key else key

/-- The inner function `addObj(obj, path)` of `collapseToDotted`; the object `result` that the
source closes over and mutates is passed in and returned.  The assignment `result[path] = obj` is
an own-property update (`assign`); at the path `__proto__` the source's assignment sets the
prototype of `result` instead and records no entry, which is outside the embedding. -/
def addObj (includeRedundantLevels stopAtArrays : Bool) (obj : Value) (path : String)
    (result : Props) : Props :=
  if h : isScalar obj || (isArray obj && stopAtArrays) then assign result path obj
  else
    (forInKeys obj).foldl
      (fun res key =>
        addObj includeRedundantLevels stopAtArrays (get obj key) (joinPath path key) res)
      (if includeRedundantLevels then assign result path obj else result)
termination_by size obj
decreasing_by
  all_goals
    apply size_get_lt
    simp only [Bool.or_eq_true, not_or, Bool.not_eq_true] at h
    exact h.1

/-- Source `collapseToDotted(obj, includeRedundantLevels, stopAtArrays)`; an omitted flag is
`false`. -/
def collapseToDotted (obj : Value) (includeRedundantLevels stopAtArrays : Bool) : Value :=
  if isScalar obj then .obj []
  else .obj (remove (addObj includeRedundantLevels stopAtArrays obj "" []) "")

/-- Source `matchDottedObject(doc, query)`. -/
def matchDottedObject (doc query : Value) : Bool :=
  if strictEquals query (.bool true) then strictEquals doc (.bool true)
  else if isScalar query || isScalar doc then deepEquals query doc
  else (forInKeys query).all fun queryKey => deepEquals (get doc queryKey) (get query queryKey)

/-- Source `matchObject(doc, query)`. -/
def matchObject (doc query : Value) : Bool :=
  matchDottedObject (collapseToDotted doc false false) (collapseToDotted query false false)

/-! ## Paths -/

/-- The segments of a character sequence cut at every `.`; there is always at least one. -/
def splitChars : List Char → List (List Char)
  | [] => [[]]
  | c :: cs =>
    if c = '.' then [] :: splitChars cs
    else
      match splitChars cs with
      | seg :: segs => (c :: seg) :: segs
      | [] => [[c]]

/-- The call `path.split(".")`. -/
def splitDots (path : String) : List String :=
  (splitChars path.data).map String.mk

/-- The test `/^[0-9]+$/.test(s)`. -/
def isDecimal (s : String) : Bool :=
  !s.data.isEmpty && s.data.all Char.isDigit

/-- The `path` argument of `getPath`: `null`, `undefined` or a string. -/
inductive PathArg where
  | null
  | undefined
  | str (s : String)

/-- The loop of `getPath` over the segments that remain; a skipped sequence keeps the segment
(`i--`). -/
def getPathLoop (allowSkipArrays : Bool) (parts : List String) (cur : Value) : Value :=
  match parts with
  | [] => cur
  | part :: rest =>
    if h : isScalar cur then .undefined
    else if isArray cur && allowSkipArrays && !isDecimal part && length cur == 1 then
      getPathLoop allowSkipArrays (part :: rest) (get cur (indexKey 0))
    else getPathLoop allowSkipArrays rest (get cur part)
termination_by (parts.length, size cur)
decreasing_by
  · exact Prod.Lex.right _ (size_get_lt cur _ (by simpa using h))
  · exact Prod.Lex.left _ _ (by simp)

/-- Source `getPath(obj, path, allowSkipArrays)`. -/
def getPath (obj : Value) (path : PathArg) (allowSkipArrays : Bool) : Value :=
  match path with
  | .null => obj
  | .undefined => obj
  | .str p => getPathLoop allowSkipArrays (splitDots p) obj

/-- What an assignment or a property read can throw.  `unsupported` marks a step the embedding
does not follow: a property stored on a temporal value or a callable, and the conversion of a
string or a non-empty collection to a number. -/
inductive JSError where
  | typeError
  | rangeError
  | unsupported
  deriving DecidableEq, Repr

/-- The index that the key `k` denotes on a sequence: `k` is the canonical decimal form of a
number below `2^32 - 1`. -/
def arrayIndex? (k : String) : Option Nat :=
  let n := k.data.foldl (fun acc c => 10 * acc + (c.toNat - 48)) 0
  if indexKey n = k ∧ n < 4294967295 then some n else none

/-- The conversion `ToNumber(v)` applied to the new `length` of a sequence.  The empty plain
object converts to `NaN`, through the string `[object Object]`. -/
def toNumber? : Value → Option JSNumber
  | .undefined => some .nan
  | .null => some (.finite 0)
  | .bool b => some (.finite (if b then 1 else 0))
  | .num n => some n
  | .date t => some t
  | .func _ => some .nan
  | .obj [] => some .nan
  | _ => none

/-- The assignment `a.length = v` on a sequence: a valid length truncates the sequence, anything
else throws a `RangeError`. -/
def setLength (ps : Props) (v : Value) : Except JSError Value :=
  match toNumber? v with
  | some (.finite n) =>
    if 0 ≤ n ∧ n < 4294967296 then
      .ok (.arr n.toNat
        (ps.filter fun e =>
          match arrayIndex? e.1 with
          | some i => decide (i < n.toNat)
          | none => true))
    else .error .rangeError
  | some .nan => .error .rangeError
  | none => .error .unsupported

/-- The assignment `o[k] = v` in strict mode, as the creation or update of an own property.
This is what the source does unless `k` is `__proto__` and not an own key of `o`, where the
assignment runs the accessor of `Object.prototype`. -/
def setProp : Value → String → Value → Except JSError Value
  | .obj ps, k, v => .ok (.obj (assign ps k v))
  | .arr len ps, k, v =>
    if k = "length" then setLength ps v
    else
      match arrayIndex? k with
      | some i => .ok (.arr (max len (i + 1)) (assign ps k v))
      | none => .ok (.arr len (assign ps k v))
  | .date _, _, _ => .error .unsupported
  | .func _, _, _ => .error .unsupported
  | _, _, _ => .error .typeError

/-- The parent `o` seen after the collection it holds at key `k` was mutated into `v`.  This
is exact for a tree; a collection held under two keys would change under both in the source. -/
def putProp : Value → String → Value → Value
  | .obj ps, k, v => .obj (assign ps k v)
  | .arr len ps, k, v => .arr len (assign ps k v)
  | o, _, _ => o

/-- The loop of `setPath` over the segments that remain, returning the updated `cur`. -/
def setPathLoop : List String → Value → Value → Except JSError Value
  | [], cur, _ => .ok cur
  | [part], cur, value => setProp cur part value
  | part :: next :: rest, cur, value =>
    if isScalar (get cur part) then do
      let cur1 ← setProp cur part (.obj [])
      let sub ← setPathLoop (next :: rest) (get cur1 part) value
      pure (putProp cur1 part sub)
    else do
      let sub ← setPathLoop (next :: rest) (get cur part) value
      pure (putProp cur part sub)

/-- Source `setPath(obj, path, value)`: the updated `obj`, or what the call throws. -/
def setPath (obj : Value) (path : String) (value : Value) : Except JSError Value :=
  setPathLoop (splitDots path) obj value

/-- The statement `delete o[k]` in strict mode.  The `length` of a sequence and the characters of
a string cannot be deleted, the attempt throws a `TypeError`; the properties of a callable are not
followed. -/
def deleteProp : Value → String → Except JSError Value
  | .obj ps, k => .ok (.obj (remove ps k))
  | .arr len ps, k => if k = "length" then .error .typeError else .ok (.arr len (remove ps k))
  | .undefined, _ => .error .typeError
  | .null, _ => .error .typeError
  | .str s, k =>
    if k = "length" || (List.range s.length).any (fun i => indexKey i == k) then
      .error .typeError
    else .ok (.str s)
  | .func _, _ => .error .unsupported
  | v, _ => .ok v

/-- The loop of `deletePath` over the segments that remain, returning the updated `cur`.  The
early `return obj` leaves every collection walked so far as it was. -/
def deletePathLoop : List String → Value → Except JSError Value
  | [], cur => .ok cur
  | [part], cur => deleteProp cur part
  | part :: next :: rest, cur =>
    if isNullish cur then .error .typeError
    else if isScalar (get cur part) then .ok cur
    else do
      let sub ← deletePathLoop (next :: rest) (get cur part)
      pure (putProp cur part sub)

/-- Source `deletePath(obj, path)`: the updated `obj`, or what the call throws. -/
def deletePath (obj : Value) (path : String) : Except JSError Value :=
  deletePathLoop (splitDots path) obj

/-! ## Merging and diffing

The functions `merge` and `diffObjects` are not part of `dist/lib/index.js`; they are modelled
from the specification. -/

theorem isScalar_of_get (cur : Value) (part : String)
    (h : isScalar (get cur part) = false) : isScalar cur = false := by
  cases hc : isScalar cur
  · rfl
  · have := size_get_of_scalar cur part hc
    have h2 := size_get_lt (get cur part) part h
    cases hg : get cur part <;> simp_all [size, isScalar]

/-- Modelled from the spec: `merge(destination, source)` for one source and no customizer; the
function is not part of the sources at hand.  A destination that is not a collection is returned
unmodified.  Otherwise, for each own key of the source: when the existing value and the source
value are both collections, the source value is merged recursively into the existing value, which
is first converted with `toSequence` when the source value is a sequence and the existing value
is not; otherwise the source value is assigned, except that an `undefined` source value assigns
nothing, while `null` is assigned like any other value.  The conversion of a mapping to a
sequence, which the spec gives only by an example, is the parameter `toSequence`. -/
def merge (toSequence : Value → Value) (destination source : Value) : Except JSError Value :=
  if isScalar destination then .ok destination
  else
    (forInKeys source).foldlM
      (fun d key =>
        if h : isScalar (get source key) = false ∧ isScalar (get d key) = false then do
          let sub ← merge toSequence
            (if isArray (get source key) && !isArray (get d key) then toSequence (get d key)
              else get d key)
            (get source key)
          pure (putProp d key sub)
        else
          match get source key with
          | .undefined => pure d
          | sv => setProp d key sv)
      destination
termination_by size source
decreasing_by
  exact size_get_lt source key (isScalar_of_get source key h.1)

/-- What `merge` does for one key of the source: the body of its loop. -/
def mergeStep (toSequence : Value → Value) (source d : Value) (key : String) :
    Except JSError Value :=
  if isScalar (get source key) = false ∧ isScalar (get d key) = false then do
    let sub ← merge toSequence
      (if isArray (get source key) && !isArray (get d key) then toSequence (get d key)
        else get d key)
      (get source key)
    pure (putProp d key sub)
  else
    match get source key with
    | .undefined => pure d
    | sv => setProp d key sv

/-- What a diff records for the input `o` at the key `key`: the value there, or the sentinel
`null` when the input has no such key. -/
def valueOrNull (o : Value) (key : String) : Value :=
  if key ∈ forInKeys o then get o key else .null

/-- The input `o` has the key `key`, bound to a scalar. -/
def presentScalar (o : Value) (key : String) : Bool :=
  decide (key ∈ forInKeys o) && isScalar (get o key)

theorem size_diff_lt (a b : Value) (key : String)
    (h : isScalar (get a key) = false ∨ isScalar (get b key) = false) :
    size (get a key) + size (get b key) < size a + size b := by
  apply size_pair_lt
  rcases h with h | h
  · simp [isScalar_of_get a key h]
  · simp [isScalar_of_get b key h]

/-- Modelled from the spec: `diffObjects(a, b)` for two inputs; the function is not part of the
sources at hand, and a bare scalar argument is not modelled.  The keys of both inputs are
visited.  A key that is scalar in at least one input is recorded when the two values are not
`deepEquals`, as the two-element sequence of each input's value, with `null` for an input that
lacks the key; when the values agree the key is omitted.  A key that is a collection in every
input that has it is diffed recursively, and omitted when the nested diff is empty. -/
def diffObjects (a b : Value) : Value :=
  .obj ((forInKeys a ++ forInKeys b).foldl
    (fun res key =>
      if presentScalar a key || presentScalar b key then
        if deepEquals (get a key) (get b key) then res
        else assign res key (.arr 2 [("0", valueOrNull a key), ("1", valueOrNull b key)])
      else if h : isScalar (get a key) = false ∨ isScalar (get b key) = false then
        match diffObjects (get a key) (get b key) with
        | .obj [] => res
        | sub => assign res key sub
      else res)
    [])
termination_by size a + size b
decreasing_by
  exact size_diff_lt a b key h

/-- What `diffObjects` does for one key: the body of its loop. -/
def diffStep (a b : Value) (res : Props) (key : String) : Props :=
  if presentScalar a key || presentScalar b key then
    if deepEquals (get a key) (get b key) then res
    else assign res key (.arr 2 [("0", valueOrNull a key), ("1", valueOrNull b key)])
  else if isScalar (get a key) = false ∨ isScalar (get b key) = false then
    match diffObjects (get a key) (get b key) with
    | .obj [] => res
    | sub => assign res key sub
  else res

/-! ## Trees with object identity -/

/-- A tree in which every collection carries the identity of the object that holds it: two
collections are the same object exactly when their identities are equal.  A leaf is a scalar. -/
inductive Located where
  | leaf (v : Value)
  | arr (id : Nat) (len : Nat) (props : List (String × Located))
  | obj (id : Nat) (props : List (String × Located))

mutual
/-- The number of collection nodes and bindings of a located tree. -/
def Located.size : Located → Nat
  | .leaf _ => 0
  | .arr _ _ ps => 1 + Located.sizeProps ps
  | .obj _ ps => 1 + Located.sizeProps ps
/-- The size of a list of located bindings. -/
def Located.sizeProps : List (String × Located) → Nat
  | [] => 0
  | (_, v) :: rest => 1 + Located.size v + Located.sizeProps rest
end

/-- Reading the key `k` from a list of located bindings: the first binding, `undefined` when
there is none. -/
def Located.lookup : List (String × Located) → String → Located
  | [], _ => .leaf .undefined
  | (k', v) :: rest, k => if k' = k then v else Located.lookup rest k

/-- The assignment `o[k] = v` on a list of located bindings. -/
def Located.assign : List (String × Located) → String → Located → List (String × Located)
  | [], k, v => [(k, v)]
  | (k', v') :: rest, k, v =>
    if k' = k then (k', v) :: rest else (k', v') :: Located.assign rest k v

/-- The property read `o[k]` on a located tree. -/
def Located.get : Located → String → Located
  | .arr _ len ps, k => if k = "length" then .leaf (.num (.finite len)) else Located.lookup ps k
  | .obj _ ps, k => Located.lookup ps k
  | .leaf v, k => .leaf (Objtools.get v k)

theorem locatedSize_lookup_le (ps : List (String × Located)) (k : String) :
    (Located.lookup ps k).size ≤ Located.sizeProps ps := by
  induction ps with
  | nil => simp [Located.lookup, Located.size]
  | cons e rest ih =>
    obtain ⟨k', v⟩ := e
    simp only [Located.lookup, Located.sizeProps]
    split <;> omega

theorem locatedSize_get_arr (id len : Nat) (ps : List (String × Located)) (k : String) :
    (Located.get (.arr id len ps) k).size < (Located.arr id len ps).size := by
  simp only [Located.get, Located.size]
  split
  · simp [Located.size]
  · have := locatedSize_lookup_le ps k; omega

theorem locatedSize_get_obj (id : Nat) (ps : List (String × Located)) (k : String) :
    (Located.get (.obj id ps) k).size < (Located.obj id ps).size := by
  simp only [Located.get, Located.size]
  have := locatedSize_lookup_le ps k; omega

/-- Source `deepCopy(obj)` on located trees, with the allocation made explicit: `next` is the
first identity not in use, the literals `[]` and `{}` take it for the fresh object `res`, and the
result carries the first identity not in use after the call.  A scalar is returned as it is. -/
def deepCopyL (obj : Located) (next : Nat) : Located × Nat :=
  match obj with
  | .leaf v => (.leaf v, next)
  | .arr id len ps =>
    let r := (List.range len).foldl
      (fun (st : List (String × Located) × Nat) i =>
        let c := deepCopyL (Located.get (.arr id len ps) (indexKey i)) st.2
        (st.1 ++ [(indexKey i, c.1)], c.2))
      ([], next + 1)
    (.arr next len r.1, r.2)
  | .obj id ps =>
    let r := (ps.map Prod.fst).foldl
      (fun (st : List (String × Located) × Nat) key =>
        let c := deepCopyL (Located.get (.obj id ps) key) st.2
        (Located.assign st.1 key c.1, c.2))
      ([], next + 1)
    (.obj next r.1, r.2)
termination_by obj.size
decreasing_by
  · exact locatedSize_get_arr _ _ _ _
  · exact locatedSize_get_obj _ _ _

/-! ## The loop of `getPath` with a budget of iterations -/

/-- The loop of `getPath` run with a budget of iterations: every pass through the loop body, a
skip included, takes one unit; `none` when the budget is used up before the loop ends. -/
def getPathFuel : Nat → Bool → List String → Value → Option Value
  | _, _, [], cur => some cur
  | 0, _, _ :: _, _ => none
  | fuel + 1, allowSkipArrays, part :: rest, cur =>
    if isScalar cur then some .undefined
    else if isArray cur && allowSkipArrays && !isDecimal part && length cur == 1 then
      getPathFuel fuel allowSkipArrays (part :: rest) (get cur (indexKey 0))
    else getPathFuel fuel allowSkipArrays rest (get cur part)

/-- The consecutive skips that the loop of `getPath` makes at the segment `part`, starting at
`cur` with allowSkipArrays set: their number, and the node at which the loop stands after them. -/
def skipWalk (part : String) (cur : Value) : Nat × Value :=
  if h : isScalar cur then (0, cur)
  else if isArray cur && !isDecimal part && length cur == 1 then
    ((skipWalk part (get cur (indexKey 0))).1 + 1, (skipWalk part (get cur (indexKey 0))).2)
  else (0, cur)
termination_by size cur
decreasing_by
  all_goals exact size_get_lt cur _ (by simpa using h)

/-! ## Expanding a dotted form -/

/-- Expanding a dotted form: starting from an empty mapping, `setPath(acc, p, v)` is applied for
each entry `(p, v)` of `dotted`, in enumeration order. -/
def expandDotted (dotted : Value) : Except JSError Value :=
  (forInKeys dotted).foldlM (fun acc key => setPath acc key (get dotted key)) (.obj [])

/-- The loop of `setPath` applied for each pair of a list of segments and a value, in order. -/
def setPaths (entries : List (List String × Value)) (acc : Value) : Except JSError Value :=
  entries.foldlM (fun acc e => setPathLoop e.1 acc e.2) acc

/-! ## Predicates on trees -/

mutual
/-- The tree holds no `NaN`: no number leaf is `NaN` and no temporal leaf is an invalid date. -/
def noNaN : Value → Bool
  | .num .nan => false
  | .date .nan => false
  | .arr _ ps => noNaNProps ps
  | .obj ps => noNaNProps ps
  | _ => true
/-- No value bound in the property list holds a `NaN`. -/
def noNaNProps : List (String × Value) → Bool
  | [] => true
  | (_, v) :: rest => noNaN v && noNaNProps rest
end

/-- A number that a sequence accepts as its `length` unchanged: an integer from `0` to
`2^32 - 1`. -/
def validLength : Value → Bool
  | .num (.finite n) => decide (0 ≤ n ∧ n < 4294967296)
  | _ => false

/-- Whether `setPath(obj, path, value)`, walking the segments `parts` from `cur`, assigns to the
`length` of a sequence something other than a valid length: a segment `length` is applied to a
sequence of the tree, as an intermediate segment or as the final one with a `value` that is not a
valid length. -/
def assignsBadLength : List String → Value → Value → Bool
  | [], _, _ => false
  | [part], cur, value => isArray cur && part == "length" && !validLength value
  | part :: next :: rest, cur, value =>
    (isArray cur && part == "length")
      || (!isScalar (get cur part) && assignsBadLength (next :: rest) (get cur part) value)

/-- The reference definition of `matchDottedObject` in the words of the specification: a query
that is the boolean `true` matches exactly the document `true`; otherwise, when either side is
scalar, the answer is `deepEquals(query, doc)`; otherwise every key of the query must hold
`deepEquals` values in the document and in the query. -/
def matchDottedObjectRef (doc query : Value) : Bool :=
  match query with
  | .bool true =>
    match doc with
    | .bool true => true
    | _ => false
  | _ =>
    if isScalar doc || isScalar query then deepEquals query doc
    else (forInKeys query).all fun k => deepEquals (get doc k) (get query k)

/-- A key that is not empty and contains no `.`. -/
def plainKey (k : String) : Bool :=
  decide (k ≠ "") && decide ('.' ∉ k.data)

mutual
/-- Every key of the tree, at every depth, is non-empty and contains no `.`. -/
def plainKeys : Value → Bool
  | .arr _ ps => plainKeysProps ps
  | .obj ps => plainKeysProps ps
  | _ => true
/-- Every key of the property list and of the trees it binds is plain. -/
def plainKeysProps : List (String × Value) → Bool
  | [] => true
  | (k, v) :: rest => plainKey k && plainKeys v && plainKeysProps rest
end

/-- The assignments `result[path] = value` that `addObj(obj, path)` performs, in order. -/
def assignments (includeRedundantLevels stopAtArrays : Bool) (obj : Value) (path : String) :
    List (String × Value) :=
  if h : isScalar obj || (isArray obj && stopAtArrays) then [(path, obj)]
  else
    (if includeRedundantLevels then [(path, obj)] else [])
      ++ ((forInKeys obj).map fun key =>
          assignments includeRedundantLevels stopAtArrays (get obj key) (joinPath path key)).flatten
termination_by size obj
decreasing_by
  all_goals
    apply size_get_lt
    simp only [Bool.or_eq_true, not_or, Bool.not_eq_true] at h
    exact h.1

mutual
/-- The representation invariant of a JavaScript tree: at every collection the keys are pairwise
distinct, and no sequence binds the key `length` as an enumerable property. -/
def wellFormed : Value → Bool
  | .arr _ ps => !hasKey ps "length" && wellFormedProps ps
  | .obj ps => wellFormedProps ps
  | _ => true
/-- The keys of the property list are pairwise distinct and the trees it binds are well formed. -/
def wellFormedProps : List (String × Value) → Bool
  | [] => true
  | (k, v) :: rest => !hasKey rest k && wellFormed v && wellFormedProps rest
end

mutual
/-- The scalar leaves of a tree, in depth-first order, each with the keys and indices that lead
to it from the root.  A sequence is descended into through the keys of its elements, like a
mapping through its keys; an empty collection has no leaf. -/
def scalarLeaves : Value → List (List String × Value)
  | .arr _ ps => leavesProps ps
  | .obj ps => leavesProps ps
  | v => [([], v)]
/-- The scalar leaves below the bindings of a property list. -/
def leavesProps : List (String × Value) → List (List String × Value)
  | [] => []
  | (k, v) :: rest => ((scalarLeaves v).map fun e => (k :: e.1, e.2)) ++ leavesProps rest
end

/-- The object of the repository's `collapseToDotted` tests:
`{foo: 123, bar: {biz: 12, baz: {buz: 1}}, arr: [1, 2, {foo: 3}]}`. -/
def testObj : Value :=
  .obj [("foo", .num (.finite 123)),
    ("bar", .obj [("biz", .num (.finite 12)), ("baz", .obj [("buz", .num (.finite 1))])]),
    ("arr", .arr 3 [("0", .num (.finite 1)), ("1", .num (.finite 2)),
      ("2", .obj [("foo", .num (.finite 3))])])]

/-- The node reached from `cur` by the segments `parts` when every one of them resolves to a
collection. -/
def descend : List String → Value → Option Value
  | [], cur => some cur
  | part :: rest, cur => if isScalar (get cur part) then none else descend rest (get cur part)

/-- The mapping that holds nothing but the path `parts` bound to `value`:
`nest [a, b] v` is `{a: {b: v}}`. -/
def nest : List String → Value → Value
  | [], value => value
  | part :: rest, value => .obj [(part, nest rest value)]

/-- Every intermediate segment of `parts` resolves, from `cur`, to a collection. -/
def resolves : List String → Value → Bool
  | [], _ => true
  | [_], _ => true
  | part :: next :: rest, cur =>
    !isScalar (get cur part) && resolves (next :: rest) (get cur part)

/-- Whether `deletePath`, walking the segments `parts` from `cur`, ends by deleting the `length`
of a sequence. -/
def deletesLength : List String → Value → Bool
  | [], _ => false
  | [part], cur => isArray cur && part == "length"
  | part :: next :: rest, cur =>
    !isScalar (get cur part) && deletesLength (next :: rest) (get cur part)

/-- The collection `cur1` is `cur` with the value addressed by `parts` removed: at the parent the
final key is absent and every other key is as before; at every ancestor every key is present as
before and every key but the one walked through is bound as before. -/
def DeletedAt : List String → Value → Value → Prop
  | [], _, _ => True
  | [last], cur, cur1 =>
    isArray cur1 = isArray cur ∧ last ∉ forInKeys cur1 ∧ get cur1 last = .undefined
      ∧ ∀ k, k ≠ last → get cur1 k = get cur k ∧ (k ∈ forInKeys cur1 ↔ k ∈ forInKeys cur)
  | part :: next :: rest, cur, cur1 =>
    isArray cur1 = isArray cur ∧ (∀ k, k ≠ part → get cur1 k = get cur k)
      ∧ (∀ k, k ∈ forInKeys cur1 ↔ k ∈ forInKeys cur)
      ∧ DeletedAt (next :: rest) (get cur part) (get cur1 part)

/-- The tree `y` has the structure of `x` at every node: a scalar is the same scalar; a sequence
is a sequence of the same length whose elements correspond; a mapping is a mapping with the same
keys whose values correspond. -/
inductive SameShape : Value → Value → Prop where
  | scalar (x : Value) (h : isScalar x = true) : SameShape x x
  | seq (len : Nat) (ps qs : Props)
      (h : ∀ i, i < len →
        SameShape (get (.arr len ps) (indexKey i)) (get (.arr len qs) (indexKey i))) :
      SameShape (.arr len ps) (.arr len qs)
  | map (ps qs : Props) (hk : ∀ k, k ∈ qs.map Prod.fst ↔ k ∈ ps.map Prod.fst)
      (h : ∀ k, SameShape (lookup ps k) (lookup qs k)) :
      SameShape (.obj ps) (.obj qs)

mutual
/-- The nodes that `addObj` records at and below a node, in order, each with the keys that lead
to it: the assignments of `addObj` before the keys are joined into a path. -/
def visit (includeRedundantLevels stopAtArrays : Bool) : Value → List (List String × Value)
  | .arr len ps =>
    if stopAtArrays then [([], .arr len ps)]
    else
      (if includeRedundantLevels then [([], .arr len ps)] else [])
        ++ visitProps includeRedundantLevels stopAtArrays ps
  | .obj ps =>
    (if includeRedundantLevels then [([], .obj ps)] else [])
      ++ visitProps includeRedundantLevels stopAtArrays ps
  | v => [([], v)]
/-- The nodes recorded below the bindings of a property list. -/
def visitProps (includeRedundantLevels stopAtArrays : Bool) :
    List (String × Value) → List (List String × Value)
  | [] => []
  | (k, v) :: rest =>
    ((visit includeRedundantLevels stopAtArrays v).map fun e => (k :: e.1, e.2))
      ++ visitProps includeRedundantLevels stopAtArrays rest
end

mutual
/-- Every collection of a tree, the root included, in depth-first order, each with the keys and
indices that lead to it from the root. -/
def collections : Value → List (List String × Value)
  | .arr len ps => ([], .arr len ps) :: collectionsProps ps
  | .obj ps => ([], .obj ps) :: collectionsProps ps
  | _ => []
/-- The collections at and below the bindings of a property list. -/
def collectionsProps : List (String × Value) → List (List String × Value)
  | [] => []
  | (k, v) :: rest => ((collections v).map fun e => (k :: e.1, e.2)) ++ collectionsProps rest
end

/-- The own enumerable properties of a collection. -/
def propsOf : Value → List (String × Value)
  | .arr _ ps => ps
  | .obj ps => ps
  | _ => []

/-- The collections strictly below the root of a tree, each with its path. -/
def collectionsBelow (obj : Value) : List (List String × Value) :=
  collectionsProps (propsOf obj)

mutual
/-- The leaves of a tree when a sequence is not descended into, in depth-first order, each with
the keys that lead to it from the root: a node is a leaf when it is scalar or a sequence. -/
def stopLeaves : Value → List (List String × Value)
  | .obj ps => stopLeavesProps ps
  | v => [([], v)]
/-- The leaves, sequences included, below the bindings of a property list. -/
def stopLeavesProps : List (String × Value) → List (List String × Value)
  | [] => []
  | (k, v) :: rest => ((stopLeaves v).map fun e => (k :: e.1, e.2)) ++ stopLeavesProps rest
end

/-- Whether the key `k` may be bound in a collection: any key in a mapping (`bound` is `none`),
and in a sequence of length `len` (`bound` is `some len`) only an index below `len`. -/
def isIndexBelow : Option Nat → String → Bool
  | none, _ => true
  | some len, k =>
    match arrayIndex? k with
    | some i => decide (i < len)
    | none => false

mutual
/-- The sequences of the tree carry only index keys: every key bound in a sequence is the index
of one of its positions. -/
def indexKeysOnly : Value → Bool
  | .arr len ps => indexKeysOnlyProps (some len) ps
  | .obj ps => indexKeysOnlyProps none ps
  | _ => true
/-- The bindings of a collection with the given bound, and the trees they bind, carry only the
keys allowed. -/
def indexKeysOnlyProps (bound : Option Nat) : List (String × Value) → Bool
  | [] => true
  | (k, v) :: rest => isIndexBelow bound k && indexKeysOnly v && indexKeysOnlyProps bound rest
end

/-- Whether the walk of `getPath` without the array-skip rule, over the segments `parts` from
`cur`, ends by reading the `length` of a sequence of exactly one element. -/
def endsAtUnitLength : List String → Value → Bool
  | [], _ => false
  | [part], cur => isArray cur && length cur == 1 && part == "length"
  | part :: next :: rest, cur => endsAtUnitLength (next :: rest) (get cur part)

/-- Whether the assignment `cur[k] = v` touches the `length` of `cur`: `cur` is a sequence and
`k` is `length` or an index at or beyond its end. -/
def resizesAt : Value → String → Bool
  | .arr len _, k =>
    k == "length" ||
      (match arrayIndex? k with
      | some i => decide (len ≤ i)
      | none => false)
  | _, _ => false

/-- Whether `setPath`, walking the segments `parts` from `cur`, makes an assignment that touches
the `length` of a sequence of the tree. -/
def resizes : List String → Value → Bool
  | [], _ => false
  | [part], cur => resizesAt cur part
  | part :: next :: rest, cur =>
    if isScalar (get cur part) then resizesAt cur part
    else resizes (next :: rest) (get cur part)

mutual
/-- The identities of the collections of a located tree. -/
def Located.ids : Located → List Nat
  | .leaf _ => []
  | .arr id _ ps => id :: Located.idsProps ps
  | .obj id ps => id :: Located.idsProps ps
/-- The identities of the collections below a list of located bindings. -/
def Located.idsProps : List (String × Located) → List Nat
  | [] => []
  | (_, v) :: rest => Located.ids v ++ Located.idsProps rest
end

mutual
/-- An in-place change of the object with identity `id`: wherever the tree holds that object,
it now holds `f` of it; every other object is as before. -/
def Located.update (id : Nat) (f : Located → Located) : Located → Located
  | .leaf v => .leaf v
  | .arr i len ps =>
    if i = id then f (.arr i len ps) else .arr i len (Located.updateProps id f ps)
  | .obj i ps => if i = id then f (.obj i ps) else .obj i (Located.updateProps id f ps)
/-- The in-place change of the object `id` below a list of located bindings. -/
def Located.updateProps (id : Nat) (f : Located → Located) :
    List (String × Located) → List (String × Located)
  | [] => []
  | (k, v) :: rest => (k, Located.update id f v) :: Located.updateProps id f rest
end

mutual
/-- The value tree that a located tree holds, identities forgotten. -/
def Located.erase : Located → Value
  | .leaf v => v
  | .arr _ len ps => .arr len (Located.eraseProps ps)
  | .obj _ ps => .obj (Located.eraseProps ps)
/-- The bindings of a located tree, identities forgotten. -/
def Located.eraseProps : List (String × Located) → List (String × Value)
  | [] => []
  | (k, v) :: rest => (k, Located.erase v) :: Located.eraseProps rest
end

mutual
/-- Every leaf of the located tree is a scalar. -/
def Located.scalarLeaves : Located → Bool
  | .leaf v => isScalar v
  | .arr _ _ ps => Located.scalarLeavesProps ps
  | .obj _ ps => Located.scalarLeavesProps ps
/-- Every leaf below the located bindings is a scalar. -/
def Located.scalarLeavesProps : List (String × Located) → Bool
  | [] => true
  | (_, v) :: rest => Located.scalarLeaves v && Located.scalarLeavesProps rest
end

mutual
/-- The nesting depth of a tree: `0` for a scalar, one more than the deepest bound value for a
collection. -/
def depth : Value → Nat
  | .arr _ ps => 1 + depthProps ps
  | .obj ps => 1 + depthProps ps
  | _ => 0
/-- The depth of the deepest value bound in a property list. -/
def depthProps : List (String × Value) → Nat
  | [] => 0
  | (_, v) :: rest => max (depth v) (depthProps rest)
end

/-- The nesting depth of single-element sequences at a node: how many times, starting at `cur`,
a sequence of exactly one element can be replaced by that element. -/
def unitDepth (cur : Value) : Nat :=
  if h : isScalar cur then 0
  else if isArray cur && length cur == 1 then 1 + unitDepth (get cur (indexKey 0))
  else 0
termination_by size cur
decreasing_by
  exact size_get_lt cur _ (by simpa using h)

mutual
/-- The tree is built only from mappings and scalars: it holds no sequence. -/
def sequenceFree : Value → Bool
  | .arr _ _ => false
  | .obj ps => sequenceFreeProps ps
  | _ => true
/-- No value bound in the property list holds a sequence. -/
def sequenceFreeProps : List (String × Value) → Bool
  | [] => true
  | (_, v) :: rest => sequenceFree v && sequenceFreeProps rest
end

/-- The empty mapping `{}`. -/
def isEmptyMapping : Value → Bool
  | .obj [] => true
  | _ => false

mutual
/-- No mapping strictly below the root of the tree is empty. -/
def noEmptyBelow : Value → Bool
  | .arr _ ps => noEmptyBelowProps ps
  | .obj ps => noEmptyBelowProps ps
  | _ => true
/-- No value bound in the property list is an empty mapping or holds one. -/
def noEmptyBelowProps : List (String × Value) → Bool
  | [] => true
  | (_, v) :: rest => !isEmptyMapping v && noEmptyBelow v && noEmptyBelowProps rest
end

/-- The names of the members that a plain object or a sequence inherits: the members of
`Object.prototype`, the accessor `__proto__` among them, and the methods of `Array.prototype`
(ECMAScript 2023).  Where a collection has no own property of such a name, the source's `o[k]`
reads the inherited member, a deletion leaves it in place, and an assignment to `__proto__`
replaces the prototype. -/
def inheritedNames : List String :=
  ["__proto__", "constructor", "hasOwnProperty", "isPrototypeOf", "propertyIsEnumerable",
    "toLocaleString", "toString", "valueOf", "__defineGetter__", "__defineSetter__",
    "__lookupGetter__", "__lookupSetter__", "at", "concat", "copyWithin", "entries", "every",
    "fill", "filter", "find", "findIndex", "findLast", "findLastIndex", "flat", "flatMap",
    "forEach", "includes", "indexOf", "join", "keys", "lastIndexOf", "map", "pop", "push",
    "reduce", "reduceRight", "reverse", "shift", "slice", "some", "sort", "splice", "toReversed",
    "toSorted", "toSpliced", "unshift", "values", "with"]

/-- Whether the key `k` names an inherited member. -/
def isInherited (k : String) : Bool :=
  inheritedNames.contains k

/-- Whether the last segment of a path names an inherited member. -/
def endsInherited (parts : List String) : Bool :=
  match parts.getLast? with
  | some k => isInherited k
  | none => false

mutual
/-- No collection of the tree has an own key `__proto__`. -/
def noProtoKey : Value → Bool
  | .arr _ ps => noProtoKeyProps ps
  | .obj ps => noProtoKeyProps ps
  | _ => true
/-- No binding of the property list, at any depth, has the key `__proto__`. -/
def noProtoKeyProps : List (String × Value) → Bool
  | [] => true
  | (k, v) :: rest => decide (k ≠ "__proto__") && noProtoKey v && noProtoKeyProps rest
end

/-! ## Property lists -/

theorem lookup_assign (ps : Props) (k k' : String) (v : Value) :
    lookup (assign ps k v) k' = if k = k' then v else lookup ps k' := by
  induction ps with
  | nil => simp [assign, lookup]
  | cons e rest ih =>
    obtain ⟨k0, v0⟩ := e
    by_cases h : k0 = k
    · subst h
      by_cases h' : k0 = k' <;> simp [assign, lookup, h']
    · by_cases h' : k0 = k'
      · subst h'
        simp [assign, lookup, h, Ne.symm h]
      · simp [assign, lookup, h, h', ih]

theorem mem_keys_assign (ps : Props) (k k' : String) (v : Value) :
    k' ∈ (assign ps k v).map Prod.fst ↔ k' = k ∨ k' ∈ ps.map Prod.fst := by
  induction ps with
  | nil => simp [assign]
  | cons e rest ih =>
    obtain ⟨k0, v0⟩ := e
    by_cases h : k0 = k
    · subst h
      simp [assign]
    · simp only [assign, h, if_false, List.map_cons, List.mem_cons, ih]
      tauto

/-- Assigning a list of keys in turn: the last-assigned value is read back, other keys keep
their binding. -/
theorem lookup_foldl_assign (f : String → Value) (keys : List String) (init : Props) (k : String) :
    lookup (keys.foldl (fun res key => assign res key (f key)) init) k
      = if k ∈ keys then f k else lookup init k := by
  induction keys generalizing init with
  | nil => simp
  | cons key rest ih =>
    simp only [List.foldl_cons, ih, lookup_assign, List.mem_cons]
    by_cases h1 : k ∈ rest
    · simp [h1]
    · by_cases h2 : key = k
      · subst h2; simp
      · simp [h1, h2, Ne.symm h2]

theorem mem_keys_foldl_assign (f : String → Value) (keys : List String) (init : Props)
    (k : String) :
    k ∈ (keys.foldl (fun res key => assign res key (f key)) init).map Prod.fst
      ↔ k ∈ keys ∨ k ∈ init.map Prod.fst := by
  induction keys generalizing init with
  | nil => simp
  | cons key rest ih =>
    simp only [List.foldl_cons, ih, mem_keys_assign, List.mem_cons]
    tauto

/-! ## Index keys -/

theorem toDigitsCore_append (b fuel n : Nat) (ds : List Char) :
    Nat.toDigitsCore b fuel n ds = Nat.toDigitsCore b fuel n [] ++ ds := by
  induction fuel generalizing n ds with
  | zero => simp [Nat.toDigitsCore]
  | succ f ih =>
    simp only [Nat.toDigitsCore]
    split
    · simp
    · rw [ih, ih (n / b) [_]]; simp

theorem toDigitsCore_ne_nil (b fuel n : Nat) (h : 0 < fuel) :
    Nat.toDigitsCore b fuel n [] ≠ [] := by
  cases fuel with
  | zero => omega
  | succ f =>
    simp only [Nat.toDigitsCore]
    split
    · simp
    · rw [toDigitsCore_append]; simp

theorem digitChar_inj : ∀ a, a < 10 → ∀ b, b < 10 → Nat.digitChar a = Nat.digitChar b → a = b := by
  decide

theorem toDigitsCore_inj (f1 : Nat) : ∀ (f2 n m : Nat), n < f1 → m < f2 →
    Nat.toDigitsCore 10 f1 n [] = Nat.toDigitsCore 10 f2 m [] → n = m := by
  induction f1 with
  | zero => intro f2 n m h; omega
  | succ f1 ih =>
    intro f2 n m hn hm heq
    cases f2 with
    | zero => omega
    | succ f2 =>
      simp only [Nat.toDigitsCore] at heq
      have hd := digitChar_inj (n % 10) (Nat.mod_lt _ (by omega)) (m % 10) (Nat.mod_lt _ (by omega))
      by_cases h1 : n / 10 = 0 <;> by_cases h2 : m / 10 = 0
      · simp only [h1, h2, if_true, List.cons.injEq, and_true] at heq
        have := hd heq
        omega
      · simp only [h1, h2, if_true, if_false] at heq
        rw [toDigitsCore_append] at heq
        have hne := toDigitsCore_ne_nil 10 f2 (m / 10) (by omega)
        have := congrArg List.length heq
        simp only [List.length_append, List.length_cons, List.length_nil] at this
        exact absurd (List.length_eq_zero.mp (by omega)) hne
      · simp only [h1, h2, if_true, if_false] at heq
        rw [toDigitsCore_append] at heq
        have hne := toDigitsCore_ne_nil 10 f1 (n / 10) (by omega)
        have := congrArg List.length heq
        simp only [List.length_append, List.length_cons, List.length_nil] at this
        exact absurd (List.length_eq_zero.mp (by omega)) hne
      · simp only [h1, h2, if_false] at heq
        rw [toDigitsCore_append, toDigitsCore_append 10 f2] at heq
        have h3 := List.append_inj' heq rfl
        have h4 := ih f2 (n / 10) (m / 10) (by omega) (by omega) h3.1
        have h5 := hd (by simpa using h3.2)
        omega

theorem indexKey_injective (i j : Nat) (h : indexKey i = indexKey j) : i = j := by
  have h' := congrArg String.data h
  simp only [indexKey, toString, Nat.repr, List.asString, Nat.toDigits] at h'
  exact toDigitsCore_inj (i + 1) (j + 1) i j (by omega) (by omega) h' 

/-! ## Unfolding `deepEquals` and `deepCopy` -/

theorem deepEquals_scalar (a b : Value) (ha : isScalar a = true) (hb : isScalar b = true) :
    deepEquals a b = scalarEquals a b := by
  rw [deepEquals]; simp [ha, hb]

theorem deepEquals_arr_arr (la lb : Nat) (pa pb : Props) :
    deepEquals (.arr la pa) (.arr lb pb)
      = (decide (la = lb) && (List.range la).all fun i =>
          deepEquals (get (.arr la pa) (indexKey i)) (get (.arr lb pb) (indexKey i))) := by
  rw [deepEquals]
  by_cases h : la = lb <;> simp [isScalar, isNullish, isArray, length, h]

theorem deepEquals_obj_obj (pa pb : Props) :
    deepEquals (.obj pa) (.obj pb)
      = (((pa.map Prod.fst).all fun key => deepEquals (lookup pa key) (lookup pb key))
          && ((pb.map Prod.fst).all fun key => deepEquals (lookup pa key) (lookup pb key))) := by
  rw [deepEquals]
  simp [isScalar, isNullish, isArray, forInKeys, get]

theorem deepCopy_scalar (x : Value) (h : isScalar x = true) : deepCopy x = x := by
  rw [deepCopy]; simp [h]

theorem deepCopy_arr (len : Nat) (ps : Props) :
    deepCopy (.arr len ps)
      = .arr len ((List.range len).map fun i =>
          (indexKey i, deepCopy (get (.arr len ps) (indexKey i)))) := by
  rw [deepCopy]; simp [isScalar, isArray, length]

theorem deepCopy_obj (ps : Props) :
    deepCopy (.obj ps)
      = .obj ((ps.map Prod.fst).foldl
          (fun res key => assign res key (deepCopy (lookup ps key))) []) := by
  rw [deepCopy]; simp [isScalar, isArray, forInKeys, get]

/-! ## C1: a copy is deepEquals to its original -/

theorem lookup_map_indexKey (f : Nat → Value) (l : List Nat) (j : Nat) :
    lookup (l.map fun i => (indexKey i, f i)) (indexKey j)
      = if j ∈ l then f j else .undefined := by
  induction l with
  | nil => simp [lookup]
  | cons i rest ih =>
    simp only [List.map_cons, lookup, ih, List.mem_cons]
    by_cases h : indexKey i = indexKey j
    · have := indexKey_injective i j h
      subst this
      simp
    · have hne : ¬ j = i := fun e => h (by rw [e])
      simp [h, hne]

theorem noNaN_lookup (ps : Props) (k : String) (h : noNaNProps ps = true) :
    noNaN (lookup ps k) = true := by
  induction ps with
  | nil => simp [lookup, noNaN]
  | cons e rest ih =>
    obtain ⟨k0, v0⟩ := e
    simp only [noNaNProps, Bool.and_eq_true] at h
    simp only [lookup]
    split
    · exact h.1
    · exact ih h.2

theorem noNaN_get (x : Value) (k : String) (h : noNaN x = true) : noNaN (get x k) = true := by
  cases x with
  | arr len ps =>
    simp only [get]
    split
    · simp [noNaN]
    · exact noNaN_lookup ps k (by simpa [noNaN] using h)
  | obj ps => exact noNaN_lookup ps k (by simpa [noNaN] using h)
  | str s =>
    simp only [get, charAt]
    repeat' split
    all_goals simp [noNaN]
  | _ => simp [get, noNaN]

theorem scalarEquals_self (x : Value) (hs : isScalar x = true) (h : noNaN x = true) :
    scalarEquals x x = true := by
  cases x with
  | num n => cases n <;> simp_all [scalarEquals, strictEquals, JSNumber.strictEquals, noNaN]
  | date n => cases n <;> simp_all [scalarEquals, strictEquals, JSNumber.strictEquals, noNaN]
  | arr len ps => simp [isScalar] at hs
  | obj ps => simp [isScalar] at hs
  | _ => simp [scalarEquals, strictEquals]

theorem deepEquals_deepCopy_aux (n : Nat) :
    ∀ x : Value, size x < n → noNaN x = true → deepEquals x (deepCopy x) = true := by
  induction n with
  | zero => intro x h; omega
  | succ n ih =>
    intro x hsize hn
    cases hx : x with
    | arr len ps =>
      subst hx
      rw [deepCopy_arr, deepEquals_arr_arr]
      simp only [decide_True, Bool.true_and, List.all_eq_true, List.mem_range]
      intro i hi
      have hcopy : get (.arr len ((List.range len).map fun i =>
            (indexKey i, deepCopy (get (.arr len ps) (indexKey i))))) (indexKey i)
          = deepCopy (get (.arr len ps) (indexKey i)) := by
        by_cases hk : indexKey i = "length"
        · simp only [get, hk, if_true]
          rw [deepCopy_scalar _ (by simp [isScalar])]
        · simp only [get, hk, if_false]
          rw [lookup_map_indexKey (fun i => deepCopy (
            if indexKey i = "length" then Value.num (.finite len) else lookup ps (indexKey i)))]
          simp [hi, hk]
      rw [hcopy]
      exact ih _ (by have := size_get_lt (.arr len ps) (indexKey i) rfl; omega)
        (noNaN_get _ _ hn)
    | obj ps =>
      subst hx
      rw [deepCopy_obj, deepEquals_obj_obj]
      have hstep : ∀ key, deepEquals (lookup ps key) (deepCopy (lookup ps key)) = true := by
        intro key
        exact ih _ (by have := size_get_lt (.obj ps) key rfl; simp only [get] at this; omega)
          (noNaN_get (.obj ps) key hn)
      simp only [Bool.and_eq_true, List.all_eq_true]
      constructor
      · intro key hkey
        rw [lookup_foldl_assign (fun key => deepCopy (lookup ps key))]
        simp only [hkey, if_true]
        exact hstep key
      · intro key hkey
        rw [mem_keys_foldl_assign (fun key => deepCopy (lookup ps key))] at hkey
        simp only [List.map_nil, List.not_mem_nil, or_false] at hkey
        rw [lookup_foldl_assign (fun key => deepCopy (lookup ps key))]
        simp only [hkey, if_true]
        exact hstep key
    | _ =>
      subst hx
      rw [deepCopy_scalar _ (by simp [isScalar]), deepEquals_scalar _ _ (by simp [isScalar])
        (by simp [isScalar])]
      exact scalarEquals_self _ (by simp [isScalar]) hn

/-- C1, as stated, fails: `NaN` is a scalar tree and `deepEquals(NaN, deepCopy(NaN))` is false. -/
theorem deepEquals_deepCopy_nan :
    deepEquals (.num .nan) (deepCopy (.num .nan)) = false := by
  rw [deepCopy_scalar _ (by simp [isScalar]), deepEquals_scalar _ _ (by simp [isScalar])
    (by simp [isScalar])]
  simp [scalarEquals, strictEquals, JSNumber.strictEquals]

/-- C1 (amended): for every value tree `x` (any nesting of scalars, sequences and mappings) that
holds no `NaN` number and no invalid date, and in which no collection has an own key
`__proto__`, `deepEquals(x, deepCopy(x))` is true. -/
theorem deepEquals_deepCopy (x : Value) (h : noNaN x = true) (hproto : noProtoKey x = true) :
    deepEquals x (deepCopy x) = true :=
  deepEquals_deepCopy_aux (size x + 1) x (Nat.lt_succ_self _) h

theorem deepEquals_deepCopy_witness :
    noNaN (.obj [("foo", .str "bar"), ("fuzz", .num (.finite 123)),
        ("biz", .obj [("dat", .date (.finite 1388534400000)), ("n", .null), ("u", .undefined)]),
        ("arr", .arr 2 [("0", .num (.finite 1)), ("1", .num (.finite 2))])]) = true
    ∧ deepEquals
        (.obj [("foo", .str "bar"), ("fuzz", .num (.finite 123)),
          ("biz", .obj [("dat", .date (.finite 1388534400000)), ("n", .null), ("u", .undefined)]),
          ("arr", .arr 2 [("0", .num (.finite 1)), ("1", .num (.finite 2))])])
        (deepCopy (.obj [("foo", .str "bar"), ("fuzz", .num (.finite 123)),
          ("biz", .obj [("dat", .date (.finite 1388534400000)), ("n", .null), ("u", .undefined)]),
          ("arr", .arr 2 [("0", .num (.finite 1)), ("1", .num (.finite 2))])])) = true :=
  ⟨by decide, deepEquals_deepCopy _ (by decide) (by decide)⟩

/-! ## C2: reading back what `setPath` wrote -/

theorem getPathLoop_nil (allowSkipArrays : Bool) (cur : Value) :
    getPathLoop allowSkipArrays [] cur = cur := by
  rw [getPathLoop]

theorem getPathLoop_cons (part : String) (rest : List String) (cur : Value)
    (h : isScalar cur = false) :
    getPathLoop false (part :: rest) cur = getPathLoop false rest (get cur part) := by
  rw [getPathLoop]; simp [h]

theorem setProp_ok (cur : Value) (part : String) (v : Value) (hc : isScalar cur = false)
    (hl : (isArray cur && part == "length") = false) :
    ∃ cur1, setProp cur part v = .ok cur1 ∧ isScalar cur1 = false ∧ get cur1 part = v
      ∧ isArray cur1 = isArray cur := by
  cases cur with
  | obj ps => exact ⟨_, rfl, rfl, by simp [get, lookup_assign], rfl⟩
  | arr len ps =>
    have hp : ¬ part = "length" := by simpa [isArray] using hl
    simp only [setProp, hp, if_false]
    cases arrayIndex? part <;>
      exact ⟨_, rfl, rfl, by simp [get, hp, lookup_assign], rfl⟩
  | _ => simp [isScalar] at hc

theorem get_putProp (cur : Value) (part : String) (sub : Value) (hc : isScalar cur = false)
    (hl : (isArray cur && part == "length") = false) :
    get (putProp cur part sub) part = sub ∧ isScalar (putProp cur part sub) = false := by
  cases cur with
  | obj ps => simp [putProp, get, lookup_assign, isScalar]
  | arr len ps =>
    have hp : ¬ part = "length" := by simpa [isArray] using hl
    simp [putProp, get, hp, lookup_assign, isScalar]
  | _ => simp [isScalar] at hc

theorem setProp_final (cur : Value) (part : String) (v : Value) (hc : isScalar cur = false)
    (hl : (isArray cur && part == "length" && !validLength v) = false) :
    ∃ cur1, setProp cur part v = .ok cur1 ∧ isScalar cur1 = false ∧ get cur1 part = v := by
  by_cases h : (isArray cur && part == "length") = true
  · have hv : validLength v = true := by simpa [h] using hl
    simp only [Bool.and_eq_true, beq_iff_eq] at h
    obtain ⟨ha, hp⟩ := h
    subst hp
    cases cur with
    | arr len ps =>
      cases v with
      | num n =>
        cases n with
        | finite n =>
          have hn : 0 ≤ n ∧ n < 4294967296 := by simpa [validLength] using hv
          refine ⟨.arr n.toNat (ps.filter fun e =>
            match arrayIndex? e.1 with
            | some i => decide (i < n.toNat)
            | none => true), ?_, rfl, ?_⟩
          · simp only [setProp, if_true, setLength, toNumber?]
            rw [if_pos hn]
          · simp [get, Int.toNat_of_nonneg hn.1]
        | nan => simp [validLength] at hv
      | _ => simp [validLength] at hv
    | _ => simp [isArray] at ha
  · obtain ⟨cur1, h1, h2, h3, -⟩ := setProp_ok cur part v hc (by simpa using h)
    exact ⟨cur1, h1, h2, h3⟩

theorem assignsBadLength_empty_obj (parts : List String) (v : Value) :
    assignsBadLength parts (.obj []) v = false := by
  match parts with
  | [] => rfl
  | [part] => simp [assignsBadLength, isArray]
  | part :: next :: rest => simp [assignsBadLength, isArray, get, lookup, isScalar]

theorem getPathLoop_setPathLoop (parts : List String) (hne : parts ≠ []) :
    ∀ (cur v : Value), isScalar cur = false → assignsBadLength parts cur v = false →
      ∃ cur1, setPathLoop parts cur v = .ok cur1 ∧ isScalar cur1 = false
        ∧ getPathLoop false parts cur1 = v := by
  induction parts with
  | nil => exact absurd rfl hne
  | cons part rest ih =>
    intro cur v hc hl
    cases rest with
    | nil =>
      simp only [assignsBadLength] at hl
      obtain ⟨cur1, h1, h2, h3⟩ := setProp_final cur part v hc hl
      refine ⟨cur1, by simpa [setPathLoop] using h1, h2, ?_⟩
      rw [getPathLoop_cons _ _ _ h2, getPathLoop_nil, h3]
    | cons next rest =>
      simp only [assignsBadLength, Bool.or_eq_false_iff] at hl
      obtain ⟨hl1, hl2⟩ := hl
      by_cases hs : isScalar (get cur part) = true
      · obtain ⟨cur1, h1, h2, h3, h4⟩ := setProp_ok cur part (.obj []) hc hl1
        obtain ⟨sub, s1, s2, s3⟩ := ih (by simp) (get cur1 part) v (by rw [h3]; rfl)
          (by rw [h3]; exact assignsBadLength_empty_obj _ _)
        have hp := get_putProp cur1 part sub h2 (by rw [h4]; exact hl1)
        refine ⟨putProp cur1 part sub, ?_, hp.2, ?_⟩
        · simp only [setPathLoop, hs, if_true, h1, bind, Except.bind, s1]; rfl
        · rw [getPathLoop_cons _ _ _ hp.2, hp.1]; exact s3
      · have hs' : isScalar (get cur part) = false := by simpa using hs
        obtain ⟨sub, s1, s2, s3⟩ := ih (by simp) (get cur part) v hs' (by simpa [hs'] using hl2)
        have hp := get_putProp cur part sub hc hl1
        refine ⟨putProp cur part sub, ?_, hp.2, ?_⟩
        · simp only [setPathLoop, hs', bind, Except.bind, s1]; rfl
        · rw [getPathLoop_cons _ _ _ hp.2, hp.1]; exact s3

theorem splitChars_ne_nil (cs : List Char) : splitChars cs ≠ [] := by
  cases cs with
  | nil => simp [splitChars]
  | cons c cs =>
    simp only [splitChars]
    split
    · simp
    · split <;> simp

theorem splitDots_ne_nil (p : String) : splitDots p ≠ [] := by
  simp [splitDots, splitChars_ne_nil]

/-- C2, as stated, fails on a sequence whose `length` is the addressed key:
`setPath([1, 2], "length", null)` sets the length to `0`, so `getPath` reads back the number `0`
and not `null`; `setPath([1, 2], "length", undefined)` throws a `RangeError`. -/
theorem getPath_setPath_length :
    setPath (.arr 2 [("0", .num (.finite 1)), ("1", .num (.finite 2))]) "length" .null
        = .ok (.arr 0 [])
      ∧ getPath (.arr 0 []) (.str "length") false = .num (.finite 0)
      ∧ setPath (.arr 2 [("0", .num (.finite 1)), ("1", .num (.finite 2))]) "length" .undefined
        = .error .rangeError := by
  refine ⟨by rfl, ?_, by rfl⟩
  have h : splitDots "length" = ["length"] := by decide
  rw [getPath, h, getPathLoop_cons "length" [] (.arr 0 []) rfl, getPathLoop_nil]
  rfl

/-- C2 (amended): get-after-set.  For every collection `obj`, every dot-separated path `p` none
of whose segments is `__proto__`, and every value `v`, such that the walk never assigns to the
`length` of a sequence anything but a valid length (an integer from `0` to `2^32 - 1`, as the
final segment), `setPath(obj, p, v)` returns normally and `getPath` of the result at `p`
(allowSkipArrays off) is `v`, whatever was at `p` or at its intermediate segments before. -/
theorem getPath_setPath (obj : Value) (p : String) (v : Value) (hobj : isScalar obj = false)
    (hproto : "__proto__" ∉ splitDots p)
    (hlen : assignsBadLength (splitDots p) obj v = false) :
    ∃ obj1, setPath obj p v = .ok obj1 ∧ getPath obj1 (.str p) false = v := by
  obtain ⟨obj1, h1, -, h3⟩ := getPathLoop_setPathLoop (splitDots p) (splitDots_ne_nil p) obj v
    hobj hlen
  exact ⟨obj1, h1, h3⟩

theorem getPath_setPath_witness :
    isScalar (.obj [("baz", .obj [("arr", .arr 2 [("0", .num (.finite 1)),
        ("1", .num (.finite 8))])])]) = false
    ∧ assignsBadLength (splitDots "baz.arr.1.buz")
        (.obj [("baz", .obj [("arr", .arr 2 [("0", .num (.finite 1)),
          ("1", .num (.finite 8))])])]) (.num (.finite 11)) = false
    ∧ ∃ obj1, setPath (.obj [("baz", .obj [("arr", .arr 2 [("0", .num (.finite 1)),
          ("1", .num (.finite 8))])])]) "baz.arr.1.buz" (.num (.finite 11)) = .ok obj1
        ∧ getPath obj1 (.str "baz.arr.1.buz") false = .num (.finite 11) :=
  ⟨rfl, by decide, getPath_setPath _ _ _ rfl (by decide) (by decide)⟩

/-! ## C3, C4, C5: what `deepEquals` compares -/

theorem lookup_perm (ps qs : Props) (h : ps.Perm qs) (hn : (ps.map Prod.fst).Nodup)
    (k : String) : lookup ps k = lookup qs k := by
  induction h with
  | nil => rfl
  | cons x _ ih =>
    obtain ⟨k0, v0⟩ := x
    simp only [List.map_cons, List.nodup_cons] at hn
    simp only [lookup, ih hn.2]
  | swap x y l =>
    obtain ⟨k0, v0⟩ := x
    obtain ⟨k1, v1⟩ := y
    simp only [List.map_cons, List.nodup_cons, List.mem_cons, not_or] at hn
    have hne : ¬ k1 = k0 := hn.1.1
    simp only [lookup]
    by_cases h0 : k0 = k
    · subst h0; simp [hne]
    · simp [h0]
  | trans h1 _ ih1 ih2 =>
    rw [ih1 hn, ih2 ((h1.map Prod.fst).nodup_iff.mp hn)]

theorem deepEquals_obj_obj_iff (pa pb : Props) :
    deepEquals (.obj pa) (.obj pb) = true
      ↔ ∀ k, (k ∈ pa.map Prod.fst ∨ k ∈ pb.map Prod.fst) →
          deepEquals (lookup pa k) (lookup pb k) = true := by
  rw [deepEquals_obj_obj]
  simp only [Bool.and_eq_true, List.all_eq_true]
  constructor
  · rintro ⟨h1, h2⟩ k (hk | hk)
    · exact h1 k hk
    · exact h2 k hk
  · intro h
    exact ⟨fun k hk => h k (Or.inl hk), fun k hk => h k (Or.inr hk)⟩

/-- What `deepEquals` does on two keyed mappings `a` and `b` none of whose keys names an inherited
member: it is true if and only if `deepEquals(a[k], b[k])` is true for every key `k` present in
`a` or in `b`, a missing key reading as `undefined`; consequently reordering the keys of either
mapping does not change the result, and `{k: undefined}` is `deepEquals` to `{}` for every such
key `k`.  At a key that names an inherited member and is missing on one side, the source compares
with the inherited member instead. -/
theorem deepEquals_mappings (pa pb : Props)
    (hown : ∀ k ∈ pa.map Prod.fst ++ pb.map Prod.fst, isInherited k = false) :
    (deepEquals (.obj pa) (.obj pb) = true
      ↔ ∀ k, (k ∈ pa.map Prod.fst ∨ k ∈ pb.map Prod.fst) →
          deepEquals (lookup pa k) (lookup pb k) = true)
    ∧ (∀ qa qb : Props, pa.Perm qa → pb.Perm qb → (pa.map Prod.fst).Nodup →
        (pb.map Prod.fst).Nodup → deepEquals (.obj qa) (.obj qb) = deepEquals (.obj pa) (.obj pb))
    ∧ (∀ k : String, isInherited k = false →
        deepEquals (.obj [(k, .undefined)]) (.obj []) = true
          ∧ deepEquals (.obj []) (.obj [(k, .undefined)]) = true) := by
  refine ⟨deepEquals_obj_obj_iff pa pb, ?_, ?_⟩
  · intro qa qb ha hb hna hnb
    rw [Bool.eq_iff_iff, deepEquals_obj_obj_iff, deepEquals_obj_obj_iff]
    have hka : ∀ k, k ∈ qa.map Prod.fst ↔ k ∈ pa.map Prod.fst :=
      fun k => (ha.map Prod.fst).mem_iff.symm
    have hkb : ∀ k, k ∈ qb.map Prod.fst ↔ k ∈ pb.map Prod.fst :=
      fun k => (hb.map Prod.fst).mem_iff.symm
    constructor
    · intro h k hk
      rw [lookup_perm pa qa ha hna, lookup_perm pb qb hb hnb]
      exact h k (by rw [hka, hkb]; exact hk)
    · intro h k hk
      rw [← lookup_perm pa qa ha hna, ← lookup_perm pb qb hb hnb]
      exact h k (by rw [← hka, ← hkb]; exact hk)
  · intro k _
    have hu : deepEquals .undefined .undefined = true := by
      rw [deepEquals_scalar .undefined .undefined rfl rfl]; rfl
    constructor <;> simp [deepEquals_obj_obj, lookup, hu]

theorem deepEquals_mappings_witness :
    deepEquals (.obj [("b", .null), ("a", .num (.finite 1))])
        (.obj [("a", .num (.finite 1)), ("b", .null)])
      = deepEquals (.obj [("a", .num (.finite 1)), ("b", .null)])
        (.obj [("a", .num (.finite 1)), ("b", .null)]) :=
  (deepEquals_mappings [("a", .num (.finite 1)), ("b", .null)]
    [("a", .num (.finite 1)), ("b", .null)] (by decide)).2.1
    [("b", .null), ("a", .num (.finite 1))] [("a", .num (.finite 1)), ("b", .null)]
    (List.Perm.swap _ _ _) (List.Perm.refl _) (by decide) (by decide)

/-- C4: for any two ordered sequences `a` and `b`, `deepEquals(a, b)` is true if and only if they
have the same length and `deepEquals(a[i], b[i])` is true for every index `i` below it. -/
theorem deepEquals_sequences (la lb : Nat) (pa pb : Props) :
    deepEquals (.arr la pa) (.arr lb pb) = true
      ↔ la = lb ∧ ∀ i, i < la →
          deepEquals (get (.arr la pa) (indexKey i)) (get (.arr lb pb) (indexKey i)) = true := by
  rw [deepEquals_arr_arr]
  simp [List.all_eq_true]

/-- C5: `deepEquals` never coerces across scalar kinds.  On two scalars it is `scalarEquals`, and
for every key `k`: `deepEquals({k: null}, {k: undefined})` is false, `deepEquals({k: 0}, {k: null})`
is false, `deepEquals({k: null}, {k: null})` is true and
`deepEquals({k: undefined}, {k: undefined})` is true. -/
theorem deepEquals_no_coercion :
    (∀ a b : Value, isScalar a = true → isScalar b = true →
        deepEquals a b = scalarEquals a b)
    ∧ ∀ k : String,
        deepEquals (.obj [(k, .null)]) (.obj [(k, .undefined)]) = false
        ∧ deepEquals (.obj [(k, .num (.finite 0))]) (.obj [(k, .null)]) = false
        ∧ deepEquals (.obj [(k, .null)]) (.obj [(k, .null)]) = true
        ∧ deepEquals (.obj [(k, .undefined)]) (.obj [(k, .undefined)]) = true := by
  refine ⟨deepEquals_scalar, fun k => ?_⟩
  have h1 : deepEquals .null .undefined = false := by
    rw [deepEquals_scalar .null .undefined rfl rfl]; rfl
  have h2 : deepEquals (.num (.finite 0)) .null = false := by
    rw [deepEquals_scalar (.num (.finite 0)) .null rfl rfl]; rfl
  have h3 : deepEquals .null .null = true := by
    rw [deepEquals_scalar .null .null rfl rfl]; rfl
  have h4 : deepEquals .undefined .undefined = true := by
    rw [deepEquals_scalar .undefined .undefined rfl rfl]; rfl
  simp [deepEquals_obj_obj, lookup, h1, h2, h3, h4]

theorem deepEquals_no_coercion_witness :
    deepEquals (.num (.finite 0)) .null = scalarEquals (.num (.finite 0)) .null :=
  deepEquals_no_coercion.1 (.num (.finite 0)) .null rfl rfl

/-! ## Unfolding `addObj` and `matchDottedObject` -/

theorem addObj_leaf (includeRedundantLevels stopAtArrays : Bool) (obj : Value) (path : String)
    (result : Props) (h : (isScalar obj || (isArray obj && stopAtArrays)) = true) :
    addObj includeRedundantLevels stopAtArrays obj path result = assign result path obj := by
  rw [addObj]; simp only [h, dite_true]

theorem addObj_node (includeRedundantLevels stopAtArrays : Bool) (obj : Value) (path : String)
    (result : Props) (h : (isScalar obj || (isArray obj && stopAtArrays)) = false) :
    addObj includeRedundantLevels stopAtArrays obj path result
      = (forInKeys obj).foldl
          (fun res key =>
            addObj includeRedundantLevels stopAtArrays (get obj key) (joinPath path key) res)
          (if includeRedundantLevels then assign result path obj else result) := by
  rw [addObj]; simp only [h, Bool.false_eq_true, dite_false]

theorem addObj_scalar (includeRedundantLevels stopAtArrays : Bool) (obj : Value) (path : String)
    (result : Props) (h : isScalar obj = true) :
    addObj includeRedundantLevels stopAtArrays obj path result = assign result path obj :=
  addObj_leaf _ _ _ _ _ (by simp [h])

theorem addObj_obj (includeRedundantLevels stopAtArrays : Bool) (ps : Props) (path : String)
    (result : Props) :
    addObj includeRedundantLevels stopAtArrays (.obj ps) path result
      = (ps.map Prod.fst).foldl
          (fun res key =>
            addObj includeRedundantLevels stopAtArrays (lookup ps key) (joinPath path key) res)
          (if includeRedundantLevels then assign result path (.obj ps) else result) :=
  addObj_node _ _ _ _ _ (by simp [isScalar, isArray])

theorem addObj_arr (includeRedundantLevels : Bool) (len : Nat) (ps : Props) (path : String)
    (result : Props) :
    addObj includeRedundantLevels false (.arr len ps) path result
      = (ps.map Prod.fst).foldl
          (fun res key =>
            addObj includeRedundantLevels false (get (.arr len ps) key) (joinPath path key) res)
          (if includeRedundantLevels then assign result path (.arr len ps) else result) :=
  addObj_node _ _ _ _ _ (by simp [isScalar])

theorem collapseToDotted_scalar (obj : Value) (i s : Bool) (h : isScalar obj = true) :
    collapseToDotted obj i s = .obj [] := by
  simp [collapseToDotted, h]

theorem collapseToDotted_obj (ps : Props) (i s : Bool) :
    collapseToDotted (.obj ps) i s = .obj (remove (addObj i s (.obj ps) "" []) "") := by
  simp [collapseToDotted, isScalar]

theorem joinPath_empty (key : String) : joinPath "" key = key := by
  simp [joinPath]

theorem lookup_remove (ps : Props) (k0 k : String) :
    lookup (remove ps k0) k = if k = k0 then .undefined else lookup ps k := by
  induction ps with
  | nil => simp [remove, lookup]
  | cons e rest ih =>
    obtain ⟨k1, v1⟩ := e
    simp only [remove] at ih
    simp only [remove, List.filter_cons]
    by_cases h1 : k1 = k0
    · subst h1
      by_cases h2 : k = k1
      · subst h2; simp [ih, lookup]
      · have h3 : ¬ k1 = k := fun e => h2 e.symm
        simp [ih, lookup, h2, h3]
    · by_cases h2 : k1 = k
      · subst h2; simp [h1, lookup]
      · simp [h1, lookup, h2, ih]

theorem mem_keys_remove (ps : Props) (k0 k : String) :
    k ∈ (remove ps k0).map Prod.fst ↔ k ∈ ps.map Prod.fst ∧ k ≠ k0 := by
  simp only [remove, List.mem_map, List.mem_filter]
  constructor
  · rintro ⟨e, ⟨he, hk⟩, rfl⟩
    exact ⟨⟨e, he, rfl⟩, by simpa using hk⟩
  · rintro ⟨⟨e, he, rfl⟩, hk⟩
    exact ⟨e, ⟨he, by simpa using hk⟩, rfl⟩

theorem lookup_of_not_mem (ps : Props) (k : String) (h : k ∉ ps.map Prod.fst) :
    lookup ps k = .undefined := by
  induction ps with
  | nil => rfl
  | cons e rest ih =>
    obtain ⟨k1, v1⟩ := e
    simp only [List.map_cons, List.mem_cons, not_or] at h
    have h1 : ¬ k1 = k := fun e => h.1 e.symm
    simp [lookup, h1, ih h.2]

theorem all_congr_mem (l : List String) (f g : String → Bool) (h : ∀ k, k ∈ l → f k = g k) :
    l.all f = l.all g := by
  induction l with
  | nil => rfl
  | cons x rest ih =>
    simp only [List.all_cons]
    rw [h x (List.mem_cons_self _ _), ih fun k hk => h k (List.mem_cons_of_mem _ hk)]

theorem matchDottedObject_collections (doc query : Value) (hd : isScalar doc = false)
    (hq : isScalar query = false) :
    matchDottedObject doc query
      = (forInKeys query).all fun k => deepEquals (get doc k) (get query k) := by
  have h1 : strictEquals query (.bool true) = false := by
    cases query <;> first | rfl | simp [isScalar] at hq
  simp only [matchDottedObject, h1, hd, hq, Bool.or_self, Bool.false_eq_true, if_false]

theorem matchDottedObject_obj (doc : Value) (qs : Props) (hd : isScalar doc = false) :
    matchDottedObject doc (.obj qs)
      = (qs.map Prod.fst).all fun k => deepEquals (get doc k) (lookup qs k) :=
  matchDottedObject_collections doc (.obj qs) hd rfl

theorem scalarEquals_comm (a b : Value) : scalarEquals a b = scalarEquals b a := by
  have hn : ∀ m n : JSNumber, m.strictEquals n = n.strictEquals m := by
    intro m n
    cases m <;> cases n <;> simp [JSNumber.strictEquals, eq_comm]
  cases a <;> cases b <;> simp [scalarEquals, strictEquals, hn, Bool.beq_comm, eq_comm]

/-! ## C6, C7: matching -/

/-- C6, evaluated where it fails: `0` and `null` are not `scalarEquals`, yet
`matchObject(0, null)` is true, and so is `matchObject({"": 0}, {"": null})`. -/
theorem matchObject_scalars_true :
    scalarEquals (.num (.finite 0)) .null = false
      ∧ matchObject (.num (.finite 0)) .null = true
      ∧ matchObject (.obj [("", .num (.finite 0))]) (.obj [("", .null)]) = true := by
  refine ⟨rfl, ?_, ?_⟩
  · rw [matchObject, collapseToDotted_scalar (.num (.finite 0)) false false rfl,
      collapseToDotted_scalar .null false false rfl, matchDottedObject_obj (.obj []) [] rfl]
    rfl
  · have hc : ∀ v : Value, isScalar v = true →
        collapseToDotted (.obj [("", v)]) false false = .obj [] := by
      intro v hv
      rw [collapseToDotted_obj, addObj_obj]
      simp [joinPath_empty, lookup, addObj_scalar, hv, assign, remove]
    rw [matchObject, hc (.num (.finite 0)) rfl, hc .null rfl,
      matchDottedObject_obj (.obj []) [] rfl]
    rfl

/-- Where matching does not coerce across scalar kinds.  For every pair of scalars `a` and `b`
that are not `scalarEquals`, `matchDottedObject(a, b)` is false,
`matchDottedObject({k: a}, {k: b})` is false for every key `k`, and
`matchObject({k: a}, {k: b})` is false for every key `k` other than the empty key and
`__proto__`. -/
theorem match_no_coercion (a b : Value) (ha : isScalar a = true) (hb : isScalar b = true)
    (hne : scalarEquals a b = false) :
    matchDottedObject a b = false
    ∧ (∀ k : String, matchDottedObject (.obj [(k, a)]) (.obj [(k, b)]) = false)
    ∧ (∀ k : String, k ≠ "" → k ≠ "__proto__" →
        matchObject (.obj [(k, a)]) (.obj [(k, b)]) = false) := by
  have hab : deepEquals a b = false := by rw [deepEquals_scalar a b ha hb]; exact hne
  have hba : deepEquals b a = false := by
    rw [deepEquals_scalar b a hb ha, scalarEquals_comm]; exact hne
  have hk : ∀ k : String, matchDottedObject (.obj [(k, a)]) (.obj [(k, b)]) = false := by
    intro k
    rw [matchDottedObject_obj (.obj [(k, a)]) [(k, b)] rfl]
    simp [get, lookup, hab]
  refine ⟨?_, hk, ?_⟩
  · simp only [matchDottedObject, ha, hb, Bool.or_self, if_true, hba]
    split
    · rename_i h
      cases b <;> simp [strictEquals] at h
      subst h
      cases a <;> simp_all [scalarEquals, strictEquals]
    · rfl
  · intro k hkne _
    have hc : ∀ v : Value, isScalar v = true →
        collapseToDotted (.obj [(k, v)]) false false = .obj [(k, v)] := by
      intro v hv
      have hkne2 : ¬ k = "" := hkne
      rw [collapseToDotted_obj, addObj_obj]
      simp [joinPath_empty, lookup, addObj_scalar, hv, assign, remove, hkne2]
    rw [matchObject, hc a ha, hc b hb]
    exact hk k

theorem match_no_coercion_witness :
    scalarEquals .undefined .null = false
      ∧ matchDottedObject .undefined .null = false
      ∧ (∀ k : String, matchDottedObject (.obj [(k, .undefined)]) (.obj [(k, .null)]) = false)
      ∧ (∀ k : String, k ≠ "" → k ≠ "__proto__" →
          matchObject (.obj [(k, .undefined)]) (.obj [(k, .null)]) = false) :=
  ⟨rfl, match_no_coercion .undefined .null rfl rfl rfl⟩

/-- C7: `matchDottedObject(doc, query)` equals the reference definition for all inputs: a query
that is the boolean `true` matches exactly the document `true`; otherwise, if either side is
scalar, the result is `deepEquals(query, doc)`; otherwise the result is true exactly when
`deepEquals(doc[k], query[k])` holds for every key `k` of the query.  Hence two documents (both
collections) that agree on the keys of a query (a collection) match it alike: keys of the document
that are not in the query never affect the result. -/
theorem matchDottedObject_eq_ref :
    (∀ doc query : Value, matchDottedObject doc query = matchDottedObjectRef doc query)
    ∧ (∀ doc query : Value, isScalar doc = false → isScalar query = false →
        (matchDottedObject doc query = true
          ↔ ∀ k, k ∈ forInKeys query → deepEquals (get doc k) (get query k) = true))
    ∧ (∀ doc1 doc2 query : Value, isScalar doc1 = false → isScalar doc2 = false →
        isScalar query = false → (∀ k, k ∈ forInKeys query → get doc1 k = get doc2 k) →
        matchDottedObject doc1 query = matchDottedObject doc2 query) := by
  refine ⟨?_, ?_, ?_⟩
  · intro doc query
    cases query with
    | bool b =>
      cases b
      · simp [matchDottedObject, matchDottedObjectRef, strictEquals, Bool.or_comm]
      · cases doc with
        | bool c => cases c <;> simp [matchDottedObject, matchDottedObjectRef, strictEquals]
        | _ => simp [matchDottedObject, matchDottedObjectRef, strictEquals]
    | _ => simp [matchDottedObject, matchDottedObjectRef, strictEquals, Bool.or_comm]
  · intro doc query hd hq
    rw [matchDottedObject_collections doc query hd hq, List.all_eq_true]
  · intro doc1 doc2 query h1 h2 hq hagree
    rw [matchDottedObject_collections doc1 query h1 hq,
      matchDottedObject_collections doc2 query h2 hq]
    apply all_congr_mem
    intro k hk
    rw [hagree k hk]

theorem matchDottedObject_eq_ref_witness :
    matchDottedObject (.obj [("foo", .str "foo"), ("zip", .num (.finite 4))])
        (.obj [("foo", .str "foo")])
      = matchDottedObject (.obj [("foo", .str "foo")]) (.obj [("foo", .str "foo")]) :=
  matchDottedObject_eq_ref.2.2 (.obj [("foo", .str "foo"), ("zip", .num (.finite 4))])
    (.obj [("foo", .str "foo")]) (.obj [("foo", .str "foo")]) rfl rfl rfl
    (by intro k hk; simp [forInKeys] at hk; subst hk; simp [get, lookup])

/-! ## C8: nested and dotted queries -/

theorem foldl_invariant {α β : Type} (P : β → Prop) (f : β → α → β) (l : List α) (init : β)
    (h0 : P init) (hstep : ∀ b a, a ∈ l → P b → P (f b a)) : P (l.foldl f init) := by
  induction l generalizing init with
  | nil => exact h0
  | cons x rest ih =>
    simp only [List.foldl_cons]
    exact ih _ (hstep _ _ (List.mem_cons_self _ _) h0)
      (fun b a ha hb => hstep b a (List.mem_cons_of_mem _ ha) hb)

theorem addObj_scalar_values_aux (n : Nat) :
    ∀ obj : Value, size obj < n → ∀ (path : String) (result : Props),
      (∀ k, isScalar (lookup result k) = true) →
      ∀ k, isScalar (lookup (addObj false false obj path result) k) = true := by
  induction n with
  | zero => intro obj h; omega
  | succ n ih =>
    intro obj hsize path result hres
    by_cases hs : isScalar obj = true
    · rw [addObj_scalar _ _ _ _ _ hs]
      intro k
      rw [lookup_assign]
      split
      · exact hs
      · exact hres k
    · have hs2 : isScalar obj = false := by simpa using hs
      rw [addObj_node _ _ _ _ _ (by simp [hs2])]
      simp only [Bool.false_eq_true, if_false]
      apply foldl_invariant (fun res : Props => ∀ k, isScalar (lookup res k) = true)
      · exact hres
      · intro res key _ hP
        exact ih (get obj key) (by have := size_get_lt obj key hs2; omega) _ res hP

/-- The dotted form with default flags: a mapping that binds only scalars and does not bind the
empty key. -/
theorem collapseToDotted_shape (q : Value) :
    ∃ F : Props, collapseToDotted q false false = .obj F
      ∧ (∀ k, isScalar (lookup F k) = true) ∧ "" ∉ F.map Prod.fst := by
  by_cases hs : isScalar q = true
  · exact ⟨[], collapseToDotted_scalar q _ _ hs, fun _ => rfl, by simp⟩
  · refine ⟨remove (addObj false false q "" []) "", by simp [collapseToDotted, hs], ?_, ?_⟩
    · intro k
      rw [lookup_remove]
      split
      · rfl
      · exact addObj_scalar_values_aux _ q (Nat.lt_succ_self _) "" [] (fun _ => rfl) k
    · rw [mem_keys_remove]
      simp

theorem collapseToDotted_flat (F : Props) (hF : ∀ k, isScalar (lookup F k) = true) :
    collapseToDotted (.obj F) false false
      = .obj (remove ((F.map Prod.fst).foldl (fun res key => assign res key (lookup F key)) [])
          "") := by
  rw [collapseToDotted_obj, addObj_obj]
  simp only [Bool.false_eq_true, if_false]
  have hfun : (fun (res : Props) (key : String) =>
        addObj false false (lookup F key) (joinPath "" key) res)
      = fun res key => assign res key (lookup F key) := by
    funext res key
    rw [addObj_scalar _ _ _ _ _ (hF key), joinPath_empty]
  rw [hfun]

theorem matchObject_collapse_query (doc q : Value) :
    matchObject doc q = matchObject doc (collapseToDotted q false false) := by
  obtain ⟨F, hq, hF, hne⟩ := collapseToDotted_shape q
  obtain ⟨D, hd, -, -⟩ := collapseToDotted_shape doc
  rw [matchObject, matchObject, hq, hd, collapseToDotted_flat F hF,
    matchDottedObject_obj (.obj D) _ rfl, matchDottedObject_obj (.obj D) _ rfl]
  rw [Bool.eq_iff_iff, List.all_eq_true, List.all_eq_true]
  have hmem : ∀ k, k ∈ (remove ((F.map Prod.fst).foldl
      (fun res key => assign res key (lookup F key)) []) "").map Prod.fst
        ↔ k ∈ F.map Prod.fst := by
    intro k
    rw [mem_keys_remove, mem_keys_foldl_assign (fun key => lookup F key)]
    constructor
    · rintro ⟨h | h, -⟩
      · exact h
      · simp at h
    · intro h
      exact ⟨Or.inl h, fun e => hne (e ▸ h)⟩
  have hlook : ∀ k, k ∈ F.map Prod.fst → lookup (remove ((F.map Prod.fst).foldl
      (fun res key => assign res key (lookup F key)) []) "") k = lookup F k := by
    intro k hk
    have hk2 : ¬ k = "" := fun e => hne (e ▸ hk)
    rw [lookup_remove, lookup_foldl_assign (fun key => lookup F key)]
    simp [hk, hk2]
  constructor
  · intro h k hk
    rw [hmem] at hk
    rw [hlook k hk]
    exact h k hk
  · intro h k hk
    rw [← hlook k hk]
    exact h k ((hmem k).mpr hk)

/-- C8: nested and dotted queries are interchangeable in `matchObject`.  For every `doc` and every
query `q`, `matchObject(doc, q) = matchObject(doc, collapseToDotted(q))
= matchDottedObject(collapseToDotted(doc), collapseToDotted(q))`; in particular the queries
`{bar: {biz: 12}}` and `{"bar.biz": 12}` match exactly the same documents. -/
theorem matchObject_nested_dotted (doc q : Value) :
    matchObject doc q = matchObject doc (collapseToDotted q false false)
    ∧ matchObject doc (collapseToDotted q false false)
        = matchDottedObject (collapseToDotted doc false false) (collapseToDotted q false false)
    ∧ matchObject doc (.obj [("bar", .obj [("biz", .num (.finite 12))])])
        = matchObject doc (.obj [("bar.biz", .num (.finite 12))]) := by
  refine ⟨matchObject_collapse_query doc q, ?_, ?_⟩
  · rw [← matchObject_collapse_query doc q]; rfl
  · have h1 : collapseToDotted (.obj [("bar", .obj [("biz", .num (.finite 12))])]) false false
        = .obj [("bar.biz", .num (.finite 12))] := by
      have hj : joinPath "bar" "biz" = "bar.biz" := by decide
      rw [collapseToDotted_obj, addObj_obj]
      simp [joinPath_empty, lookup, addObj_obj, addObj_scalar, isScalar, hj, assign, remove]
    have h2 : collapseToDotted (.obj [("bar.biz", .num (.finite 12))]) false false
        = .obj [("bar.biz", .num (.finite 12))] := by
      rw [collapseToDotted_obj, addObj_obj]
      simp [joinPath_empty, lookup, addObj_scalar, isScalar, assign, remove]
    rw [matchObject, matchObject, h1, h2]

/-! ## C10: the dotted form and `getPath` -/

theorem assignments_leaf (i s : Bool) (obj : Value) (path : String)
    (h : (isScalar obj || (isArray obj && s)) = true) :
    assignments i s obj path = [(path, obj)] := by
  rw [assignments]; simp only [h, dite_true]

theorem assignments_node (i s : Bool) (obj : Value) (path : String)
    (h : (isScalar obj || (isArray obj && s)) = false) :
    assignments i s obj path
      = (if i then [(path, obj)] else [])
        ++ ((forInKeys obj).map fun key =>
            assignments i s (get obj key) (joinPath path key)).flatten := by
  rw [assignments]; simp only [h, Bool.false_eq_true, dite_false]

theorem foldl_assign_append (es1 es2 : List (String × Value)) (init : Props) :
    (es1 ++ es2).foldl (fun res e => assign res e.1 e.2) init
      = es2.foldl (fun res e => assign res e.1 e.2)
          (es1.foldl (fun res e => assign res e.1 e.2) init) :=
  List.foldl_append _ _ _ _

theorem addObj_eq_foldl_aux (i s : Bool) (n : Nat) :
    ∀ obj : Value, size obj < n → ∀ (path : String) (result : Props),
      addObj i s obj path result
        = (assignments i s obj path).foldl (fun res e => assign res e.1 e.2) result := by
  induction n with
  | zero => intro obj h; omega
  | succ n ih =>
    intro obj hsize path result
    by_cases hl : (isScalar obj || (isArray obj && s)) = true
    · rw [addObj_leaf _ _ _ _ _ hl, assignments_leaf _ _ _ _ hl]; rfl
    · have hl2 : (isScalar obj || (isArray obj && s)) = false := by simpa using hl
      have hs : isScalar obj = false := by
        simp only [Bool.or_eq_false_iff] at hl2; exact hl2.1
      rw [addObj_node _ _ _ _ _ hl2, assignments_node _ _ _ _ hl2, foldl_assign_append]
      have hinit : (if i then assign result path obj else result)
          = (if i then [(path, obj)] else []).foldl (fun res e => assign res e.1 e.2) result := by
        cases i <;> rfl
      rw [hinit]
      generalize (if i then [(path, obj)] else []).foldl
        (fun res e => assign res e.1 e.2) result = r0
      have hkeys : ∀ (keys : List String) (r : Props),
          keys.foldl (fun res key => addObj i s (get obj key) (joinPath path key) res) r
            = ((keys.map fun key => assignments i s (get obj key) (joinPath path key)).flatten).foldl
                (fun res e => assign res e.1 e.2) r := by
        intro keys
        induction keys with
        | nil => intro r; rfl
        | cons key rest ihk =>
          intro r
          simp only [List.foldl_cons, List.map_cons, List.flatten_cons, foldl_assign_append]
          rw [ih (get obj key) (by have := size_get_lt obj key hs; omega), ihk]
      exact hkeys _ _

theorem addObj_eq_foldl (i s : Bool) (obj : Value) (path : String) (result : Props) :
    addObj i s obj path result
      = (assignments i s obj path).foldl (fun res e => assign res e.1 e.2) result :=
  addObj_eq_foldl_aux i s _ obj (Nat.lt_succ_self _) path result

theorem mem_assign (ps : Props) (k : String) (v : Value) (e : String × Value)
    (h : e ∈ assign ps k v) : e ∈ ps ∨ e = (k, v) := by
  induction ps with
  | nil => simpa [assign] using h
  | cons x rest ih =>
    obtain ⟨k0, v0⟩ := x
    by_cases hk : k0 = k
    · subst hk
      simp only [assign, if_true, List.mem_cons] at h
      rcases h with h | h
      · exact Or.inr h
      · exact Or.inl (List.mem_cons_of_mem _ h)
    · simp only [assign, hk, if_false, List.mem_cons] at h
      rcases h with h | h
      · exact Or.inl (h ▸ List.mem_cons_self _ _)
      · rcases ih h with h2 | h2
        · exact Or.inl (List.mem_cons_of_mem _ h2)
        · exact Or.inr h2

theorem mem_foldl_assign (es : List (String × Value)) (init : Props) (e : String × Value)
    (h : e ∈ es.foldl (fun res e => assign res e.1 e.2) init) : e ∈ init ∨ e ∈ es := by
  induction es generalizing init with
  | nil => exact Or.inl h
  | cons x rest ih =>
    simp only [List.foldl_cons] at h
    rcases ih _ h with h1 | h1
    · rcases mem_assign _ _ _ _ h1 with h2 | h2
      · exact Or.inl h2
      · exact Or.inr (h2 ▸ List.mem_cons_self _ _)
    · exact Or.inr (List.mem_cons_of_mem _ h1)

theorem mem_lookup_of_mem_keys (ps : Props) (k : String) (h : k ∈ ps.map Prod.fst) :
    (k, lookup ps k) ∈ ps := by
  induction ps with
  | nil => simp at h
  | cons x rest ih =>
    obtain ⟨k0, v0⟩ := x
    by_cases hk : k0 = k
    · subst hk; simp [lookup]
    · simp only [List.map_cons, List.mem_cons] at h
      rcases h with h | h
      · exact absurd h.symm hk
      · simp only [lookup, hk, if_false]
        exact List.mem_cons_of_mem _ (ih h)

theorem plainKeys_lookup (ps : Props) (k : String) (h : plainKeysProps ps = true) :
    plainKeys (lookup ps k) = true := by
  induction ps with
  | nil => simp [lookup, plainKeys]
  | cons e rest ih =>
    obtain ⟨k0, v0⟩ := e
    simp only [plainKeysProps, Bool.and_eq_true] at h
    simp only [lookup]
    split
    · exact h.1.2
    · exact ih h.2

theorem plainKeys_get (x : Value) (k : String) (h : plainKeys x = true) :
    plainKeys (get x k) = true := by
  cases x with
  | arr len ps =>
    simp only [get]
    split
    · simp [plainKeys]
    · exact plainKeys_lookup ps k (by simpa [plainKeys] using h)
  | obj ps => exact plainKeys_lookup ps k (by simpa [plainKeys] using h)
  | str s =>
    simp only [get, charAt]
    repeat' split
    all_goals simp [plainKeys]
  | _ => simp [get, plainKeys]

theorem plainKey_of_mem (ps : Props) (k : String) (h : plainKeysProps ps = true)
    (hk : k ∈ ps.map Prod.fst) : plainKey k = true := by
  induction ps with
  | nil => simp at hk
  | cons e rest ih =>
    obtain ⟨k0, v0⟩ := e
    simp only [plainKeysProps, Bool.and_eq_true] at h
    simp only [List.map_cons, List.mem_cons] at hk
    rcases hk with hk | hk
    · rw [hk]; exact h.1.1
    · exact ih h.2 hk

theorem plainKey_of_mem_forInKeys (x : Value) (k : String) (hs : isScalar x = false)
    (h : plainKeys x = true) (hk : k ∈ forInKeys x) : plainKey k = true := by
  cases x with
  | arr len ps => exact plainKey_of_mem ps k (by simpa [plainKeys] using h) hk
  | obj ps => exact plainKey_of_mem ps k (by simpa [plainKeys] using h) hk
  | _ => simp [isScalar] at hs

/-- Every assignment of `addObj` writes, at the path reached by some segments below `path`, the
node that `getPath` reaches by the same segments. -/
theorem assignments_spec (i s : Bool) (n : Nat) :
    ∀ obj : Value, size obj < n → plainKeys obj = true →
      ∀ (path : String) (e : String × Value), e ∈ assignments i s obj path →
        ∃ segs : List String, e.1 = segs.foldl joinPath path
          ∧ getPathLoop false segs obj = e.2 ∧ ∀ x ∈ segs, plainKey x = true := by
  induction n with
  | zero => intro obj h; omega
  | succ n ih =>
    intro obj hsize hplain path e he
    have hroot : e = (path, obj) → ∃ segs : List String, e.1 = segs.foldl joinPath path
        ∧ getPathLoop false segs obj = e.2 ∧ ∀ x ∈ segs, plainKey x = true := by
      intro h
      exact ⟨[], by simp [h], by simp [h, getPathLoop_nil], by simp⟩
    by_cases hl : (isScalar obj || (isArray obj && s)) = true
    · rw [assignments_leaf _ _ _ _ hl] at he
      exact hroot (by simpa using he)
    · have hl2 : (isScalar obj || (isArray obj && s)) = false := by simpa using hl
      have hs : isScalar obj = false := by
        simp only [Bool.or_eq_false_iff] at hl2; exact hl2.1
      rw [assignments_node _ _ _ _ hl2, List.mem_append] at he
      rcases he with he | he
      · cases i
        · simp at he
        · exact hroot (by simpa using he)
      · simp only [List.mem_flatten, List.mem_map] at he
        obtain ⟨l, ⟨key, hkey, rfl⟩, hel⟩ := he
        obtain ⟨segs, h1, h2, h3⟩ := ih (get obj key)
          (by have := size_get_lt obj key hs; omega) (plainKeys_get obj key hplain)
          (joinPath path key) e hel
        refine ⟨key :: segs, by simpa using h1, ?_, ?_⟩
        · rw [getPathLoop_cons _ _ _ hs]; exact h2
        · intro x hx
          simp only [List.mem_cons] at hx
          rcases hx with hx | hx
          · rw [hx]; exact plainKey_of_mem_forInKeys obj key hs hplain hkey
          · exact h3 x hx

theorem splitChars_append_dot (a b : List Char) :
    splitChars (a ++ '.' :: b) = splitChars a ++ splitChars b := by
  induction a with
  | nil => simp [splitChars]
  | cons c a ih =>
    by_cases hc : c = '.'
    · simp [splitChars, hc, ih]
    · have hstep : ∀ l : List Char, splitChars (c :: l)
          = match splitChars l with
            | seg :: segs => (c :: seg) :: segs
            | [] => [[c]] := by
        intro l; simp [splitChars, hc]
      rw [List.cons_append, hstep, hstep, ih]
      cases hsa : splitChars a with
      | nil => exact absurd hsa (splitChars_ne_nil a)
      | cons seg segs => simp

theorem splitChars_plain (k : List Char) (h : '.' ∉ k) : splitChars k = [k] := by
  induction k with
  | nil => rfl
  | cons c k ih =>
    simp only [List.mem_cons, not_or] at h
    have hc : ¬ c = '.' := fun e => h.1 e.symm
    simp [splitChars, hc, ih h.2]

theorem splitDots_plain (k : String) (h : plainKey k = true) : splitDots k = [k] := by
  simp only [plainKey, Bool.and_eq_true, decide_eq_true_eq] at h
  simp [splitDots, splitChars_plain k.data h.2]

theorem splitDots_joinPath (p k : String) (hp : p ≠ "") (hk : plainKey k = true) :
    splitDots (joinPath p k) = splitDots p ++ [k] ∧ joinPath p k ≠ "" := by
  have hd : (p ++ "." ++ k).data = p.data ++ '.' :: k.data := by
    simp [String.data_append]
  constructor
  · simp only [joinPath, hp, ne_eq, not_false_eq_true, if_true]
    rw [splitDots, hd, splitChars_append_dot, List.map_append]
    have := splitDots_plain k hk
    simp only [splitDots] at this
    rw [this]; rfl
  · simp only [joinPath, hp, ne_eq, not_false_eq_true, if_true]
    intro h
    have := congrArg String.data h
    rw [hd] at this
    simp at this

theorem splitDots_foldl_joinPath (segs : List String) (h : ∀ x ∈ segs, plainKey x = true) :
    ∀ p : String, p ≠ "" →
      splitDots (segs.foldl joinPath p) = splitDots p ++ segs ∧ segs.foldl joinPath p ≠ "" := by
  induction segs with
  | nil => intro p hp; simp [hp]
  | cons x rest ih =>
    intro p hp
    have hx := h x (List.mem_cons_self _ _)
    obtain ⟨h1, h2⟩ := splitDots_joinPath p x hp hx
    obtain ⟨h3, h4⟩ := ih (fun y hy => h y (List.mem_cons_of_mem _ hy)) (joinPath p x) h2
    simp only [List.foldl_cons]
    exact ⟨by rw [h3, h1]; simp, h4⟩

theorem splitDots_foldl_joinPath_root (segs : List String)
    (h : ∀ x ∈ segs, plainKey x = true) (hne : segs.foldl joinPath "" ≠ "") :
    splitDots (segs.foldl joinPath "") = segs := by
  cases segs with
  | nil => simp at hne
  | cons x rest =>
    have hx := h x (List.mem_cons_self _ _)
    have hx2 : x ≠ "" := by
      simp only [plainKey, Bool.and_eq_true, decide_eq_true_eq] at hx; exact hx.1
    simp only [List.foldl_cons, joinPath_empty]
    rw [(splitDots_foldl_joinPath rest (fun y hy => h y (List.mem_cons_of_mem _ hy)) x hx2).1,
      splitDots_plain x hx]
    rfl

/-- C10: the values of the dotted form are the values at those paths.  For every collection `obj`
whose keys are non-empty and contain no `.`, for every flag combination and for every key `p` of
`collapseToDotted(obj, includeRedundantLevels, stopAtArrays)`, `getPath(obj, p)` returns the value
bound to `p` in the dotted form. -/
theorem getPath_collapseToDotted (obj : Value) (includeRedundantLevels stopAtArrays : Bool)
    (p : String) (hobj : isScalar obj = false) (hkeys : plainKeys obj = true)
    (hp : p ∈ forInKeys (collapseToDotted obj includeRedundantLevels stopAtArrays)) :
    getPath obj (.str p) false
      = get (collapseToDotted obj includeRedundantLevels stopAtArrays) p := by
  have hc : collapseToDotted obj includeRedundantLevels stopAtArrays
      = .obj (remove (addObj includeRedundantLevels stopAtArrays obj "" []) "") := by
    simp [collapseToDotted, hobj]
  rw [hc] at hp ⊢
  simp only [forInKeys, get] at hp ⊢
  have hmem := mem_lookup_of_mem_keys _ p hp
  generalize lookup (remove (addObj includeRedundantLevels stopAtArrays obj "" []) "") p = v
    at hmem ⊢
  simp only [remove, List.mem_filter, bne_iff_ne, ne_eq] at hmem
  obtain ⟨hmem1, hpne⟩ := hmem
  rw [addObj_eq_foldl] at hmem1
  rcases mem_foldl_assign _ _ _ hmem1 with h | h
  · simp at h
  · obtain ⟨segs, h1, h2, h3⟩ := assignments_spec includeRedundantLevels stopAtArrays _ obj
      (Nat.lt_succ_self _) hkeys "" (p, v) h
    simp only at h1 h2
    have hne : segs.foldl joinPath "" ≠ "" := by rw [← h1]; exact hpne
    rw [getPath, h1, splitDots_foldl_joinPath_root segs h3 hne]
    exact h2

theorem getPath_collapseToDotted_witness :
    isScalar testObj = false ∧ plainKeys testObj = true
    ∧ "arr.2" ∈ forInKeys (collapseToDotted testObj true false)
    ∧ getPath testObj (.str "arr.2") false = get (collapseToDotted testObj true false) "arr.2" :=
  have hmem : "arr.2" ∈ forInKeys (collapseToDotted testObj true false) := by
    simp [testObj, collapseToDotted_obj, addObj_obj, addObj_arr, addObj_scalar, isScalar, lookup,
      get, joinPath, assign, remove, forInKeys]
  ⟨rfl, by decide, hmem, getPath_collapseToDotted testObj true false "arr.2" rfl (by decide) hmem⟩

/-! ## C9: the dotted form lists the scalar leaves -/

theorem size_mem_lt (ps : Props) (e : String × Value) (h : e ∈ ps) :
    size e.2 < 1 + sizeProps ps := by
  induction ps with
  | nil => simp at h
  | cons x rest ih =>
    obtain ⟨k0, v0⟩ := x
    simp only [List.mem_cons] at h
    simp only [sizeProps]
    rcases h with h | h
    · subst h; simp only; omega
    · have := ih h; omega

/-- Induction over trees: a property of the values bound in a collection passes to the
collection. -/
theorem value_induction (P : Value → Prop) (hscalar : ∀ v, isScalar v = true → P v)
    (harr : ∀ len ps, (∀ e ∈ ps, P e.2) → P (.arr len ps))
    (hobj : ∀ ps, (∀ e ∈ ps, P e.2) → P (.obj ps)) : ∀ v, P v := by
  have aux : ∀ n : Nat, ∀ v : Value, size v < n → P v := by
    intro n
    induction n with
    | zero => intro v h; omega
    | succ n ih =>
      intro v hv
      cases v with
      | arr len ps =>
        exact harr len ps fun e he =>
          ih e.2 (by have := size_mem_lt ps e he; simp only [size] at hv; omega)
      | obj ps =>
        exact hobj ps fun e he =>
          ih e.2 (by have := size_mem_lt ps e he; simp only [size] at hv; omega)
      | _ => exact hscalar _ rfl
  exact fun v => aux _ v (Nat.lt_succ_self _)

theorem hasKey_iff (ps : Props) (k : String) : hasKey ps k = true ↔ k ∈ ps.map Prod.fst := by
  induction ps with
  | nil => simp [hasKey]
  | cons x rest ih =>
    obtain ⟨k0, v0⟩ := x
    by_cases h : k0 = k
    · simp [hasKey, h]
    · have h2 : ¬ k = k0 := fun e => h e.symm
      simp [hasKey, h, h2, ih]

theorem wellFormedProps_iff (ps : Props) :
    wellFormedProps ps = true ↔ (ps.map Prod.fst).Nodup ∧ ∀ e ∈ ps, wellFormed e.2 = true := by
  induction ps with
  | nil => simp [wellFormedProps]
  | cons x rest ih =>
    obtain ⟨k0, v0⟩ := x
    have hk : hasKey rest k0 = false ↔ k0 ∉ rest.map Prod.fst := by
      rw [← hasKey_iff]; simp
    simp only [wellFormedProps, Bool.and_eq_true, Bool.not_eq_true', ih, List.map_cons,
      List.nodup_cons, List.mem_cons, forall_eq_or_imp, hk]
    tauto

theorem plainKeysProps_iff (ps : Props) :
    plainKeysProps ps = true ↔ ∀ e ∈ ps, plainKey e.1 = true ∧ plainKeys e.2 = true := by
  induction ps with
  | nil => simp [plainKeysProps]
  | cons x rest ih =>
    obtain ⟨k0, v0⟩ := x
    simp only [plainKeysProps, Bool.and_eq_true, ih, List.mem_cons, forall_eq_or_imp]

theorem lookup_of_mem (ps : Props) (e : String × Value) (hn : (ps.map Prod.fst).Nodup)
    (he : e ∈ ps) : lookup ps e.1 = e.2 := by
  induction ps with
  | nil => simp at he
  | cons x rest ih =>
    obtain ⟨k0, v0⟩ := x
    simp only [List.map_cons, List.nodup_cons] at hn
    simp only [List.mem_cons] at he
    rcases he with he | he
    · subst he; simp [lookup]
    · have hne : ¬ k0 = e.1 := by
        intro h
        exact hn.1 (h ▸ List.mem_map_of_mem Prod.fst he)
      simp only [lookup, hne, if_false]
      exact ih hn.2 he

theorem scalarLeaves_scalar (v : Value) (h : isScalar v = true) : scalarLeaves v = [([], v)] := by
  cases v <;> first | rfl | simp [isScalar] at h

theorem leavesProps_eq_flatten (ps : Props) :
    leavesProps ps
      = (ps.map fun e => (scalarLeaves e.2).map fun x => (e.1 :: x.1, x.2)).flatten := by
  induction ps with
  | nil => rfl
  | cons x rest ih =>
    obtain ⟨k0, v0⟩ := x
    simp only [leavesProps, List.map_cons, List.flatten_cons, ih]

/-- What `addObj` assigns below a well-formed collection, with default flags: one binding per
scalar leaf, keyed by the path extended with the keys that lead to the leaf. -/
theorem assignments_props (ps : Props) (obj : Value) (path : String)
    (hobj : isScalar obj = false) (hkeys : forInKeys obj = ps.map Prod.fst)
    (hget : ∀ e ∈ ps, get obj e.1 = e.2)
    (ih : ∀ e ∈ ps, ∀ path : String, assignments false false e.2 path
      = (scalarLeaves e.2).map fun x => (x.1.foldl joinPath path, x.2)) :
    assignments false false obj path
      = (leavesProps ps).map fun x => (x.1.foldl joinPath path, x.2) := by
  rw [assignments_node _ _ _ _ (by simp [hobj]), hkeys, leavesProps_eq_flatten,
    List.map_flatten]
  simp only [Bool.false_eq_true, if_false, List.nil_append, List.map_map]
  congr 1
  apply List.map_congr_left
  intro e he
  simp only [Function.comp, hget e he, ih e he, List.map_map]
  rfl

theorem assignments_eq_leaves :
    ∀ v : Value, wellFormed v = true → ∀ path : String,
      assignments false false v path
        = (scalarLeaves v).map fun x => (x.1.foldl joinPath path, x.2) := by
  apply value_induction
  · intro v hv _ path
    rw [assignments_leaf _ _ _ _ (by simp [hv]), scalarLeaves_scalar v hv]
    rfl
  · intro len ps ih hwf path
    simp only [wellFormed, Bool.and_eq_true, Bool.not_eq_true'] at hwf
    obtain ⟨hlen, hwf⟩ := hwf
    rw [wellFormedProps_iff] at hwf
    have hlen2 : "length" ∉ ps.map Prod.fst := by
      rw [← hasKey_iff]; simp [hlen]
    refine assignments_props ps (.arr len ps) path rfl rfl ?_ (fun e he => ih e he (hwf.2 e he))
    intro e he
    have hne : ¬ e.1 = "length" := fun h => hlen2 (h ▸ List.mem_map_of_mem Prod.fst he)
    simp only [get, hne, if_false]
    exact lookup_of_mem ps e hwf.1 he
  · intro ps ih hwf path
    simp only [wellFormed] at hwf
    rw [wellFormedProps_iff] at hwf
    exact assignments_props ps (.obj ps) path rfl rfl
      (fun e he => lookup_of_mem ps e hwf.1 he) (fun e he => ih e he (hwf.2 e he))

theorem assign_of_not_mem (ps : Props) (k : String) (v : Value) (h : k ∉ ps.map Prod.fst) :
    assign ps k v = ps ++ [(k, v)] := by
  induction ps with
  | nil => rfl
  | cons x rest ih =>
    obtain ⟨k0, v0⟩ := x
    simp only [List.map_cons, List.mem_cons, not_or] at h
    have hne : ¬ k0 = k := fun e => h.1 e.symm
    simp [assign, hne, ih h.2]

theorem foldl_assign_nodup (es : List (String × Value)) :
    ∀ init : Props, ((init ++ es).map Prod.fst).Nodup →
      es.foldl (fun res e => assign res e.1 e.2) init = init ++ es := by
  induction es with
  | nil => intro init _; simp
  | cons x rest ih =>
    intro init hn
    have hx : x.1 ∉ init.map Prod.fst := by
      intro hmem
      rw [List.map_append, List.map_cons] at hn
      have := (List.nodup_append.mp hn).2.2
      exact this hmem (List.mem_cons_self _ _)
    simp only [List.foldl_cons]
    rw [assign_of_not_mem init x.1 x.2 hx, ih (init ++ [(x.1, x.2)]) (by simpa using hn)]
    simp

theorem leavesProps_head (ps : Props) :
    ∀ x ∈ leavesProps ps, ∃ k segs, x.1 = k :: segs ∧ k ∈ ps.map Prod.fst := by
  induction ps with
  | nil => intro x hx; simp [leavesProps] at hx
  | cons e rest ih =>
    obtain ⟨k0, v0⟩ := e
    intro x hx
    simp only [leavesProps, List.mem_append, List.mem_map] at hx
    rcases hx with ⟨y, _, rfl⟩ | hx
    · exact ⟨k0, y.1, rfl, by simp⟩
    · obtain ⟨k, segs, h1, h2⟩ := ih x hx
      exact ⟨k, segs, h1, by simp [h2]⟩

theorem leaves_values_scalar : ∀ v : Value, ∀ x ∈ scalarLeaves v, isScalar x.2 = true := by
  have hprops : ∀ ps : Props, (∀ e ∈ ps, ∀ x ∈ scalarLeaves e.2, isScalar x.2 = true) →
      ∀ x ∈ leavesProps ps, isScalar x.2 = true := by
    intro ps ih x hx
    rw [leavesProps_eq_flatten] at hx
    simp only [List.mem_flatten, List.mem_map] at hx
    obtain ⟨l, ⟨e, he, rfl⟩, hxl⟩ := hx
    simp only [List.mem_map] at hxl
    obtain ⟨y, hy, rfl⟩ := hxl
    exact ih e he y hy
  apply value_induction
  · intro v hv x hx
    rw [scalarLeaves_scalar v hv] at hx
    simp only [List.mem_singleton] at hx
    rw [hx]; exact hv
  · intro len ps ih; exact hprops ps ih
  · intro ps ih; exact hprops ps ih

theorem leaves_plain :
    ∀ v : Value, plainKeys v = true → ∀ x ∈ scalarLeaves v, ∀ k ∈ x.1, plainKey k = true := by
  have hprops : ∀ ps : Props,
      (∀ e ∈ ps, plainKeys e.2 = true → ∀ x ∈ scalarLeaves e.2, ∀ k ∈ x.1, plainKey k = true) →
      plainKeysProps ps = true → ∀ x ∈ leavesProps ps, ∀ k ∈ x.1, plainKey k = true := by
    intro ps ih hp x hx k hk
    rw [plainKeysProps_iff] at hp
    rw [leavesProps_eq_flatten] at hx
    simp only [List.mem_flatten, List.mem_map] at hx
    obtain ⟨l, ⟨e, he, rfl⟩, hxl⟩ := hx
    simp only [List.mem_map] at hxl
    obtain ⟨y, hy, rfl⟩ := hxl
    simp only [List.mem_cons] at hk
    rcases hk with hk | hk
    · rw [hk]; exact (hp e he).1
    · exact ih e he (hp e he).2 y hy k hk
  apply value_induction
  · intro v hv _ x hx
    rw [scalarLeaves_scalar v hv] at hx
    simp only [List.mem_singleton] at hx
    rw [hx]; simp
  · intro len ps ih hp; exact hprops ps ih (by simpa [plainKeys] using hp)
  · intro ps ih hp; exact hprops ps ih (by simpa [plainKeys] using hp)

theorem leaves_paths_nodup :
    ∀ v : Value, wellFormed v = true → ((scalarLeaves v).map Prod.fst).Nodup := by
  have hprops : ∀ ps : Props,
      (∀ e ∈ ps, wellFormed e.2 = true → ((scalarLeaves e.2).map Prod.fst).Nodup) →
      wellFormedProps ps = true → ((leavesProps ps).map Prod.fst).Nodup := by
    intro ps
    induction ps with
    | nil => intro _ _; simp [leavesProps]
    | cons e rest ihl =>
      obtain ⟨k0, v0⟩ := e
      intro ih hwf
      have hwf2 := (wellFormedProps_iff _).mp hwf
      simp only [List.map_cons, List.nodup_cons] at hwf2
      have hrest : wellFormedProps rest = true :=
        (wellFormedProps_iff rest).mpr
          ⟨hwf2.1.2, fun e he => hwf2.2 e (List.mem_cons_of_mem _ he)⟩
      simp only [leavesProps, List.map_append, List.map_map]
      rw [List.nodup_append]
      refine ⟨?_, ihl (fun e he => ih e (List.mem_cons_of_mem _ he)) hrest, ?_⟩
      · have h0 := ih (k0, v0) (List.mem_cons_self _ _) (hwf2.2 _ (List.mem_cons_self _ _))
        have : ((scalarLeaves v0).map (Prod.fst ∘ fun e => (k0 :: e.1, e.2)))
            = ((scalarLeaves v0).map Prod.fst).map (List.cons k0) := by
          simp [List.map_map, Function.comp]
        rw [this]
        exact h0.map (List.cons_injective)
      · intro p hp1 hp2
        simp only [List.mem_map, Function.comp] at hp1
        obtain ⟨y, _, rfl⟩ := hp1
        obtain ⟨x, hx, hxe⟩ := List.mem_map.mp hp2
        obtain ⟨k, segs, h1, h2⟩ := leavesProps_head rest x hx
        rw [h1] at hxe
        have : k = k0 := by injection hxe
        exact hwf2.1.1 (this ▸ h2)
  apply value_induction
  · intro v hv _
    rw [scalarLeaves_scalar v hv]; simp
  · intro len ps ih hwf
    simp only [wellFormed, Bool.and_eq_true] at hwf
    exact hprops ps ih hwf.2
  · intro ps ih hwf
    exact hprops ps ih (by simpa [wellFormed] using hwf)

theorem foldl_joinPath_ne_empty (k : String) (segs : List String)
    (h : ∀ x ∈ k :: segs, plainKey x = true) : (k :: segs).foldl joinPath "" ≠ "" := by
  have hk := h k (List.mem_cons_self _ _)
  have hk2 : k ≠ "" := by
    simp only [plainKey, Bool.and_eq_true, decide_eq_true_eq] at hk; exact hk.1
  simp only [List.foldl_cons, joinPath_empty]
  exact (splitDots_foldl_joinPath segs (fun y hy => h y (List.mem_cons_of_mem _ hy)) k hk2).2

theorem foldl_joinPath_injective (a b : List String) (ha : ∀ x ∈ a, plainKey x = true)
    (hb : ∀ x ∈ b, plainKey x = true) (h : a.foldl joinPath "" = b.foldl joinPath "") :
    a = b := by
  cases a with
  | nil =>
    cases b with
    | nil => rfl
    | cons kb sb => exact absurd h.symm (foldl_joinPath_ne_empty kb sb hb)
  | cons ka sa =>
    have hne := foldl_joinPath_ne_empty ka sa ha
    have h1 := splitDots_foldl_joinPath_root (ka :: sa) ha hne
    have h2 := splitDots_foldl_joinPath_root b hb (h ▸ hne)
    rw [← h1, ← h2, h]

theorem intercalate_go_eq (segs : List String) (h : ∀ x ∈ segs, plainKey x = true) :
    ∀ acc : String, acc ≠ "" → String.intercalate.go acc "." segs = segs.foldl joinPath acc := by
  induction segs with
  | nil => intro acc _; simp [String.intercalate.go]
  | cons x rest ih =>
    intro acc hacc
    have hx := h x (List.mem_cons_self _ _)
    have hj : joinPath acc x = acc ++ "." ++ x := by simp [joinPath, hacc]
    simp only [String.intercalate.go, List.foldl_cons]
    rw [← hj]
    exact ih (fun y hy => h y (List.mem_cons_of_mem _ hy)) _ (splitDots_joinPath acc x hacc hx).2

theorem intercalate_eq (segs : List String) (h : ∀ x ∈ segs, plainKey x = true) :
    ".".intercalate segs = segs.foldl joinPath "" := by
  cases segs with
  | nil => rfl
  | cons k rest =>
    have hk := h k (List.mem_cons_self _ _)
    have hk2 : k ≠ "" := by
      simp only [plainKey, Bool.and_eq_true, decide_eq_true_eq] at hk; exact hk.1
    simp only [String.intercalate, List.foldl_cons, joinPath_empty]
    exact intercalate_go_eq rest (fun y hy => h y (List.mem_cons_of_mem _ hy)) k hk2

/-- What `collapseToDotted` does away from the key `__proto__`: for every (well-formed)
collection `obj` whose keys are non-empty and contain no `.`, and which has no own key
`__proto__`, `collapseToDotted(obj)` with default flags has exactly one entry per scalar leaf of `obj`: the
entries of the result are, up to order, the scalar leaves, each keyed by the keys and indices from
the root to the leaf joined by `.` and bound to the leaf; the keys of the result are pairwise
distinct and every value is scalar.  Sequences are descended into by index and empty collections
contribute no entry, as `scalarLeaves` does. -/
theorem collapseToDotted_leaves (obj : Value) (hobj : isScalar obj = false)
    (hkeys : plainKeys obj = true) (hwf : wellFormed obj = true)
    (hproto : "__proto__" ∉ forInKeys obj) :
    ∃ R : Props, collapseToDotted obj false false = .obj R
      ∧ R.Perm ((scalarLeaves obj).map fun e => (".".intercalate e.1, e.2))
      ∧ (R.map Prod.fst).Nodup
      ∧ ∀ e ∈ R, isScalar e.2 = true := by
  have hplain := leaves_plain obj hkeys
  have hL : (scalarLeaves obj).map (fun e => (".".intercalate e.1, e.2))
      = (scalarLeaves obj).map fun x => (x.1.foldl joinPath "", x.2) := by
    apply List.map_congr_left
    intro e he
    rw [intercalate_eq e.1 (hplain e he)]
  have hnodup : (((scalarLeaves obj).map fun x => (x.1.foldl joinPath "", x.2)).map
      Prod.fst).Nodup := by
    have : ((scalarLeaves obj).map fun x => (x.1.foldl joinPath "", x.2)).map Prod.fst
        = ((scalarLeaves obj).map Prod.fst).map fun segs => segs.foldl joinPath "" := by
      simp [List.map_map, Function.comp]
    rw [this]
    apply List.Nodup.map_on _ (leaves_paths_nodup obj hwf)
    intro a ha b hb hab
    obtain ⟨x, hx, rfl⟩ := List.mem_map.mp ha
    obtain ⟨y, hy, rfl⟩ := List.mem_map.mp hb
    exact foldl_joinPath_injective _ _ (hplain x hx) (hplain y hy) hab
  have hhead : ∀ x ∈ scalarLeaves obj, x.1.foldl joinPath "" ≠ "" := by
    intro x hx
    have : ∃ k segs, x.1 = k :: segs := by
      cases obj with
      | arr len ps =>
        obtain ⟨k, segs, h1, -⟩ := leavesProps_head ps x hx
        exact ⟨k, segs, h1⟩
      | obj ps =>
        obtain ⟨k, segs, h1, -⟩ := leavesProps_head ps x hx
        exact ⟨k, segs, h1⟩
      | _ => simp [isScalar] at hobj
    obtain ⟨k, segs, h1⟩ := this
    rw [h1]
    exact foldl_joinPath_ne_empty k segs (h1 ▸ hplain x hx)
  have hR : collapseToDotted obj false false
      = .obj ((scalarLeaves obj).map fun x => (x.1.foldl joinPath "", x.2)) := by
    have hc : collapseToDotted obj false false
        = .obj (remove (addObj false false obj "" []) "") := by
      simp [collapseToDotted, hobj]
    rw [hc, addObj_eq_foldl, assignments_eq_leaves obj hwf "",
      foldl_assign_nodup _ [] (by simpa using hnodup)]
    simp only [List.nil_append, remove, Value.obj.injEq, List.filter_eq_self, List.mem_map,
      bne_iff_ne, ne_eq]
    rintro e ⟨x, hx, rfl⟩
    exact hhead x hx
  refine ⟨_, hR, by rw [hL], hnodup, ?_⟩
  intro e he
  obtain ⟨x, hx, rfl⟩ := List.mem_map.mp he
  exact leaves_values_scalar obj x hx

theorem collapseToDotted_leaves_witness :
    isScalar testObj = false ∧ plainKeys testObj = true ∧ wellFormed testObj = true
    ∧ collapseToDotted testObj false false
        = .obj [("foo", .num (.finite 123)), ("bar.biz", .num (.finite 12)),
            ("bar.baz.buz", .num (.finite 1)), ("arr.0", .num (.finite 1)),
            ("arr.1", .num (.finite 2)), ("arr.2.foo", .num (.finite 3))]
    ∧ ∃ R : Props, collapseToDotted testObj false false = .obj R
      ∧ R.Perm [("foo", .num (.finite 123)), ("bar.biz", .num (.finite 12)),
          ("bar.baz.buz", .num (.finite 1)), ("arr.0", .num (.finite 1)),
          ("arr.1", .num (.finite 2)), ("arr.2.foo", .num (.finite 3))]
      ∧ (R.map Prod.fst).Nodup
      ∧ ∀ e ∈ R, isScalar e.2 = true :=
  ⟨rfl, by decide, by decide,
    by simp [testObj, collapseToDotted_obj, addObj_obj, addObj_arr, addObj_scalar, isScalar,
      lookup, get, joinPath, assign, remove],
    collapseToDotted_leaves testObj rfl (by decide) (by decide) (by decide)⟩

/-! ## C11, C15: the walk of `getPath` -/

theorem getPathLoop_scalar (skip : Bool) (part : String) (rest : List String) (cur : Value)
    (h : isScalar cur = true) : getPathLoop skip (part :: rest) cur = .undefined := by
  rw [getPathLoop]; simp [h]

theorem getPathLoop_skip (skip : Bool) (part : String) (rest : List String) (cur : Value)
    (hs : isScalar cur = false)
    (hc : (isArray cur && skip && !isDecimal part && length cur == 1) = true) :
    getPathLoop skip (part :: rest) cur
      = getPathLoop skip (part :: rest) (get cur (indexKey 0)) := by
  rw [getPathLoop]; simp only [hs, Bool.false_eq_true, dite_false, hc, if_true]

theorem getPathLoop_step (skip : Bool) (part : String) (rest : List String) (cur : Value)
    (hs : isScalar cur = false)
    (hc : (isArray cur && skip && !isDecimal part && length cur == 1) = false) :
    getPathLoop skip (part :: rest) cur = getPathLoop skip rest (get cur part) := by
  rw [getPathLoop]; simp only [hs, Bool.false_eq_true, dite_false, hc, if_false]

theorem getPathLoop_append (skip : Bool) (rest : List String) :
    ∀ (n : Nat) (pre : List String) (cur : Value), pre.length + size cur < n →
      getPathLoop skip (pre ++ rest) cur = getPathLoop skip rest (getPathLoop skip pre cur) := by
  intro n
  induction n with
  | zero => intro pre cur h; omega
  | succ n ih =>
    intro pre cur hn
    cases pre with
    | nil => rw [getPathLoop_nil]; rfl
    | cons part pre =>
      by_cases hs : isScalar cur = true
      · rw [List.cons_append, getPathLoop_scalar _ _ _ _ hs, getPathLoop_scalar _ _ _ _ hs]
        cases rest with
        | nil => rw [getPathLoop_nil]
        | cons r rest => rw [getPathLoop_scalar skip r rest .undefined rfl]
      · have hs2 : isScalar cur = false := by simpa using hs
        by_cases hc : (isArray cur && skip && !isDecimal part && length cur == 1) = true
        · rw [List.cons_append, getPathLoop_skip _ _ _ _ hs2 hc, getPathLoop_skip _ _ _ _ hs2 hc,
            ← List.cons_append]
          exact ih _ _ (by
            have := size_get_lt cur (indexKey 0) hs2
            simp only [List.length_cons] at hn ⊢; omega)
        · have hc2 : (isArray cur && skip && !isDecimal part && length cur == 1) = false := by
            simpa using hc
          rw [List.cons_append, getPathLoop_step _ _ _ _ hs2 hc2,
            getPathLoop_step _ _ _ _ hs2 hc2]
          exact ih _ _ (by
            have := size_get_le cur part
            simp only [List.length_cons] at hn; omega)

/-- C11: the array-skip rule of `getPath`.  With allowSkipArrays set, for every value `x` and every
path `p` whose first segment is not purely decimal digits, `getPath([x], p, true)` is
`getPath(x, p, true)`: the single-element sequence is skipped and the segment is retried.  A purely
decimal first segment indexes the sequence, and without the flag nothing is skipped: the first
segment is read from the collection.  For `{baz: {arr2: [{zip: 4}]}}` and `baz.arr2.zip` the result
is `undefined` without the flag and `4` with it. -/
theorem getPath_skip_rule (x : Value) (p part : String) (rest : List String)
    (hp : splitDots p = part :: rest) :
    (isDecimal part = false →
        getPath (.arr 1 [("0", x)]) (.str p) true = getPath x (.str p) true)
    ∧ (isDecimal part = true →
        getPath (.arr 1 [("0", x)]) (.str p) true
          = getPathLoop true rest (get (.arr 1 [("0", x)]) part))
    ∧ (∀ cur : Value, isScalar cur = false →
        getPath cur (.str p) false = getPathLoop false rest (get cur part))
    ∧ getPath (.obj [("baz", .obj [("arr2", .arr 1 [("0", .obj [("zip", .num (.finite 4))])])])])
        (.str "baz.arr2.zip") false = .undefined
    ∧ getPath (.obj [("baz", .obj [("arr2", .arr 1 [("0", .obj [("zip", .num (.finite 4))])])])])
        (.str "baz.arr2.zip") true = .num (.finite 4) := by
  have hsplit : splitDots "baz.arr2.zip" = ["baz", "arr2", "zip"] := by decide
  refine ⟨?_, ?_, ?_, ?_, ?_⟩
  · intro hd
    simp only [getPath, hp]
    rw [getPathLoop_skip true part rest (.arr 1 [("0", x)]) rfl (by simp [isArray, hd, length])]
    rfl
  · intro hd
    simp only [getPath, hp]
    rw [getPathLoop_step true part rest (.arr 1 [("0", x)]) rfl (by simp [hd])]
  · intro cur hc
    simp only [getPath, hp]
    rw [getPathLoop_cons part rest cur hc]
  · simp [getPath, hsplit, getPathLoop_cons, getPathLoop_nil, isScalar, get, lookup]
  · have h0 : indexKey 0 = "0" := by decide
    have hd : isDecimal "zip" = false := by decide
    simp [getPath, hsplit, getPathLoop_step, getPathLoop_skip, getPathLoop_nil, isScalar,
      isArray, get, lookup, length, h0, hd]

theorem getPath_skip_rule_witness :
    splitDots "zip.zap" = "zip" :: ["zap"]
    ∧ getPath (.arr 1 [("0", .obj [("zip", .null)])]) (.str "zip.zap") true
        = getPath (.obj [("zip", .null)]) (.str "zip.zap") true :=
  ⟨by decide,
    (getPath_skip_rule (.obj [("zip", .null)]) "zip.zap" "zip" ["zap"] (by decide)).1
      (by decide)⟩

/-- C15: `getPath` never raises for an unreachable path.  For every value `obj` (scalars, `null`
and `undefined` included), every string path `p` and either setting of allowSkipArrays,
`getPath(obj, p, allowSkipArrays)` returns a value (the embedded function is total); a scalar
`obj` gives `undefined`, and so does every walk that stands at a scalar node after some of the
segments while segments remain. -/
theorem getPath_unreachable (obj : Value) (p : String) (allowSkipArrays : Bool) :
    (∃ v : Value, getPath obj (.str p) allowSkipArrays = v)
    ∧ (isScalar obj = true → getPath obj (.str p) allowSkipArrays = .undefined)
    ∧ (∀ pre rest : List String, splitDots p = pre ++ rest → rest ≠ [] →
        isScalar (getPathLoop allowSkipArrays pre obj) = true →
        getPath obj (.str p) allowSkipArrays = .undefined) := by
  have key : ∀ pre rest : List String, splitDots p = pre ++ rest → rest ≠ [] →
      isScalar (getPathLoop allowSkipArrays pre obj) = true →
      getPath obj (.str p) allowSkipArrays = .undefined := by
    intro pre rest hp hrest hs
    simp only [getPath, hp]
    rw [getPathLoop_append allowSkipArrays rest _ pre obj (Nat.lt_succ_self _)]
    cases rest with
    | nil => exact absurd rfl hrest
    | cons r rest => exact getPathLoop_scalar _ r rest _ hs
  refine ⟨⟨_, rfl⟩, ?_, key⟩
  intro hs
  exact key [] (splitDots p) rfl (splitDots_ne_nil p) (by rw [getPathLoop_nil]; exact hs)

theorem getPath_unreachable_witness :
    getPath (.obj [("a", .num (.finite 1))]) (.str "a.b.c") true = .undefined :=
  (getPath_unreachable (.obj [("a", .num (.finite 1))]) "a.b.c" true).2.2 ["a"] ["b", "c"]
    (by decide) (by simp)
    (by simp [getPathLoop_step, getPathLoop_nil, isScalar, isArray, get, lookup])

/-! ## C12: `setPath` creates intermediate mappings -/

theorem setPathLoop_empty_obj (parts : List String) (hne : parts ≠ []) (v : Value) :
    setPathLoop parts (.obj []) v = .ok (nest parts v) := by
  induction parts with
  | nil => exact absurd rfl hne
  | cons k rest ih =>
    cases rest with
    | nil => rfl
    | cons k2 r =>
      have h := ih (by simp)
      simp only [setPathLoop, get, lookup, isScalar, if_true, setProp, assign, bind, Except.bind,
        h]
      simp [pure, Except.pure, putProp, assign, nest]

theorem not_length_of_collection (cur : Value) (part : String)
    (h : isScalar (get cur part) = false) : (isArray cur && part == "length") = false := by
  cases cur with
  | arr len ps =>
    by_cases hp : part = "length"
    · simp [get, hp, isScalar] at h
    · simp [hp]
  | _ => simp [isArray]

theorem setPathLoop_creates (v : Value) (part next : String) (rest : List String) :
    ∀ (pre : List String) (obj cur : Value), isScalar obj = false → descend pre obj = some cur →
      isScalar (get cur part) = true → (isArray cur && part == "length") = false →
      ∃ obj1, setPathLoop (pre ++ part :: next :: rest) obj v = .ok obj1
        ∧ isScalar obj1 = false
        ∧ getPathLoop false (pre ++ [part]) obj1 = nest (next :: rest) v := by
  intro pre
  induction pre with
  | nil =>
    intro obj cur hobj hpre hs hlen
    simp only [descend, Option.some.injEq] at hpre
    subst hpre
    obtain ⟨cur1, h1, h2, h3, h4⟩ := setProp_ok obj part (.obj []) hobj hlen
    have hp := get_putProp cur1 part (nest (next :: rest) v) h2 (by rw [h4]; exact hlen)
    refine ⟨putProp cur1 part (nest (next :: rest) v), ?_, hp.2, ?_⟩
    · simp only [List.nil_append, setPathLoop, hs, if_true, h1, bind, Except.bind, h3,
        setPathLoop_empty_obj (next :: rest) (by simp) v]
      rfl
    · rw [List.nil_append, getPathLoop_cons _ _ _ hp.2, getPathLoop_nil, hp.1]
  | cons q pre ih =>
    intro obj cur hobj hpre hs hlen
    simp only [descend] at hpre
    by_cases hq : isScalar (get obj q) = true
    · simp [hq] at hpre
    · have hq2 : isScalar (get obj q) = false := by simpa using hq
      simp only [hq2, Bool.false_eq_true, if_false] at hpre
      obtain ⟨sub, s1, s2, s3⟩ := ih (get obj q) cur hq2 hpre hs hlen
      have hp := get_putProp obj q sub hobj (not_length_of_collection obj q hq2)
      obtain ⟨x, xs, hx⟩ : ∃ x xs, pre ++ part :: next :: rest = x :: xs := by
        cases pre <;> simp
      refine ⟨putProp obj q sub, ?_, hp.2, ?_⟩
      · rw [List.cons_append, hx]
        simp only [setPathLoop, hq2, Bool.false_eq_true, if_false]
        rw [← hx, s1]
        rfl
      · rw [List.cons_append, getPathLoop_cons _ _ _ hp.2, hp.1]
        exact s3

/-- C12, as stated, fails where the non-final segment is the `length` of a sequence: the value
there is a number, and replacing it by a fresh empty mapping throws a `RangeError`. -/
theorem setPath_length_intermediate :
    isScalar (get (.arr 1 [("0", .num (.finite 1))]) "length") = true
      ∧ setPath (.arr 1 [("0", .num (.finite 1))]) "length.x" (.num (.finite 1))
        = .error .rangeError := by
  exact ⟨rfl, rfl⟩

/-- C12 (amended): `setPath` creates intermediate mappings as necessary.  Walking a path none of
whose segments is `__proto__` from a collection `obj` through collections, whenever the value at
a non-final segment is scalar (absent, `null`, a number, a string), and the segment is not the
`length` of a sequence, the call returns normally and afterwards that position holds a mapping
containing only the remainder of the path;
the intermediate is a mapping, never a sequence, also when the next segment is numeric.
`setPath({}, "bar.biz.baz.buz", 10)` yields `{bar: {biz: {baz: {buz: 10}}}}`, and
`setPath(obj, "baz.arr.1.buz", 11)`, where `obj.baz.arr[1]` is the number `8`, leaves
`obj.baz.arr[1]` equal to `{buz: 11}`. -/
theorem setPath_creates_mappings (obj v : Value) (p : String) (pre : List String)
    (part next : String) (rest : List String) (cur : Value) (hobj : isScalar obj = false)
    (hproto : "__proto__" ∉ splitDots p)
    (hp : splitDots p = pre ++ part :: next :: rest) (hpre : descend pre obj = some cur)
    (hs : isScalar (get cur part) = true) (hlen : (isArray cur && part == "length") = false) :
    (∃ obj1, setPath obj p v = .ok obj1
        ∧ getPathLoop false (pre ++ [part]) obj1 = nest (next :: rest) v)
    ∧ setPath (.obj []) "bar.biz.baz.buz" (.num (.finite 10))
        = .ok (.obj [("bar", .obj [("biz", .obj [("baz", .obj [("buz", .num (.finite 10))])])])])
    ∧ setPath (.obj [("baz", .obj [("arr", .arr 3 [("0", .num (.finite 1)),
          ("1", .num (.finite 8)), ("2", .obj [("zip", .num (.finite 3))])])])])
        "baz.arr.1.buz" (.num (.finite 11))
        = .ok (.obj [("baz", .obj [("arr", .arr 3 [("0", .num (.finite 1)),
            ("1", .obj [("buz", .num (.finite 11))]),
            ("2", .obj [("zip", .num (.finite 3))])])])]) := by
  refine ⟨?_, rfl, rfl⟩
  obtain ⟨obj1, h1, -, h3⟩ := setPathLoop_creates v part next rest pre obj cur hobj hpre hs hlen
  exact ⟨obj1, by rw [setPath, hp]; exact h1, h3⟩

theorem setPath_creates_mappings_witness :
    ∃ obj1, setPath (.obj [("a", .obj [("b", .num (.finite 5))])]) "a.b.3.c" .null = .ok obj1
      ∧ getPathLoop false (["a"] ++ ["b"]) obj1 = nest ("3" :: ["c"]) .null :=
  (setPath_creates_mappings (.obj [("a", .obj [("b", .num (.finite 5))])]) .null "a.b.3.c"
    ["a"] "b" "3" ["c"] (.obj [("b", .num (.finite 5))]) rfl (by decide) (by decide) rfl rfl
    rfl).1

/-! ## C13, C14: `deletePath` -/

theorem deleteProp_ok (cur : Value) (last : String) (hc : isScalar cur = false)
    (hl : (isArray cur && last == "length") = false) :
    ∃ cur1, deleteProp cur last = .ok cur1 ∧ isScalar cur1 = false
      ∧ DeletedAt [last] cur cur1 := by
  cases cur with
  | obj ps =>
    refine ⟨.obj (remove ps last), rfl, rfl, rfl, ?_, ?_, ?_⟩
    · simp only [forInKeys, mem_keys_remove]; exact fun h => h.2 rfl
    · simp [get, lookup_remove]
    · intro k hk
      constructor
      · simp [get, lookup_remove, hk]
      · simp only [forInKeys, mem_keys_remove]
        exact ⟨fun h => h.1, fun h => ⟨h, hk⟩⟩
  | arr len ps =>
    have hp : ¬ last = "length" := by simpa [isArray] using hl
    refine ⟨.arr len (remove ps last), by simp [deleteProp, hp], rfl, rfl, ?_, ?_, ?_⟩
    · simp only [forInKeys, mem_keys_remove]; exact fun h => h.2 rfl
    · simp [get, hp, lookup_remove]
    · intro k hk
      constructor
      · simp only [get]
        split
        · rfl
        · simp [lookup_remove, hk]
      · simp only [forInKeys, mem_keys_remove]
        exact ⟨fun h => h.1, fun h => ⟨h, hk⟩⟩
  | _ => simp [isScalar] at hc

theorem get_putProp_ne (cur : Value) (part k : String) (sub : Value) (hk : k ≠ part) :
    get (putProp cur part sub) k = get cur k := by
  have hk2 : ¬ part = k := fun e => hk e.symm
  cases cur <;> simp [putProp, get, lookup_assign, hk2]

theorem mem_keys_of_lookup (ps : Props) (k : String) (h : isScalar (lookup ps k) = false) :
    k ∈ ps.map Prod.fst := by
  by_contra hk
  rw [lookup_of_not_mem ps k hk] at h
  simp [isScalar] at h

theorem mem_forInKeys_of_get (cur : Value) (k : String) (h : isScalar (get cur k) = false) :
    k ∈ forInKeys cur := by
  cases cur with
  | obj ps => exact mem_keys_of_lookup ps k h
  | arr len ps =>
    by_cases hp : k = "length"
    · simp [get, hp, isScalar] at h
    · exact mem_keys_of_lookup ps k (by simpa [get, hp] using h)
  | _ =>
    have := isScalar_of_get _ k h
    simp [isScalar] at this

theorem forInKeys_putProp (cur : Value) (part : String) (sub : Value)
    (h : isScalar (get cur part) = false) (k : String) :
    k ∈ forInKeys (putProp cur part sub) ↔ k ∈ forInKeys cur := by
  have hmem := mem_forInKeys_of_get cur part h
  cases cur with
  | obj ps =>
    simp only [putProp, forInKeys, mem_keys_assign] at hmem ⊢
    exact ⟨fun h => h.elim (fun e => e ▸ hmem) id, Or.inr⟩
  | arr len ps =>
    simp only [putProp, forInKeys, mem_keys_assign] at hmem ⊢
    exact ⟨fun h => h.elim (fun e => e ▸ hmem) id, Or.inr⟩
  | _ => simp [putProp]

theorem isArray_putProp (cur : Value) (part : String) (sub : Value) :
    isArray (putProp cur part sub) = isArray cur := by
  cases cur <;> rfl

theorem isNullish_of_collection (cur : Value) (h : isScalar cur = false) :
    isNullish cur = false := by
  cases cur <;> first | rfl | simp [isScalar] at h

theorem deletePathLoop_spec (parts : List String) (hne : parts ≠ []) :
    ∀ cur : Value, isScalar cur = false → deletesLength parts cur = false →
      ∃ cur1, deletePathLoop parts cur = .ok cur1 ∧ isScalar cur1 = false
        ∧ getPathLoop false parts cur1 = .undefined
        ∧ (resolves parts cur = true → DeletedAt parts cur cur1) := by
  induction parts with
  | nil => exact absurd rfl hne
  | cons part rest ih =>
    intro cur hc hl
    cases rest with
    | nil =>
      simp only [deletesLength] at hl
      obtain ⟨cur1, h1, h2, h3⟩ := deleteProp_ok cur part hc hl
      refine ⟨cur1, by simpa [deletePathLoop] using h1, h2, ?_, fun _ => h3⟩
      rw [getPathLoop_cons _ _ _ h2, getPathLoop_nil]
      exact h3.2.2.1
    | cons next rest =>
      have hnull := isNullish_of_collection cur hc
      by_cases hs : isScalar (get cur part) = true
      · refine ⟨cur, by simp [deletePathLoop, hnull, hs], hc, ?_, ?_⟩
        · rw [getPathLoop_cons _ _ _ hc, getPathLoop_scalar _ _ _ _ hs]
        · intro hr
          simp [resolves, hs] at hr
      · have hs2 : isScalar (get cur part) = false := by simpa using hs
        simp only [deletesLength, hs2, Bool.not_false, Bool.true_and] at hl
        obtain ⟨sub, s1, s2, s3, s4⟩ := ih (by simp) (get cur part) hs2 hl
        have hp := get_putProp cur part sub hc (not_length_of_collection cur part hs2)
        refine ⟨putProp cur part sub, ?_, hp.2, ?_, ?_⟩
        · simp only [deletePathLoop, hnull, hs2, Bool.false_eq_true, if_false, bind,
            Except.bind, s1]
          rfl
        · rw [getPathLoop_cons _ _ _ hp.2, hp.1]; exact s3
        · intro hr
          simp only [resolves, hs2, Bool.not_false, Bool.true_and] at hr
          refine ⟨isArray_putProp _ _ _, fun k hk => get_putProp_ne cur part k sub hk,
            forInKeys_putProp cur part sub hs2, ?_⟩
          rw [hp.1]
          exact s4 hr

/-- C13, as stated, fails where the final segment is the `length` of a sequence:
`deletePath([1, 2], "length")` throws a `TypeError` in strict mode, so nothing is removed and
`getPath` of the result is not `undefined`. -/
theorem deletePath_length :
    deletePath (.arr 2 [("0", .num (.finite 1)), ("1", .num (.finite 2))]) "length"
        = .error .typeError
      ∧ getPath (.arr 2 [("0", .num (.finite 1)), ("1", .num (.finite 2))]) (.str "length") false
        = .num (.finite 2) := by
  refine ⟨rfl, ?_⟩
  have h : splitDots "length" = ["length"] := by decide
  simp [getPath, h, getPathLoop_cons, getPathLoop_nil, isScalar, get]

/-- C13 (amended): `deletePath` removes the addressed value.  For every collection `obj` (a tree:
no collection is held under two keys) and every path `p` whose walk does not end at the `length`
of a sequence, none of whose segments is `__proto__` and whose final segment does not name an
inherited member, `deletePath(obj, p)` returns normally and `getPath` of the result at `p` is
`undefined`; when moreover every intermediate segment resolves to a collection, the final key is
removed from its parent and every other key of that parent and of every ancestor is unchanged. -/
theorem deletePath_removes (obj : Value) (p : String) (hobj : isScalar obj = false)
    (hproto : "__proto__" ∉ splitDots p) (hlast : endsInherited (splitDots p) = false)
    (hlen : deletesLength (splitDots p) obj = false) :
    ∃ obj1, deletePath obj p = .ok obj1
      ∧ getPath obj1 (.str p) false = .undefined
      ∧ (resolves (splitDots p) obj = true → DeletedAt (splitDots p) obj obj1) := by
  obtain ⟨obj1, h1, -, h3, h4⟩ := deletePathLoop_spec (splitDots p) (splitDots_ne_nil p) obj
    hobj hlen
  exact ⟨obj1, h1, h3, h4⟩

theorem deletePath_removes_witness :
    deletesLength (splitDots "baz.arr")
        (.obj [("foo", .str "bar"), ("baz", .obj [("biz", .str "buz"),
          ("arr", .arr 2 [("0", .num (.finite 1)), ("1", .num (.finite 2))])])]) = false
    ∧ deletePath (.obj [("foo", .str "bar"), ("baz", .obj [("biz", .str "buz"),
          ("arr", .arr 2 [("0", .num (.finite 1)), ("1", .num (.finite 2))])])]) "baz.arr"
        = .ok (.obj [("foo", .str "bar"), ("baz", .obj [("biz", .str "buz")])])
    ∧ ∃ obj1, deletePath (.obj [("foo", .str "bar"), ("baz", .obj [("biz", .str "buz"),
          ("arr", .arr 2 [("0", .num (.finite 1)), ("1", .num (.finite 2))])])]) "baz.arr"
          = .ok obj1
        ∧ getPath obj1 (.str "baz.arr") false = .undefined
        ∧ (resolves (splitDots "baz.arr") (.obj [("foo", .str "bar"), ("baz",
            .obj [("biz", .str "buz"), ("arr", .arr 2 [("0", .num (.finite 1)),
              ("1", .num (.finite 2))])])]) = true →
          DeletedAt (splitDots "baz.arr") (.obj [("foo", .str "bar"), ("baz",
            .obj [("biz", .str "buz"), ("arr", .arr 2 [("0", .num (.finite 1)),
              ("1", .num (.finite 2))])])]) obj1) :=
  ⟨by decide, rfl, deletePath_removes _ "baz.arr" rfl (by decide) (by decide) (by decide)⟩

theorem assign_lookup_self (ps : Props) (k : String) (h : isScalar (lookup ps k) = false) :
    assign ps k (lookup ps k) = ps := by
  induction ps with
  | nil => simp [lookup, isScalar] at h
  | cons e rest ih =>
    obtain ⟨k0, v0⟩ := e
    by_cases hk : k0 = k
    · simp [assign, lookup, hk]
    · simp only [lookup, hk, if_false] at h
      simp [assign, lookup, hk, ih h]

theorem putProp_get_self (cur : Value) (k : String) (h : isScalar (get cur k) = false) :
    putProp cur k (get cur k) = cur := by
  cases cur with
  | obj ps => simp only [putProp, get]; rw [assign_lookup_self ps k h]
  | arr len ps =>
    by_cases hp : k = "length"
    · simp [get, hp, isScalar] at h
    · simp only [get, hp, if_false] at h ⊢
      simp only [putProp]; rw [assign_lookup_self ps k h]
  | _ => rfl

theorem deletePathLoop_noop (part : String) (rest : List String) (hrest : rest ≠ []) :
    ∀ (pre : List String) (cur : Value), isScalar cur = false →
      isScalar (getPathLoop false (pre ++ [part]) cur) = true →
      deletePathLoop (pre ++ part :: rest) cur = .ok cur := by
  intro pre
  induction pre with
  | nil =>
    intro cur hc hs
    rw [List.nil_append, getPathLoop_cons _ _ _ hc, getPathLoop_nil] at hs
    cases rest with
    | nil => exact absurd rfl hrest
    | cons r rs => simp [deletePathLoop, isNullish_of_collection cur hc, hs]
  | cons q pre ih =>
    intro cur hc hs
    obtain ⟨x, xs, hx⟩ : ∃ x xs, pre ++ part :: rest = x :: xs := by
      cases pre <;> simp
    by_cases hq : isScalar (get cur q) = true
    · rw [List.cons_append, hx]
      simp [deletePathLoop, isNullish_of_collection cur hc, hq]
    · have hq2 : isScalar (get cur q) = false := by simpa using hq
      rw [List.cons_append, getPathLoop_cons _ _ _ hc] at hs
      have h1 := ih (get cur q) hq2 hs
      rw [List.cons_append, hx]
      simp only [deletePathLoop, isNullish_of_collection cur hc, hq2, Bool.false_eq_true,
        if_false]
      rw [← hx, h1]
      simp only [bind, Except.bind, pure, Except.pure]
      rw [putProp_get_self cur q hq2]

/-- C14: `deletePath` is a no-op on shape mismatch.  For every collection `obj` and path `p` such
that the value at some non-final segment of `p` is scalar (absent, `null` or any other scalar),
`deletePath(obj, p)` raises no error and returns `obj` with its entire content unchanged. -/
theorem deletePath_noop (obj : Value) (p : String) (pre : List String) (part : String)
    (rest : List String) (hobj : isScalar obj = false)
    (hp : splitDots p = pre ++ part :: rest) (hrest : rest ≠ [])
    (hs : isScalar (getPathLoop false (pre ++ [part]) obj) = true) :
    deletePath obj p = .ok obj := by
  rw [deletePath, hp]
  exact deletePathLoop_noop part rest hrest pre obj hobj hs

theorem deletePath_noop_witness :
    deletePath (.obj [("a", .obj [("b", .null)])]) "a.b.c.d"
      = .ok (.obj [("a", .obj [("b", .null)])]) :=
  deletePath_noop (.obj [("a", .obj [("b", .null)])]) "a.b.c.d" ["a"] "b" ["c", "d"] rfl
    (by decide) (by simp)
    (by simp [getPathLoop_cons, getPathLoop_nil, isScalar, get, lookup])

/-! ## C16: `deepCopy` preserves structure -/

theorem get_deepCopy_arr (len : Nat) (ps : Props) (i : Nat) (hi : i < len) :
    get (.arr len ((List.range len).map fun i =>
        (indexKey i, deepCopy (get (.arr len ps) (indexKey i))))) (indexKey i)
      = deepCopy (get (.arr len ps) (indexKey i)) := by
  by_cases hk : indexKey i = "length"
  · simp only [get, hk, if_true]
    rw [deepCopy_scalar _ (by simp [isScalar])]
  · simp only [get, hk, if_false]
    rw [lookup_map_indexKey (fun i => deepCopy (
      if indexKey i = "length" then Value.num (.finite len) else lookup ps (indexKey i)))]
    simp [hi, hk]

theorem lookup_deepCopy_obj (ps : Props) (k : String) :
    lookup ((ps.map Prod.fst).foldl
        (fun res key => assign res key (deepCopy (lookup ps key))) []) k
      = deepCopy (lookup ps k) := by
  rw [lookup_foldl_assign (fun key => deepCopy (lookup ps key))]
  by_cases hk : k ∈ ps.map Prod.fst
  · simp [hk]
  · simp only [hk, if_false, lookup]
    rw [lookup_of_not_mem ps k hk, deepCopy_scalar _ (by simp [isScalar])]

theorem sameShape_deepCopy_aux (n : Nat) :
    ∀ x : Value, size x < n → SameShape x (deepCopy x) := by
  induction n with
  | zero => intro x h; omega
  | succ n ih =>
    intro x hsize
    cases hx : x with
    | arr len ps =>
      subst hx
      rw [deepCopy_arr]
      apply SameShape.seq
      intro i hi
      rw [get_deepCopy_arr len ps i hi]
      exact ih _ (by have := size_get_lt (.arr len ps) (indexKey i) rfl; omega)
    | obj ps =>
      subst hx
      rw [deepCopy_obj]
      apply SameShape.map
      · intro k
        rw [mem_keys_foldl_assign (fun key => deepCopy (lookup ps key))]
        simp
      · intro k
        rw [lookup_deepCopy_obj]
        exact ih _ (by have := size_get_lt (.obj ps) k rfl; simp only [get] at this; omega)
    | _ =>
      subst hx
      rw [deepCopy_scalar _ (by simp [isScalar])]
      exact SameShape.scalar _ (by simp [isScalar])

/-- How `deepCopy` preserves structure away from the key `__proto__`.  It returns a scalar
unchanged; for a sequence it returns a sequence of the same length whose `i`-th element is
`deepCopy` of the `i`-th element; for a mapping without an own key `__proto__` it returns a
mapping with exactly the same keys, each bound to `deepCopy` of the original value.  Hence, for a
tree `x` in which no collection has an own key `__proto__`, `deepCopy(x)` has the same kind,
mapping keys, lengths and elements as `x` at every node. -/
theorem deepCopy_structure :
    (∀ x : Value, isScalar x = true → deepCopy x = x)
    ∧ (∀ (len : Nat) (ps : Props), ∃ qs : Props, deepCopy (.arr len ps) = .arr len qs
        ∧ ∀ i, i < len →
          get (.arr len qs) (indexKey i) = deepCopy (get (.arr len ps) (indexKey i)))
    ∧ (∀ ps : Props, "__proto__" ∉ ps.map Prod.fst → ∃ qs : Props, deepCopy (.obj ps) = .obj qs
        ∧ (∀ k, k ∈ qs.map Prod.fst ↔ k ∈ ps.map Prod.fst)
        ∧ ∀ k, lookup qs k = deepCopy (lookup ps k))
    ∧ ∀ x : Value, noProtoKey x = true → SameShape x (deepCopy x) := by
  refine ⟨deepCopy_scalar, ?_, ?_, fun x _ => sameShape_deepCopy_aux _ x (Nat.lt_succ_self _)⟩
  · intro len ps
    exact ⟨_, deepCopy_arr len ps, fun i hi => get_deepCopy_arr len ps i hi⟩
  · intro ps _
    refine ⟨_, deepCopy_obj ps, ?_, lookup_deepCopy_obj ps⟩
    intro k
    rw [mem_keys_foldl_assign (fun key => deepCopy (lookup ps key))]
    simp

theorem deepCopy_structure_witness :
    deepCopy (.date (.finite 1388534400000)) = .date (.finite 1388534400000) :=
  deepCopy_structure.1 (.date (.finite 1388534400000)) rfl

/-! ## C20: the root is never emitted -/

/-- C20: the root is never emitted by `collapseToDotted`.  For every input value and every
combination of includeRedundantLevels and stopAtArrays the result is a mapping that does not bind
the empty string; a scalar root, and a sequence root with stopAtArrays set, both yield the empty
mapping. -/
theorem collapseToDotted_no_root (obj : Value) (includeRedundantLevels stopAtArrays : Bool) :
    (∃ R : Props, collapseToDotted obj includeRedundantLevels stopAtArrays = .obj R
        ∧ "" ∉ R.map Prod.fst)
    ∧ (isScalar obj = true →
        collapseToDotted obj includeRedundantLevels stopAtArrays = .obj [])
    ∧ (isArray obj = true → collapseToDotted obj includeRedundantLevels true = .obj []) := by
  refine ⟨?_, fun h => collapseToDotted_scalar obj _ _ h, ?_⟩
  · by_cases hs : isScalar obj = true
    · exact ⟨[], collapseToDotted_scalar obj _ _ hs, by simp⟩
    · refine ⟨remove (addObj includeRedundantLevels stopAtArrays obj "" []) "",
        by simp [collapseToDotted, hs], ?_⟩
      rw [mem_keys_remove]
      simp
  · intro ha
    cases obj with
    | arr len ps =>
      simp only [collapseToDotted, isScalar, Bool.false_eq_true, if_false]
      rw [addObj_leaf _ _ _ _ _ (by simp [isArray])]
      simp [assign, remove]
    | _ => simp [isArray] at ha

theorem collapseToDotted_no_root_witness :
    collapseToDotted (.arr 1 [("0", .num (.finite 1))]) true true = .obj [] :=
  (collapseToDotted_no_root (.arr 1 [("0", .num (.finite 1))]) true true).2.2 rfl

/-! ## The nodes recorded by `collapseToDotted`, for every flag combination -/

theorem visit_scalar (i s : Bool) (v : Value) (h : isScalar v = true) :
    visit i s v = [([], v)] := by
  cases v <;> first | rfl | simp [isScalar] at h

theorem visit_leaf (i s : Bool) (v : Value) (h : (isScalar v || (isArray v && s)) = true) :
    visit i s v = [([], v)] := by
  cases v with
  | arr len ps =>
    have hs : s = true := by simpa [isScalar, isArray] using h
    simp [visit, hs]
  | obj ps => simp [isScalar, isArray] at h
  | _ => rfl

theorem visitProps_eq_flatten (i s : Bool) (ps : Props) :
    visitProps i s ps
      = (ps.map fun e => (visit i s e.2).map fun x => (e.1 :: x.1, x.2)).flatten := by
  induction ps with
  | nil => rfl
  | cons x rest ih =>
    obtain ⟨k0, v0⟩ := x
    simp only [visitProps, List.map_cons, List.flatten_cons, ih]

theorem assignments_visit_props (i s : Bool) (ps : Props) (obj : Value) (path : String)
    (hl : (isScalar obj || (isArray obj && s)) = false)
    (hkeys : forInKeys obj = ps.map Prod.fst) (hget : ∀ e ∈ ps, get obj e.1 = e.2)
    (ih : ∀ e ∈ ps, ∀ path : String, assignments i s e.2 path
      = (visit i s e.2).map fun x => (x.1.foldl joinPath path, x.2)) :
    assignments i s obj path
      = ((if i then [([], obj)] else []) ++ visitProps i s ps).map
          fun (x : List String × Value) => (x.1.foldl joinPath path, x.2) := by
  rw [assignments_node _ _ _ _ hl, hkeys, visitProps_eq_flatten, List.map_append,
    List.map_flatten]
  congr 1
  · cases i <;> rfl
  · simp only [List.map_map]
    congr 1
    apply List.map_congr_left
    intro e he
    simp only [Function.comp, hget e he, ih e he, List.map_map]
    rfl

theorem assignments_visit (i s : Bool) :
    ∀ v : Value, wellFormed v = true → ∀ path : String,
      assignments i s v path = (visit i s v).map fun x => (x.1.foldl joinPath path, x.2) := by
  apply value_induction
  · intro v hv _ path
    rw [assignments_leaf _ _ _ _ (by simp [hv]), visit_scalar i s v hv]
    rfl
  · intro len ps ih hwf path
    cases s with
    | true =>
      rw [assignments_leaf _ _ _ _ (by simp [isArray]), visit_leaf _ _ _ (by simp [isArray])]
      rfl
    | false =>
      simp only [wellFormed, Bool.and_eq_true, Bool.not_eq_true'] at hwf
      obtain ⟨hlen, hwf⟩ := hwf
      rw [wellFormedProps_iff] at hwf
      have hlen2 : "length" ∉ ps.map Prod.fst := by
        rw [← hasKey_iff]; simp [hlen]
      have := assignments_visit_props i false ps (.arr len ps) path (by simp [isScalar]) rfl
        (by
          intro e he
          have hne : ¬ e.1 = "length" := fun h => hlen2 (h ▸ List.mem_map_of_mem Prod.fst he)
          simp only [get, hne, if_false]
          exact lookup_of_mem ps e hwf.1 he)
        (fun e he => ih e he (hwf.2 e he))
      rw [this]
      simp [visit]
  · intro ps ih hwf path
    simp only [wellFormed] at hwf
    rw [wellFormedProps_iff] at hwf
    have := assignments_visit_props i s ps (.obj ps) path (by simp [isScalar, isArray]) rfl
      (fun e he => lookup_of_mem ps e hwf.1 he) (fun e he => ih e he (hwf.2 e he))
    rw [this]
    simp [visit]

theorem visitProps_head (i s : Bool) (ps : Props) :
    ∀ x ∈ visitProps i s ps, ∃ k segs, x.1 = k :: segs ∧ k ∈ ps.map Prod.fst := by
  induction ps with
  | nil => intro x hx; simp [visitProps] at hx
  | cons e rest ih =>
    obtain ⟨k0, v0⟩ := e
    intro x hx
    simp only [visitProps, List.mem_append, List.mem_map] at hx
    rcases hx with ⟨y, _, rfl⟩ | hx
    · exact ⟨k0, y.1, rfl, by simp⟩
    · obtain ⟨k, segs, h1, h2⟩ := ih x hx
      exact ⟨k, segs, h1, by simp [h2]⟩

/-- The nodes of a collection other than the root itself. -/
theorem visit_collection (i s : Bool) (v : Value) (hv : isScalar v = false) :
    ∃ ps : Props, (v = .obj ps ∨ ∃ len, v = .arr len ps)
      ∧ (visit i s v = [([], v)] ∨ visit i s v = visitProps i s ps
          ∨ visit i s v = ([], v) :: visitProps i s ps) := by
  cases v with
  | arr len ps =>
    refine ⟨ps, Or.inr ⟨len, rfl⟩, ?_⟩
    cases s <;> cases i <;> simp [visit]
  | obj ps =>
    refine ⟨ps, Or.inl rfl, ?_⟩
    cases i <;> simp [visit]
  | _ => simp [isScalar] at hv

theorem visit_plain (i s : Bool) :
    ∀ v : Value, plainKeys v = true → ∀ x ∈ visit i s v, ∀ k ∈ x.1, plainKey k = true := by
  have hprops : ∀ ps : Props,
      (∀ e ∈ ps, plainKeys e.2 = true → ∀ x ∈ visit i s e.2, ∀ k ∈ x.1, plainKey k = true) →
      plainKeysProps ps = true → ∀ x ∈ visitProps i s ps, ∀ k ∈ x.1, plainKey k = true := by
    intro ps ih hp x hx k hk
    rw [plainKeysProps_iff] at hp
    rw [visitProps_eq_flatten] at hx
    simp only [List.mem_flatten, List.mem_map] at hx
    obtain ⟨l, ⟨e, he, rfl⟩, hxl⟩ := hx
    simp only [List.mem_map] at hxl
    obtain ⟨y, hy, rfl⟩ := hxl
    simp only [List.mem_cons] at hk
    rcases hk with hk | hk
    · rw [hk]; exact (hp e he).1
    · exact ih e he (hp e he).2 y hy k hk
  have hnode : ∀ (v : Value) (ps : Props), isScalar v = false →
      (v = .obj ps ∨ ∃ len, v = .arr len ps) →
      (∀ e ∈ ps, plainKeys e.2 = true → ∀ x ∈ visit i s e.2, ∀ k ∈ x.1, plainKey k = true) →
      plainKeys v = true → ∀ x ∈ visit i s v, ∀ k ∈ x.1, plainKey k = true := by
    intro v ps hv hps ih hp x hx k hk
    have hpp : plainKeysProps ps = true := by
      rcases hps with rfl | ⟨len, rfl⟩ <;> simpa [plainKeys] using hp
    obtain ⟨ps2, hps2, hvis⟩ := visit_collection i s v hv
    have hsame : ps2 = ps := by
      rcases hps with rfl | ⟨len, rfl⟩ <;> rcases hps2 with h | ⟨len2, h⟩ <;>
        first | (injection h with h1; first | exact h1.symm | (rename_i h2; exact h2.symm))
              | cases h
    subst hsame
    rcases hvis with h | h | h
    · rw [h] at hx; simp only [List.mem_singleton] at hx; rw [hx] at hk; simp at hk
    · rw [h] at hx; exact hprops _ ih hpp x hx k hk
    · rw [h] at hx
      simp only [List.mem_cons] at hx
      rcases hx with hx | hx
      · rw [hx] at hk; simp at hk
      · exact hprops _ ih hpp x hx k hk
  apply value_induction
  · intro v hv _ x hx
    rw [visit_scalar i s v hv] at hx
    simp only [List.mem_singleton] at hx
    rw [hx]; simp
  · intro len ps ih hp
    exact hnode (.arr len ps) ps rfl (Or.inr ⟨len, rfl⟩) ih hp
  · intro ps ih hp
    exact hnode (.obj ps) ps rfl (Or.inl rfl) ih hp

theorem visitProps_paths_nodup (i s : Bool) (ps : Props)
    (ih : ∀ e ∈ ps, wellFormed e.2 = true → ((visit i s e.2).map Prod.fst).Nodup)
    (hwf : wellFormedProps ps = true) : ((visitProps i s ps).map Prod.fst).Nodup := by
  induction ps with
  | nil => simp [visitProps]
  | cons e rest ihl =>
    obtain ⟨k0, v0⟩ := e
    have hwf2 := (wellFormedProps_iff _).mp hwf
    simp only [List.map_cons, List.nodup_cons] at hwf2
    have hrest : wellFormedProps rest = true :=
      (wellFormedProps_iff rest).mpr
        ⟨hwf2.1.2, fun e he => hwf2.2 e (List.mem_cons_of_mem _ he)⟩
    simp only [visitProps, List.map_append, List.map_map]
    rw [List.nodup_append]
    refine ⟨?_, ihl (fun e he => ih e (List.mem_cons_of_mem _ he)) hrest, ?_⟩
    · have h0 := ih (k0, v0) (List.mem_cons_self _ _) (hwf2.2 _ (List.mem_cons_self _ _))
      have : ((visit i s v0).map (Prod.fst ∘ fun e => (k0 :: e.1, e.2)))
          = ((visit i s v0).map Prod.fst).map (List.cons k0) := by
        simp [List.map_map, Function.comp]
      rw [this]
      exact h0.map (List.cons_injective)
    · intro p hp1 hp2
      simp only [List.mem_map, Function.comp] at hp1
      obtain ⟨y, _, rfl⟩ := hp1
      obtain ⟨x, hx, hxe⟩ := List.mem_map.mp hp2
      obtain ⟨k, segs, h1, h2⟩ := visitProps_head i s rest x hx
      rw [h1] at hxe
      have : k = k0 := by injection hxe
      exact hwf2.1.1 (this ▸ h2)

theorem visit_paths_nodup (i s : Bool) :
    ∀ v : Value, wellFormed v = true → ((visit i s v).map Prod.fst).Nodup := by
  have hroot : ∀ ps : Props, ([] : List String) ∉ (visitProps i s ps).map Prod.fst := by
    intro ps h
    obtain ⟨x, hx, hxe⟩ := List.mem_map.mp h
    obtain ⟨k, segs, h1, -⟩ := visitProps_head i s ps x hx
    rw [h1] at hxe
    cases hxe
  apply value_induction
  · intro v hv _
    rw [visit_scalar i s v hv]; simp
  · intro len ps ih hwf
    simp only [wellFormed, Bool.and_eq_true] at hwf
    have hp := visitProps_paths_nodup i s ps ih hwf.2
    cases s <;> cases i <;> simp [visit, hp, hroot ps]
  · intro ps ih hwf
    have hp := visitProps_paths_nodup i s ps ih (by simpa [wellFormed] using hwf)
    cases i <;> simp [visit, hp, hroot ps]

theorem foldl_joinPath_eq_empty (segs : List String) (h : ∀ x ∈ segs, plainKey x = true) :
    (segs.foldl joinPath "" != "") = !segs.isEmpty := by
  cases segs with
  | nil => rfl
  | cons k rest =>
    have := foldl_joinPath_ne_empty k rest h
    simp only [List.isEmpty_cons, Bool.not_false, bne_iff_ne, ne_eq]
    exact this

/-- The dotted form of a well-formed collection with plain keys, for every flag combination: the
nodes that `addObj` records, the root left out, each keyed by its keys joined by `.`; no two
of them share a key. -/
theorem collapseToDotted_eq_visit (i s : Bool) (obj : Value) (hobj : isScalar obj = false)
    (hkeys : plainKeys obj = true) (hwf : wellFormed obj = true) :
    collapseToDotted obj i s
        = .obj (((visit i s obj).filter fun e => !e.1.isEmpty).map
            fun e => (".".intercalate e.1, e.2))
      ∧ ((((visit i s obj).filter fun e => !e.1.isEmpty).map
            fun e => (".".intercalate e.1, e.2)).map Prod.fst).Nodup := by
  have hplain := visit_plain i s obj hkeys
  have hnodup : (((visit i s obj).map fun x => (x.1.foldl joinPath "", x.2)).map
      Prod.fst).Nodup := by
    have : ((visit i s obj).map fun x => (x.1.foldl joinPath "", x.2)).map Prod.fst
        = ((visit i s obj).map Prod.fst).map fun segs => segs.foldl joinPath "" := by
      simp [List.map_map, Function.comp]
    rw [this]
    apply List.Nodup.map_on _ (visit_paths_nodup i s obj hwf)
    intro a ha b hb hab
    obtain ⟨x, hx, rfl⟩ := List.mem_map.mp ha
    obtain ⟨y, hy, rfl⟩ := List.mem_map.mp hb
    exact foldl_joinPath_injective _ _ (hplain x hx) (hplain y hy) hab
  have hfilter : remove ((visit i s obj).map fun x => (x.1.foldl joinPath "", x.2)) ""
      = ((visit i s obj).filter fun e => !e.1.isEmpty).map
          fun x => (x.1.foldl joinPath "", x.2) := by
    rw [remove, List.filter_map]
    congr 1
    apply List.filter_congr
    intro x hx
    exact foldl_joinPath_eq_empty x.1 (hplain x hx)
  have hinter : ((visit i s obj).filter fun e => !e.1.isEmpty).map
        (fun x => (x.1.foldl joinPath "", x.2))
      = ((visit i s obj).filter fun e => !e.1.isEmpty).map
        fun e => (".".intercalate e.1, e.2) := by
    apply List.map_congr_left
    intro e he
    rw [intercalate_eq e.1 (hplain e (List.mem_of_mem_filter he))]
  have hc : collapseToDotted obj i s = .obj (remove (addObj i s obj "" []) "") := by
    simp [collapseToDotted, hobj]
  constructor
  · rw [hc, addObj_eq_foldl, assignments_visit i s obj hwf "",
      foldl_assign_nodup _ [] (by simpa using hnodup), List.nil_append, hfilter, hinter]
  · rw [← hinter, ← hfilter]
    exact (hnodup.sublist ((List.filter_sublist _).map Prod.fst))

/-! ## C18: includeRedundantLevels -/

theorem filter_visitProps (i s : Bool) (ps : Props) :
    (visitProps i s ps).filter (fun e => !e.1.isEmpty) = visitProps i s ps := by
  rw [List.filter_eq_self]
  intro x hx
  obtain ⟨k, segs, h1, -⟩ := visitProps_head i s ps x hx
  simp [h1]

theorem visit_below (i : Bool) (obj : Value) (hobj : isScalar obj = false) :
    (visit i false obj).filter (fun e => !e.1.isEmpty) = visitProps i false (propsOf obj) := by
  cases obj with
  | arr len ps => cases i <;> simp [visit, propsOf, filter_visitProps]
  | obj ps => cases i <;> simp [visit, propsOf, filter_visitProps]
  | _ => simp [isScalar] at hobj

theorem visit_default : ∀ v : Value, visit false false v = scalarLeaves v := by
  have hprops : ∀ ps : Props, (∀ e ∈ ps, visit false false e.2 = scalarLeaves e.2) →
      visitProps false false ps = leavesProps ps := by
    intro ps ih
    rw [visitProps_eq_flatten, leavesProps_eq_flatten]
    congr 1
    apply List.map_congr_left
    intro e he
    rw [ih e he]
  apply value_induction
  · intro v hv
    rw [visit_scalar _ _ v hv, scalarLeaves_scalar v hv]
  · intro len ps ih
    simp [visit, scalarLeaves, hprops ps ih]
  · intro ps ih
    simp [visit, scalarLeaves, hprops ps ih]

theorem perm_append_four {α : Type} (A B C D : List α) :
    (A ++ B ++ (C ++ D)).Perm ((A ++ C) ++ (B ++ D)) := by
  simp only [List.append_assoc]
  apply List.Perm.append_left
  rw [← List.append_assoc, ← List.append_assoc]
  exact List.Perm.append_right D List.perm_append_comm

theorem visitProps_redundant_perm (ps : Props)
    (ih : ∀ e ∈ ps, (visit true false e.2).Perm (scalarLeaves e.2 ++ collections e.2)) :
    (visitProps true false ps).Perm (leavesProps ps ++ collectionsProps ps) := by
  induction ps with
  | nil => simp [visitProps, leavesProps, collectionsProps]
  | cons e rest ihl =>
    obtain ⟨k0, v0⟩ := e
    have h0 := (ih (k0, v0) (List.mem_cons_self _ _)).map fun e => (k0 :: e.1, e.2)
    have hr := ihl fun e he => ih e (List.mem_cons_of_mem _ he)
    simp only [visitProps, leavesProps, collectionsProps]
    rw [List.map_append] at h0
    exact (h0.append hr).trans (perm_append_four _ _ _ _)

theorem visit_redundant_perm :
    ∀ v : Value, (visit true false v).Perm (scalarLeaves v ++ collections v) := by
  apply value_induction
  · intro v hv
    rw [visit_scalar _ _ v hv, scalarLeaves_scalar v hv]
    cases v <;> first | exact List.Perm.refl _ | simp [isScalar] at hv
  · intro len ps ih
    have := visitProps_redundant_perm ps ih
    simp only [visit, Bool.false_eq_true, if_false, if_true, scalarLeaves, collections,
      List.singleton_append]
    exact (this.cons _).trans List.perm_middle.symm
  · intro ps ih
    have := visitProps_redundant_perm ps ih
    simp only [visit, if_true, scalarLeaves, collections, List.singleton_append]
    exact (this.cons _).trans List.perm_middle.symm

theorem leavesProps_propsOf (obj : Value) (hobj : isScalar obj = false) :
    leavesProps (propsOf obj) = scalarLeaves obj := by
  cases obj <;> first | rfl | simp [isScalar] at hobj

theorem collections_not_scalar : ∀ v : Value, ∀ e ∈ collections v, isScalar e.2 = false := by
  have hprops : ∀ ps : Props, (∀ e ∈ ps, ∀ x ∈ collections e.2, isScalar x.2 = false) →
      ∀ x ∈ collectionsProps ps, isScalar x.2 = false := by
    intro ps
    induction ps with
    | nil => intro _ x hx; simp [collectionsProps] at hx
    | cons e rest ihl =>
      obtain ⟨k0, v0⟩ := e
      intro ih x hx
      simp only [collectionsProps, List.mem_append, List.mem_map] at hx
      rcases hx with ⟨y, hy, rfl⟩ | hx
      · exact ih (k0, v0) (List.mem_cons_self _ _) y hy
      · exact ihl (fun e he => ih e (List.mem_cons_of_mem _ he)) x hx
  apply value_induction
  · intro v hv e he
    cases v <;> first | (simp [isScalar] at hv; done) | simp [collections] at he
  · intro len ps ih e he
    simp only [collections, List.mem_cons] at he
    rcases he with rfl | he
    · rfl
    · exact hprops ps ih e he
  · intro ps ih e he
    simp only [collections, List.mem_cons] at he
    rcases he with rfl | he
    · rfl
    · exact hprops ps ih e he

/-- C18, as stated, fails when a key contains a `.`: for `{"a.b": 1, a: {b: {}}}` the default
dotted form is `{"a.b": 1}`, while with includeRedundantLevels the empty collection at path `a.b`
overwrites that entry, so the result does not contain the entry `a.b: 1`. -/
theorem collapseToDotted_redundant_collision :
    collapseToDotted (.obj [("a.b", .num (.finite 1)), ("a", .obj [("b", .obj [])])]) false false
        = .obj [("a.b", .num (.finite 1))]
      ∧ collapseToDotted (.obj [("a.b", .num (.finite 1)), ("a", .obj [("b", .obj [])])])
          true false
        = .obj [("a.b", .obj []), ("a", .obj [("b", .obj [])])] := by
  have hj : joinPath "a" "b" = "a.b" := by decide
  constructor
  · simp [collapseToDotted_obj, addObj_obj, addObj_scalar, isScalar, lookup, joinPath_empty, hj,
      assign, remove]
  · simp [collapseToDotted_obj, addObj_obj, addObj_scalar, isScalar, lookup, joinPath_empty, hj,
      assign, remove]

/-- C18 (amended): for every (well-formed) collection `obj` whose keys are non-empty and contain
no `.`, and which has no own key `__proto__`, `collapseToDotted(obj, true)` contains every entry
of `collapseToDotted(obj)` and, in
addition, exactly one entry for every collection strictly below the root, keyed by that
collection's path and bound to that collection itself, empty collections and sequence elements
that are collections included; no two entries share a key. -/
theorem collapseToDotted_redundant (obj : Value) (hobj : isScalar obj = false)
    (hkeys : plainKeys obj = true) (hwf : wellFormed obj = true)
    (hproto : "__proto__" ∉ forInKeys obj) :
    ∃ R0 R1 : Props, collapseToDotted obj false false = .obj R0
      ∧ collapseToDotted obj true false = .obj R1
      ∧ R1.Perm (R0 ++ (collectionsBelow obj).map fun e => (".".intercalate e.1, e.2))
      ∧ (∀ e ∈ R0, e ∈ R1)
      ∧ (∀ e ∈ collectionsBelow obj, isScalar e.2 = false ∧ (".".intercalate e.1, e.2) ∈ R1)
      ∧ (R1.map Prod.fst).Nodup := by
  obtain ⟨h0, -⟩ := collapseToDotted_eq_visit false false obj hobj hkeys hwf
  obtain ⟨h1, hn1⟩ := collapseToDotted_eq_visit true false obj hobj hkeys hwf
  rw [visit_below false obj hobj] at h0
  rw [visit_below true obj hobj] at h1 hn1
  have hv0 : visitProps false false (propsOf obj) = scalarLeaves obj := by
    have := visit_default obj
    cases obj with
    | arr len ps => simpa [visit, propsOf] using this
    | obj ps => simpa [visit, propsOf] using this
    | _ => simp [isScalar] at hobj
  rw [hv0] at h0
  have hperm : (visitProps true false (propsOf obj)).Perm
      (scalarLeaves obj ++ collectionsBelow obj) := by
    rw [← leavesProps_propsOf obj hobj]
    exact visitProps_redundant_perm (propsOf obj) fun e _ => visit_redundant_perm e.2
  have hperm2 := hperm.map fun e => (".".intercalate e.1, e.2)
  rw [List.map_append] at hperm2
  refine ⟨_, _, h0, h1, hperm2, ?_, ?_, hn1⟩
  · intro e he
    exact hperm2.symm.subset (List.mem_append_left _ he)
  · intro e he
    refine ⟨?_, hperm2.symm.subset (List.mem_append_right _ (List.mem_map_of_mem _ he))⟩
    cases obj with
    | arr len ps =>
      exact collections_not_scalar (.arr len ps) e (List.mem_cons_of_mem _ he)
    | obj ps =>
      exact collections_not_scalar (.obj ps) e (List.mem_cons_of_mem _ he)
    | _ => simp [isScalar] at hobj

theorem collapseToDotted_redundant_witness :
    plainKeys testObj = true ∧ wellFormed testObj = true
    ∧ collapseToDotted testObj true false
        = .obj [("foo", .num (.finite 123)),
            ("bar", .obj [("biz", .num (.finite 12)), ("baz", .obj [("buz", .num (.finite 1))])]),
            ("bar.biz", .num (.finite 12)),
            ("bar.baz", .obj [("buz", .num (.finite 1))]),
            ("bar.baz.buz", .num (.finite 1)),
            ("arr", .arr 3 [("0", .num (.finite 1)), ("1", .num (.finite 2)),
              ("2", .obj [("foo", .num (.finite 3))])]),
            ("arr.0", .num (.finite 1)), ("arr.1", .num (.finite 2)),
            ("arr.2", .obj [("foo", .num (.finite 3))]),
            ("arr.2.foo", .num (.finite 3))]
    ∧ ∃ R0 R1 : Props, collapseToDotted testObj false false = .obj R0
      ∧ collapseToDotted testObj true false = .obj R1
      ∧ R1.Perm (R0 ++ (collectionsBelow testObj).map fun e => (".".intercalate e.1, e.2))
      ∧ (∀ e ∈ R0, e ∈ R1)
      ∧ (∀ e ∈ collectionsBelow testObj,
          isScalar e.2 = false ∧ (".".intercalate e.1, e.2) ∈ R1)
      ∧ (R1.map Prod.fst).Nodup :=
  ⟨by decide, by decide,
    by simp [testObj, collapseToDotted_obj, addObj_obj, addObj_arr, addObj_scalar, isScalar,
      lookup, get, joinPath, assign, remove],
    collapseToDotted_redundant testObj rfl (by decide) (by decide) (by decide)⟩

/-! ## C19: stopAtArrays -/

theorem stopLeavesProps_eq_flatten (ps : Props) :
    stopLeavesProps ps
      = (ps.map fun e => (stopLeaves e.2).map fun x => (e.1 :: x.1, x.2)).flatten := by
  induction ps with
  | nil => rfl
  | cons x rest ih =>
    obtain ⟨k0, v0⟩ := x
    simp only [stopLeavesProps, List.map_cons, List.flatten_cons, ih]

theorem mem_stopLeavesProps (ps : Props) (e : List String × Value) :
    e ∈ stopLeavesProps ps ↔ ∃ b ∈ ps, ∃ x ∈ stopLeaves b.2, e = (b.1 :: x.1, x.2) := by
  rw [stopLeavesProps_eq_flatten]
  simp only [List.mem_flatten, List.mem_map]
  constructor
  · rintro ⟨l, ⟨b, hb, rfl⟩, he⟩
    simp only [List.mem_map] at he
    obtain ⟨x, hx, rfl⟩ := he
    exact ⟨b, hb, x, hx, rfl⟩
  · rintro ⟨b, hb, x, hx, rfl⟩
    exact ⟨_, ⟨b, hb, rfl⟩, List.mem_map_of_mem _ hx⟩

theorem visit_stop : ∀ v : Value, visit false true v = stopLeaves v := by
  apply value_induction
  · intro v hv
    rw [visit_scalar _ _ v hv]
    cases v <;> first | rfl | simp [isScalar] at hv
  · intro len ps _
    simp [visit, stopLeaves]
  · intro ps ih
    simp only [visit, Bool.false_eq_true, if_false, List.nil_append, stopLeaves]
    rw [visitProps_eq_flatten, stopLeavesProps_eq_flatten]
    congr 1
    apply List.map_congr_left
    intro e he
    rw [ih e he]

theorem stopLeaves_values : ∀ v : Value, ∀ e ∈ stopLeaves v,
    isScalar e.2 = true ∨ isArray e.2 = true := by
  apply value_induction
  · intro v hv e he
    cases v <;> first | (simp [isScalar] at hv; done) | (simp [stopLeaves] at he; subst he; left; rfl)
  · intro len ps _ e he
    simp [stopLeaves] at he
    subst he
    right; rfl
  · intro ps ih e he
    simp only [stopLeaves] at he
    obtain ⟨b, hb, x, hx, rfl⟩ := (mem_stopLeavesProps ps e).1 he
    exact ih b hb x hx

theorem stopLeaves_located : ∀ v : Value, wellFormed v = true → ∀ e ∈ stopLeaves v,
    getPathLoop false e.1 v = e.2
      ∧ ∀ pre rest, e.1 = pre ++ rest → rest ≠ [] →
          isArray (getPathLoop false pre v) = false := by
  apply value_induction
  · intro v hv _ e he
    have : e = ([], v) := by
      cases v <;> first | (simp [isScalar] at hv; done) | simpa [stopLeaves] using he
    subst this
    refine ⟨getPathLoop_nil _ _, ?_⟩
    intro pre rest h hr
    have := congrArg List.length h
    cases rest with
    | nil => exact absurd rfl hr
    | cons a r => simp at this; omega
  · intro len ps _ _ e he
    have : e = ([], .arr len ps) := by simpa [stopLeaves] using he
    subst this
    refine ⟨getPathLoop_nil _ _, ?_⟩
    intro pre rest h hr
    have := congrArg List.length h
    cases rest with
    | nil => exact absurd rfl hr
    | cons a r => simp at this; omega
  · intro ps ih hwf e he
    simp only [stopLeaves] at he
    obtain ⟨b, hb, x, hx, rfl⟩ := (mem_stopLeavesProps ps e).1 he
    simp only [wellFormed] at hwf
    obtain ⟨hn, hall⟩ := (wellFormedProps_iff ps).1 hwf
    have hget : get (.obj ps) b.1 = b.2 := lookup_of_mem ps b hn hb
    obtain ⟨h1, h2⟩ := ih b hb (hall b hb) x hx
    constructor
    · show getPathLoop false (b.1 :: x.1) (.obj ps) = x.2
      rw [getPathLoop_cons b.1 x.1 (.obj ps) rfl, hget, h1]
    · intro pre rest h hr
      cases pre with
      | nil => rw [getPathLoop_nil]; rfl
      | cons q pre1 =>
        simp only [List.cons_append, List.cons.injEq] at h
        obtain ⟨hq, hrest⟩ := h
        subst hq
        rw [getPathLoop_cons b.1 pre1 (.obj ps) rfl, hget]
        exact h2 pre1 rest hrest hr

theorem flatten_map_cons (k : String) (L : List (List String × Value)) :
    ((L.map fun e => (k :: e.1, e.2)).map fun e =>
        (scalarLeaves e.2).map fun x => (e.1 ++ x.1, x.2)).flatten
      = ((L.map fun e => (scalarLeaves e.2).map fun x => (e.1 ++ x.1, x.2)).flatten).map
          fun e => (k :: e.1, e.2) := by
  induction L with
  | nil => rfl
  | cons a L ih =>
    simp only [List.map_cons, List.flatten_cons, List.map_append, List.map_map]
    rw [← ih]
    simp only [List.map_map]
    rfl

theorem leaves_expand : ∀ v : Value,
    scalarLeaves v
      = ((stopLeaves v).map fun e => (scalarLeaves e.2).map fun x => (e.1 ++ x.1, x.2)).flatten := by
  have hprops : ∀ ps : Props,
      (∀ b ∈ ps, scalarLeaves b.2 = ((stopLeaves b.2).map fun e =>
        (scalarLeaves e.2).map fun x => (e.1 ++ x.1, x.2)).flatten) →
      leavesProps ps = ((stopLeavesProps ps).map fun e =>
        (scalarLeaves e.2).map fun x => (e.1 ++ x.1, x.2)).flatten := by
    intro ps
    induction ps with
    | nil => intro _; rfl
    | cons b rest ihl =>
      obtain ⟨k0, v0⟩ := b
      intro ih
      simp only [leavesProps, stopLeavesProps, List.map_append, List.flatten_append]
      rw [flatten_map_cons, ← ih (k0, v0) (List.mem_cons_self _ _),
        ← ihl fun b hb => ih b (List.mem_cons_of_mem _ hb)]
  apply value_induction
  · intro v hv
    rw [scalarLeaves_scalar v hv]
    have : stopLeaves v = [([], v)] := by
      cases v <;> first | rfl | simp [isScalar] at hv
    simp [this, scalarLeaves_scalar v hv]
  · intro len ps _
    simp [stopLeaves]
  · intro ps ih
    simp only [scalarLeaves, stopLeaves]
    exact hprops ps ih

/-- C19, as stated, fails when a key contains a `.`: for `{"a.0": 1, a: [2]}` the result with
stopAtArrays is `{"a.0": 1, a: [2]}`, whose key `a.0` is the path of position 0 of the sequence
`a` (getPath reads the element `2` there), and whose entry `a.0: 1` differs from the entry
`a.0: 2` of the default mode. -/
theorem collapseToDotted_stop_collision :
    collapseToDotted (.obj [("a.0", .num (.finite 1)), ("a", .arr 1 [("0", .num (.finite 2))])])
        false true
        = .obj [("a.0", .num (.finite 1)), ("a", .arr 1 [("0", .num (.finite 2))])]
      ∧ collapseToDotted
          (.obj [("a.0", .num (.finite 1)), ("a", .arr 1 [("0", .num (.finite 2))])]) false false
        = .obj [("a.0", .num (.finite 2))]
      ∧ getPath (.obj [("a.0", .num (.finite 1)), ("a", .arr 1 [("0", .num (.finite 2))])])
          (.str "a.0") false = .num (.finite 2) := by
  have hj : joinPath "a" "0" = "a.0" := by decide
  have hs : splitDots "a.0" = ["a", "0"] := by decide
  refine ⟨?_, ?_, ?_⟩
  · simp [collapseToDotted_obj, addObj_obj, addObj_leaf, isScalar, isArray, lookup,
      joinPath_empty, assign, remove]
  · simp [collapseToDotted_obj, addObj_obj, addObj_arr, addObj_scalar, isScalar, lookup, get,
      joinPath_empty, hj, assign, remove]
  · simp [getPath, hs, getPathLoop_cons, getPathLoop_nil, isScalar, get, lookup]

/-- C19 (amended): for every (well-formed) collection `obj` whose keys are non-empty and contain
no `.`, and which has no own key `__proto__`, `collapseToDotted(obj, false, true)` does not
descend into sequences: its entries are, in
order, the leaves of `obj` where a sequence counts as a leaf, each keyed by its dot-joined path
and bound to the node itself; every value is a scalar or a whole sequence, read by getPath at
its own path; no entry lies at a position inside a sequence (no proper prefix of its path leads
to a sequence); no two entries share a key; and the default mode's leaves are these entries with
every sequence replaced by its own leaves, so that entries outside sequences are the same. -/
theorem collapseToDotted_stopAtArrays (obj : Value) (hobj : isScalar obj = false)
    (hkeys : plainKeys obj = true) (hwf : wellFormed obj = true)
    (hproto : "__proto__" ∉ forInKeys obj) :
    collapseToDotted obj false true
        = .obj (((stopLeaves obj).filter fun e => !e.1.isEmpty).map
            fun e => (".".intercalate e.1, e.2))
      ∧ ((((stopLeaves obj).filter fun e => !e.1.isEmpty).map
            fun e => (".".intercalate e.1, e.2)).map Prod.fst).Nodup
      ∧ (∀ e ∈ stopLeaves obj,
          (isScalar e.2 = true ∨ isArray e.2 = true)
            ∧ getPathLoop false e.1 obj = e.2
            ∧ ∀ pre rest, e.1 = pre ++ rest → rest ≠ [] →
                isArray (getPathLoop false pre obj) = false)
      ∧ scalarLeaves obj
          = ((stopLeaves obj).map fun e =>
              (scalarLeaves e.2).map fun x => (e.1 ++ x.1, x.2)).flatten := by
  obtain ⟨h1, h2⟩ := collapseToDotted_eq_visit false true obj hobj hkeys hwf
  rw [visit_stop] at h1 h2
  refine ⟨h1, h2, ?_, leaves_expand obj⟩
  intro e he
  exact ⟨stopLeaves_values obj e he, stopLeaves_located obj hwf e he⟩

theorem collapseToDotted_stopAtArrays_witness :
    collapseToDotted testObj false true
        = .obj [("foo", .num (.finite 123)), ("bar.biz", .num (.finite 12)),
            ("bar.baz.buz", .num (.finite 1)),
            ("arr", .arr 3 [("0", .num (.finite 1)), ("1", .num (.finite 2)),
              ("2", .obj [("foo", .num (.finite 3))])])]
    ∧ collapseToDotted testObj false true
        = .obj (((stopLeaves testObj).filter fun e => !e.1.isEmpty).map
            fun e => (".".intercalate e.1, e.2))
      ∧ ((((stopLeaves testObj).filter fun e => !e.1.isEmpty).map
            fun e => (".".intercalate e.1, e.2)).map Prod.fst).Nodup
      ∧ (∀ e ∈ stopLeaves testObj,
          (isScalar e.2 = true ∨ isArray e.2 = true)
            ∧ getPathLoop false e.1 testObj = e.2
            ∧ ∀ pre rest, e.1 = pre ++ rest → rest ≠ [] →
                isArray (getPathLoop false pre testObj) = false)
      ∧ scalarLeaves testObj
          = ((stopLeaves testObj).map fun e =>
              (scalarLeaves e.2).map fun x => (e.1 ++ x.1, x.2)).flatten :=
  ⟨by simp [testObj, collapseToDotted_obj, addObj_obj, addObj_leaf, isScalar, isArray,
      lookup, joinPath, assign, remove],
    collapseToDotted_stopAtArrays testObj rfl (by decide) (by decide) (by decide)⟩

/-! ## C21, C22, C23, C24, C27, C28: the classifier and the comparisons -/

/-- C21: `scalarEquals` compares two temporal values by their instants, whichever objects
carry them, and everything else by `===`; so `0` against `null` and `null` against `undefined`
are unequal, `null` against `null` and `undefined` against `undefined` are equal. -/
theorem scalarEquals_spec :
    (∀ t1 t2 : JSNumber, scalarEquals (.date t1) (.date t2) = t1.strictEquals t2)
      ∧ (∀ m n : Int, scalarEquals (.date (.finite m)) (.date (.finite n)) = true ↔ m = n)
      ∧ (∀ a b : Value, (∀ t1 t2, ¬ (a = .date t1 ∧ b = .date t2)) →
          scalarEquals a b = strictEquals a b)
      ∧ scalarEquals (.num (.finite 0)) .null = false
      ∧ scalarEquals .null .undefined = false
      ∧ scalarEquals .null .null = true
      ∧ scalarEquals .undefined .undefined = true := by
  refine ⟨fun _ _ => rfl, ?_, ?_, rfl, rfl, rfl, rfl⟩
  · intro m n
    simp [scalarEquals, JSNumber.strictEquals]
  · intro a b h
    cases a <;> cases b <;> first | rfl | exact absurd ⟨rfl, rfl⟩ (h _ _)

theorem scalarEquals_spec_witness :
    scalarEquals (.date (.finite 1388534400000)) (.date (.finite 1388534400000)) = true
      ∧ scalarEquals (.date (.finite 1388534400000)) (.date (.finite 1388534401000)) = false
      ∧ scalarEquals (.num (.finite 2)) (.num (.finite 2))
          = strictEquals (.num (.finite 2)) (.num (.finite 2)) :=
  ⟨(scalarEquals_spec.2.1 _ _).2 rfl,
    by rw [scalarEquals_spec.1]; decide,
    scalarEquals_spec.2.2.1 _ _ (by intro t1 t2 h; cases h.1)⟩

/-- C22: `isScalar(v)` is true exactly when `v` is neither a sequence nor a mapping: it is true
for `null`, `undefined`, every temporal value, every callable and every primitive, and false for
every sequence and every mapping, the empty ones included. -/
theorem isScalar_spec :
    (∀ v : Value, isScalar v = true ↔ (∀ len ps, v ≠ .arr len ps) ∧ (∀ ps, v ≠ .obj ps))
      ∧ isScalar .null = true ∧ isScalar .undefined = true
      ∧ (∀ t, isScalar (.date t) = true) ∧ (∀ id, isScalar (.func id) = true)
      ∧ (∀ b, isScalar (.bool b) = true) ∧ (∀ n, isScalar (.num n) = true)
      ∧ (∀ s, isScalar (.str s) = true)
      ∧ (∀ len ps, isScalar (.arr len ps) = false) ∧ (∀ ps, isScalar (.obj ps) = false)
      ∧ isScalar (.arr 0 []) = false ∧ isScalar (.obj []) = false := by
  refine ⟨?_, rfl, rfl, fun _ => rfl, fun _ => rfl, fun _ => rfl, fun _ => rfl, fun _ => rfl,
    fun _ _ => rfl, fun _ => rfl, rfl, rfl⟩
  intro v
  cases v <;> simp [isScalar]

theorem deepEquals_arr_obj (la : Nat) (pa pb : Props) :
    deepEquals (.arr la pa) (.obj pb) = false := by
  rw [deepEquals]; simp [isScalar, isNullish, isArray]

theorem deepEquals_obj_arr (la : Nat) (pa pb : Props) :
    deepEquals (.obj pb) (.arr la pa) = false := by
  rw [deepEquals]; simp [isScalar, isNullish, isArray]

/-- C23: a sequence and a mapping are never `deepEquals`, in either order; in particular an
empty sequence against an empty mapping, and a sequence against the mapping that binds the keys
`0` to `n - 1` to its elements. -/
theorem deepEquals_sequence_mapping :
    (∀ (la : Nat) (pa pb : Props),
        deepEquals (.arr la pa) (.obj pb) = false ∧ deepEquals (.obj pb) (.arr la pa) = false)
      ∧ deepEquals (.arr 0 []) (.obj []) = false ∧ deepEquals (.obj []) (.arr 0 []) = false
      ∧ (∀ (n : Nat) (ps : Props),
          deepEquals (.arr n ps) (.obj ps) = false ∧ deepEquals (.obj ps) (.arr n ps) = false) :=
  ⟨fun la pa pb => ⟨deepEquals_arr_obj la pa pb, deepEquals_obj_arr la pa pb⟩,
    deepEquals_arr_obj _ _ _, deepEquals_obj_arr _ _ _,
    fun n ps => ⟨deepEquals_arr_obj n ps ps, deepEquals_obj_arr n ps ps⟩⟩

/-- C24: a `null` or `undefined` path addresses the root: `getPath` returns `obj` itself, with
either setting of allowSkipArrays. -/
theorem getPath_root (obj : Value) (allowSkipArrays : Bool) :
    getPath obj .null allowSkipArrays = obj ∧ getPath obj .undefined allowSkipArrays = obj :=
  ⟨rfl, rfl⟩

/-- C27, evaluated where it fails: the number `5` and the empty mapping are `deepEquals`, in
either order, and so is any mapping that binds nothing but `undefined`. -/
theorem deepEquals_scalar_empty_mapping :
    deepEquals (.num (.finite 5)) (.obj []) = true
      ∧ deepEquals (.obj []) (.num (.finite 5)) = true
      ∧ deepEquals (.bool true) (.obj [("a", .undefined)]) = true := by
  refine ⟨?_, ?_, ?_⟩
  · rw [deepEquals]; simp [isScalar, isNullish, isArray, forInKeys]
  · rw [deepEquals]; simp [isScalar, isNullish, isArray, forInKeys]
  · rw [deepEquals]
    simp [isScalar, isNullish, isArray, forInKeys, get, lookup, deepEquals_scalar, scalarEquals,
      strictEquals]

theorem numberStrictEquals_comm (a b : JSNumber) : a.strictEquals b = b.strictEquals a := by
  cases a <;> cases b <;> simp [JSNumber.strictEquals, eq_comm]

theorem strictEquals_comm (a b : Value) : strictEquals a b = strictEquals b a := by
  cases a <;> cases b <;>
    simp [strictEquals, numberStrictEquals_comm, Bool.beq_comm, eq_comm]

theorem deepEquals_collection (a b : Value) (h : (isScalar a && isScalar b) = false) :
    deepEquals a b
      = if isNullish a || isNullish b then strictEquals a b
        else if isArray a && isArray b then
          if length a != length b then false
          else (List.range (length a)).all fun i =>
            deepEquals (get a (indexKey i)) (get b (indexKey i))
        else if !isArray a && !isArray b then
          ((forInKeys a).all fun key => deepEquals (get a key) (get b key))
            && ((forInKeys b).all fun key => deepEquals (get a key) (get b key))
        else false := by
  rw [deepEquals]
  simp only [h, Bool.false_eq_true, dite_false]

theorem deepEquals_comm_aux (n : Nat) :
    ∀ a b : Value, size a + size b < n → deepEquals a b = deepEquals b a := by
  induction n with
  | zero => intro a b h; omega
  | succ n ih =>
    intro a b hn
    by_cases hs : (isScalar a && isScalar b) = true
    · have hs2 := hs
      simp only [Bool.and_eq_true] at hs2
      rw [deepEquals_scalar a b hs2.1 hs2.2, deepEquals_scalar b a hs2.2 hs2.1,
        scalarEquals_comm]
    · have hlt : ∀ k k2, size (get a k) + size (get b k2) < n := fun k k2 => by
        have := size_pair_lt a b k k2 hs; omega
      have hs1 : (isScalar a && isScalar b) = false := by simpa using hs
      have hs3 : (isScalar b && isScalar a) = false := by rwa [Bool.and_comm]
      have hrec : ∀ k, deepEquals (get a k) (get b k) = deepEquals (get b k) (get a k) :=
        fun k => ih _ _ (hlt k k)
      rw [deepEquals_collection a b hs1, deepEquals_collection b a hs3]
      rw [Bool.or_comm (isNullish b), strictEquals_comm b a, Bool.and_comm (isArray b),
        Bool.and_comm (!isArray b)]
      by_cases hn : (isNullish a || isNullish b) = true
      · simp only [hn, if_true]
      · simp only [hn, Bool.false_eq_true, if_false]
        by_cases ha : (isArray a && isArray b) = true
        · simp only [ha, if_true]
          by_cases hl : length a = length b
          · simp only [hl, bne_self_eq_false, Bool.false_eq_true, if_false]
            simp only [hrec]
          · have hl2 : ¬ length b = length a := fun e => hl e.symm
            simp [hl, hl2]
        · simp only [ha, Bool.false_eq_true, if_false]
          by_cases hm : (!isArray a && !isArray b) = true
          · simp only [hm, if_true, hrec]
            rw [Bool.and_comm]
          · simp only [hm, Bool.false_eq_true, if_false]

/-- C28: `deepEquals` is symmetric: `deepEquals(a, b) = deepEquals(b, a)` for all values. -/
theorem deepEquals_symmetric (a b : Value) : deepEquals a b = deepEquals b a :=
  deepEquals_comm_aux _ a b (Nat.lt_succ_self _)

/-! ## C30: enabling allowSkipArrays on a path that resolves -/

theorem digitChar_isDigit : ∀ a, a < 10 → (Nat.digitChar a).isDigit = true := by
  decide

theorem toDigitsCore_all_digit (fuel : Nat) :
    ∀ n, (Nat.toDigitsCore 10 fuel n []).all Char.isDigit = true := by
  induction fuel with
  | zero => intro n; simp [Nat.toDigitsCore]
  | succ f ih =>
    intro n
    have hd := digitChar_isDigit (n % 10) (Nat.mod_lt _ (by omega))
    simp only [Nat.toDigitsCore]
    split
    · simp [hd]
    · rw [toDigitsCore_append, List.all_append, ih]
      simp [hd]

theorem isDecimal_indexKey (i : Nat) : isDecimal (indexKey i) = true := by
  have h1 := toDigitsCore_all_digit (i + 1) i
  have h2 := toDigitsCore_ne_nil 10 (i + 1) i (by omega)
  simp only [isDecimal, indexKey, toString, Nat.repr, List.asString, Nat.toDigits,
    Bool.and_eq_true, Bool.not_eq_true', List.isEmpty_eq_false]
  exact ⟨h2, h1⟩

theorem isDecimal_of_arrayIndex (k : String) (i : Nat) (h : arrayIndex? k = some i) :
    isDecimal k = true := by
  simp only [arrayIndex?] at h
  split at h
  · rename_i hc
    rw [← hc.1]
    exact isDecimal_indexKey _
  · cases h

theorem indexKeysOnlyProps_iff (bound : Option Nat) (ps : Props) :
    indexKeysOnlyProps bound ps = true
      ↔ ∀ e ∈ ps, isIndexBelow bound e.1 = true ∧ indexKeysOnly e.2 = true := by
  induction ps with
  | nil => simp [indexKeysOnlyProps]
  | cons x rest ih =>
    obtain ⟨k0, v0⟩ := x
    simp only [indexKeysOnlyProps, Bool.and_eq_true, ih, List.mem_cons, forall_eq_or_imp]

theorem indexKeysOnly_lookup (bound : Option Nat) (ps : Props) (k : String)
    (h : indexKeysOnlyProps bound ps = true) : indexKeysOnly (lookup ps k) = true := by
  induction ps with
  | nil => rfl
  | cons x rest ih =>
    obtain ⟨k0, v0⟩ := x
    simp only [indexKeysOnlyProps, Bool.and_eq_true] at h
    simp only [lookup]
    split
    · exact h.1.2
    · exact ih h.2

theorem indexKeysOnly_get (cur : Value) (k : String) (h : indexKeysOnly cur = true) :
    indexKeysOnly (get cur k) = true := by
  cases cur with
  | arr len ps =>
    simp only [get]
    split
    · rfl
    · exact indexKeysOnly_lookup _ ps k h
  | obj ps => exact indexKeysOnly_lookup _ ps k h
  | str s =>
    simp only [get]
    split
    · rfl
    · simp only [charAt]
      split
      · split <;> rfl
      · rfl
  | _ => rfl

theorem getPathLoop_undefined (skip : Bool) (parts : List String) :
    getPathLoop skip parts .undefined = .undefined := by
  cases parts with
  | nil => exact getPathLoop_nil _ _
  | cons p r => exact getPathLoop_scalar skip p r .undefined rfl

theorem get_unit_sequence (len : Nat) (ps : Props) (part : String)
    (h : indexKeysOnly (.arr len ps) = true) (hd : isDecimal part = false)
    (hl : part ≠ "length") : get (.arr len ps) part = .undefined := by
  simp only [get, hl, if_false]
  apply lookup_of_not_mem
  intro hmem
  obtain ⟨e, he, rfl⟩ := List.mem_map.1 hmem
  have hk := ((indexKeysOnlyProps_iff _ ps).1 h e he).1
  simp only [isIndexBelow] at hk
  split at hk
  · rename_i i hi
    rw [isDecimal_of_arrayIndex _ i hi] at hd
    cases hd
  · cases hk

theorem getPathLoop_flag (parts : List String) :
    ∀ cur : Value, indexKeysOnly cur = true → getPathLoop false parts cur ≠ .undefined →
      endsAtUnitLength parts cur = false →
      getPathLoop true parts cur = getPathLoop false parts cur := by
  induction parts with
  | nil => intro cur _ _ _; rw [getPathLoop_nil, getPathLoop_nil]
  | cons part rest ih =>
    intro cur hk hne hend
    by_cases hs : isScalar cur = true
    · exact absurd (getPathLoop_scalar false part rest cur hs) hne
    · have hs2 : isScalar cur = false := by simpa using hs
      rw [getPathLoop_cons part rest cur hs2] at hne ⊢
      by_cases hc : (isArray cur && true && !isDecimal part && length cur == 1) = true
      · exfalso
        simp only [Bool.and_true, Bool.and_eq_true, Bool.not_eq_true', beq_iff_eq] at hc
        obtain ⟨⟨ha, hd⟩, hl⟩ := hc
        cases cur with
        | arr len ps =>
          by_cases hp : part = "length"
          · cases rest with
            | nil => simp [endsAtUnitLength, isArray, hl, hp] at hend
            | cons r rs =>
              apply hne
              simp only [get, hp, if_true]
              exact getPathLoop_scalar false r rs _ rfl
          · apply hne
            rw [get_unit_sequence len ps part hk hd hp]
            exact getPathLoop_undefined _ _
        | _ => simp [isArray] at ha
      · have hc2 : (isArray cur && true && !isDecimal part && length cur == 1) = false := by
          simpa using hc
        rw [getPathLoop_step true part rest cur hs2 hc2]
        apply ih (get cur part) (indexKeysOnly_get cur part hk) hne
        cases rest with
        | nil => rfl
        | cons r rs => simpa [endsAtUnitLength] using hend

/-- C30, as stated, fails on the `length` of a one-element sequence: for `[[]]` and the path
`length`, `getPath` without the flag returns `1`, and with the flag the sequence is skipped and
the result is `0`, the length of its element. -/
theorem getPath_flag_length :
    indexKeysOnly (.arr 1 [("0", .arr 0 [])]) = true
      ∧ getPath (.arr 1 [("0", .arr 0 [])]) (.str "length") false = .num (.finite 1)
      ∧ getPath (.arr 1 [("0", .arr 0 [])]) (.str "length") true = .num (.finite 0) := by
  have hsplit : splitDots "length" = ["length"] := by decide
  have h0 : indexKey 0 = "0" := by decide
  have hd : isDecimal "length" = false := by decide
  refine ⟨by decide, ?_, ?_⟩
  · simp [getPath, hsplit, getPathLoop_cons, getPathLoop_nil, isScalar, get]
  · have hg : get (.arr 1 [("0", .arr 0 [])]) (indexKey 0) = .arr 0 [] := by
      simp [get, h0, lookup]
    rw [getPath, hsplit,
      getPathLoop_skip true "length" [] (.arr 1 [("0", .arr 0 [])]) rfl
        (by simp [isArray, hd, length]),
      hg, getPathLoop_step true "length" [] (.arr 0 []) rfl (by simp [isArray, hd, length]),
      getPathLoop_nil]
    rfl

/-- C30 (amended): enabling allowSkipArrays never changes a path that already resolves, unless
the path reads the `length` of a one-element sequence: for every tree `obj` whose sequences carry
only index keys and every path `p` none of whose segments names an inherited member, if
`getPath(obj, p)` without the flag is not `undefined` and the walk does not end with the segment
`length` at a sequence of exactly one element, then `getPath(obj, p, true)` returns the same
value. -/
theorem getPath_flag_resolved (obj : Value) (p : String) (hk : indexKeysOnly obj = true)
    (hown : ∀ s ∈ splitDots p, isInherited s = false)
    (hres : getPath obj (.str p) false ≠ .undefined)
    (hlen : endsAtUnitLength (splitDots p) obj = false) :
    getPath obj (.str p) true = getPath obj (.str p) false :=
  getPathLoop_flag (splitDots p) obj hk hres hlen

theorem getPath_flag_resolved_witness :
    getPath (.obj [("baz", .obj [("arr2", .arr 1 [("0", .obj [("zip", .num (.finite 4))])])])])
        (.str "baz.arr2.0.zip") true
      = getPath
          (.obj [("baz", .obj [("arr2", .arr 1 [("0", .obj [("zip", .num (.finite 4))])])])])
          (.str "baz.arr2.0.zip") false := by
  have hsplit : splitDots "baz.arr2.0.zip" = ["baz", "arr2", "0", "zip"] := by decide
  refine getPath_flag_resolved _ _ (by decide) (by decide) ?_ ?_
  · simp [getPath, hsplit, getPathLoop_cons, getPathLoop_nil, isScalar, get, lookup]
  · rw [hsplit]; simp [endsAtUnitLength, get, lookup]

/-! ## C29: what `setPath` leaves alone -/

theorem setProp_frame (cur : Value) (part : String) (v : Value) (hc : isScalar cur = false)
    (hr : resizesAt cur part = false) :
    ∃ cur1, setProp cur part v = .ok cur1 ∧ isScalar cur1 = false ∧ get cur1 part = v
      ∧ (isArray cur1 && part == "length") = false
      ∧ ∀ k, k ≠ part → get cur1 k = get cur k := by
  cases cur with
  | obj ps =>
    refine ⟨_, rfl, rfl, by simp [get, lookup_assign], rfl, ?_⟩
    intro k hk
    have hk2 : ¬ part = k := fun e => hk e.symm
    simp [get, lookup_assign, hk2]
  | arr len ps =>
    simp only [resizesAt, Bool.or_eq_false_iff, beq_eq_false_iff_ne, ne_eq] at hr
    obtain ⟨hp, hi⟩ := hr
    simp only [setProp, hp, if_false]
    cases ha : arrayIndex? part with
    | none =>
      refine ⟨_, rfl, rfl, by simp [get, hp, lookup_assign], by simp [hp], ?_⟩
      intro k hk
      have hk2 : ¬ part = k := fun e => hk e.symm
      simp [get, lookup_assign, hk2]
    | some i =>
      rw [ha] at hi
      have hlt : i < len := by simpa using hi
      have hmax : max len (i + 1) = len := by omega
      refine ⟨_, rfl, rfl, by simp [get, hp, lookup_assign], by simp [hp], ?_⟩
      intro k hk
      have hk2 : ¬ part = k := fun e => hk e.symm
      simp [get, lookup_assign, hk2, hmax]
  | _ => simp [isScalar] at hc

theorem resizes_empty_obj (parts : List String) : resizes parts (.obj []) = false := by
  cases parts with
  | nil => rfl
  | cons k rest =>
    cases rest with
    | nil => rfl
    | cons n r => simp [resizes, get, lookup, isScalar, resizesAt]

theorem setPathLoop_frame (v : Value) (parts : List String) :
    ∀ cur : Value, parts ≠ [] → isScalar cur = false → resizes parts cur = false →
      ∃ cur1, setPathLoop parts cur v = .ok cur1 ∧ isScalar cur1 = false
        ∧ ∀ qs : List String, ¬ parts <+: qs → ¬ qs <+: parts →
            getPathLoop false qs cur1 = getPathLoop false qs cur := by
  induction parts with
  | nil => intro cur h; exact absurd rfl h
  | cons k rest ih =>
    intro cur _ hc hr
    cases rest with
    | nil =>
      obtain ⟨cur1, h1, h2, -, -, h5⟩ := setProp_frame cur k v hc hr
      refine ⟨cur1, h1, h2, ?_⟩
      intro qs hpq hqp
      cases qs with
      | nil => exact absurd List.nil_prefix hqp
      | cons k2 rq =>
        have hne : k2 ≠ k := by
          intro e
          subst e
          exact hpq ((List.cons_prefix_cons).2 ⟨rfl, List.nil_prefix⟩)
        rw [getPathLoop_cons k2 rq cur1 h2, getPathLoop_cons k2 rq cur hc, h5 k2 hne]
    | cons n r =>
      by_cases hsc : isScalar (get cur k) = true
      · simp only [resizes, hsc, if_true] at hr
        obtain ⟨cur1, h1, h2, h3, h4, h5⟩ := setProp_frame cur k (.obj []) hc hr
        obtain ⟨sub, s1, s2, s3⟩ := ih (.obj []) (by simp) rfl (resizes_empty_obj _)
        have hp := get_putProp cur1 k sub h2 h4
        refine ⟨putProp cur1 k sub, ?_, hp.2, ?_⟩
        · simp only [setPathLoop, hsc, if_true, h1, bind, Except.bind, h3, s1]
          rfl
        · intro qs hpq hqp
          cases qs with
          | nil => exact absurd List.nil_prefix hqp
          | cons k2 rq =>
            rw [getPathLoop_cons k2 rq _ hp.2, getPathLoop_cons k2 rq cur hc]
            by_cases hk : k2 = k
            · subst hk
              have hpq2 : ¬ (n :: r) <+: rq := fun h =>
                hpq ((List.cons_prefix_cons).2 ⟨rfl, h⟩)
              have hqp2 : ¬ rq <+: (n :: r) := fun h =>
                hqp ((List.cons_prefix_cons).2 ⟨rfl, h⟩)
              rw [hp.1, s3 rq hpq2 hqp2]
              cases rq with
              | nil => exact absurd List.nil_prefix hqp2
              | cons b rs =>
                rw [getPathLoop_cons b rs (.obj []) rfl, getPathLoop_scalar false b rs _ hsc]
                exact getPathLoop_undefined _ _
            · rw [get_putProp_ne cur1 k k2 sub hk, h5 k2 hk]
      · have hsc2 : isScalar (get cur k) = false := by simpa using hsc
        simp only [resizes, hsc2, Bool.false_eq_true, if_false] at hr
        obtain ⟨sub, s1, s2, s3⟩ := ih (get cur k) (by simp) hsc2 hr
        have hp := get_putProp cur k sub hc (not_length_of_collection cur k hsc2)
        refine ⟨putProp cur k sub, ?_, hp.2, ?_⟩
        · simp only [setPathLoop, hsc2, Bool.false_eq_true, if_false, bind, Except.bind, s1]
          rfl
        · intro qs hpq hqp
          cases qs with
          | nil => exact absurd List.nil_prefix hqp
          | cons k2 rq =>
            rw [getPathLoop_cons k2 rq _ hp.2, getPathLoop_cons k2 rq cur hc]
            by_cases hk : k2 = k
            · subst hk
              have hpq2 : ¬ (n :: r) <+: rq := fun h =>
                hpq ((List.cons_prefix_cons).2 ⟨rfl, h⟩)
              have hqp2 : ¬ rq <+: (n :: r) := fun h =>
                hqp ((List.cons_prefix_cons).2 ⟨rfl, h⟩)
              rw [hp.1, s3 rq hpq2 hqp2]
            · rw [get_putProp_ne cur k k2 sub hk]

/-- C29, as stated, fails on sequences, whose `length` follows the indices assigned: for the
sequence `[1]`, the paths `5` and `length` are not prefixes of one another, and after
`setPath([1], "5", 7)` the path `length` reads `6` where it read `1` before; after
`setPath([1, 2], "length", 0)` the path `0` reads `undefined` where it read `1`. -/
theorem setPath_frame_length :
    ¬ splitDots "5" <+: splitDots "length" ∧ ¬ splitDots "length" <+: splitDots "5"
      ∧ (∃ obj1, setPath (.arr 1 [("0", .num (.finite 1))]) "5" (.num (.finite 7)) = .ok obj1
          ∧ getPath obj1 (.str "length") false = .num (.finite 6))
      ∧ getPath (.arr 1 [("0", .num (.finite 1))]) (.str "length") false = .num (.finite 1)
      ∧ ¬ splitDots "length" <+: splitDots "0" ∧ ¬ splitDots "0" <+: splitDots "length"
      ∧ (∃ obj1, setPath (.arr 2 [("0", .num (.finite 1)), ("1", .num (.finite 2))]) "length"
            (.num (.finite 0)) = .ok obj1
          ∧ getPath obj1 (.str "0") false = .undefined)
      ∧ getPath (.arr 2 [("0", .num (.finite 1)), ("1", .num (.finite 2))]) (.str "0") false
          = .num (.finite 1) := by
  have h5 : splitDots "5" = ["5"] := by decide
  have h0 : splitDots "0" = ["0"] := by decide
  have hl : splitDots "length" = ["length"] := by decide
  have ha5 : arrayIndex? "5" = some 5 := by decide
  have ha0 : arrayIndex? "0" = some 0 := by decide
  have ha1 : arrayIndex? "1" = some 1 := by decide
  refine ⟨by rw [h5, hl]; decide, by rw [h5, hl]; decide, ?_, ?_, by rw [h0, hl]; decide,
    by rw [h0, hl]; decide, ?_, ?_⟩
  · refine ⟨.arr 6 [("0", .num (.finite 1)), ("5", .num (.finite 7))], ?_, ?_⟩
    · simp [setPath, h5, setPathLoop, setProp, ha5, assign]
    · simp [getPath, hl, getPathLoop_cons, getPathLoop_nil, isScalar, get]
  · simp [getPath, hl, getPathLoop_cons, getPathLoop_nil, isScalar, get]
  · refine ⟨.arr 0 [], ?_, ?_⟩
    · simp [setPath, hl, setPathLoop, setProp, setLength, toNumber?, ha0, ha1]
    · simp [getPath, h0, getPathLoop_cons, getPathLoop_nil, isScalar, get, lookup]
  · simp [getPath, h0, getPathLoop_cons, getPathLoop_nil, isScalar, get, lookup]

/-- C29 (amended): `setPath` changes nothing outside the addressed path as long as it does not
touch the `length` of a sequence: for every collection `obj` (a tree: no collection is held under
two keys), every value `v` and all paths `p` and `q` such that, segment-wise, neither is a prefix
of the other, no segment of `p` is `__proto__` and no segment of `q` names an inherited member,
if the walk of `p` assigns to no sequence at the key `length` or at an index at or beyond its
end, then `setPath(obj, p, v)` returns normally and
`getPath(setPath(obj, p, v), q) = getPath(obj, q)` (allowSkipArrays off). -/
theorem setPath_frame (obj v : Value) (p q : String) (hobj : isScalar obj = false)
    (hproto : "__proto__" ∉ splitDots p) (hown : ∀ s ∈ splitDots q, isInherited s = false)
    (hpq : ¬ splitDots p <+: splitDots q) (hqp : ¬ splitDots q <+: splitDots p)
    (hr : resizes (splitDots p) obj = false) :
    ∃ obj1, setPath obj p v = .ok obj1
      ∧ getPath obj1 (.str q) false = getPath obj (.str q) false := by
  obtain ⟨obj1, h1, -, h3⟩ := setPathLoop_frame v (splitDots p) obj (splitDots_ne_nil p) hobj hr
  exact ⟨obj1, h1, h3 (splitDots q) hpq hqp⟩

theorem setPath_frame_witness :
    ∃ obj1, setPath (.obj [("a", .obj [("b", .num (.finite 1)), ("c", .num (.finite 2))])])
        "a.b.d" (.num (.finite 3)) = .ok obj1
      ∧ getPath obj1 (.str "a.c") false
        = getPath (.obj [("a", .obj [("b", .num (.finite 1)), ("c", .num (.finite 2))])])
            (.str "a.c") false := by
  have h1 : splitDots "a.b.d" = ["a", "b", "d"] := by decide
  have h2 : splitDots "a.c" = ["a", "c"] := by decide
  refine setPath_frame _ _ _ _ rfl (by decide) (by decide) ?_ ?_ ?_
  · rw [h1, h2]; decide
  · rw [h1, h2]; decide
  · rw [h1]; simp [resizes, get, lookup, isScalar, resizesAt]

/-! ## C25: `merge` assigns `null` but not `undefined` -/

theorem merge_eq (toSequence : Value → Value) (destination source : Value) :
    merge toSequence destination source
      = if isScalar destination then .ok destination
        else (forInKeys source).foldlM (mergeStep toSequence source) destination := by
  rw [merge]
  rfl

theorem mergeStep_obj (toSequence : Value → Value) (source : Value) (pd : Props) (key : String)
    (d1 : Value) (h : mergeStep toSequence source (.obj pd) key = .ok d1) :
    ∃ pd1, d1 = .obj pd1 ∧ (pd1 = pd ∨ ∃ x, pd1 = assign pd key x)
      ∧ (get source key = .null → pd1 = assign pd key .null)
      ∧ (get source key = .undefined → pd1 = pd) := by
  unfold mergeStep at h
  split at h
  · rename_i hc
    cases hm : merge toSequence
        (if (isArray (get source key) && !isArray (get (.obj pd) key)) = true then
          toSequence (get (.obj pd) key) else get (.obj pd) key) (get source key) with
    | error e => rw [hm] at h; cases h
    | ok sub =>
      rw [hm] at h
      simp only [bind, Except.bind, pure, Except.pure, putProp, Except.ok.injEq] at h
      refine ⟨assign pd key sub, h.symm, Or.inr ⟨sub, rfl⟩, ?_, ?_⟩
      · intro hn; rw [hn] at hc; simp [isScalar] at hc
      · intro hn; rw [hn] at hc; simp [isScalar] at hc
  · split at h
    · rename_i hu
      simp only [pure, Except.pure, Except.ok.injEq] at h
      refine ⟨pd, h.symm, Or.inl rfl, ?_, fun _ => rfl⟩
      intro hn; rw [hn] at hu; cases hu
    · rename_i sv hu
      simp only [setProp, Except.ok.injEq] at h
      refine ⟨assign pd key (get source key), h.symm, Or.inr ⟨_, rfl⟩, ?_, ?_⟩
      · intro hn; rw [hn]
      · intro hn; exact absurd hn (hu)

theorem foldlM_mergeStep (toSequence : Value → Value) (source : Value) (keys : List String) :
    ∀ (pd : Props) (r : Value), keys.foldlM (mergeStep toSequence source) (.obj pd) = .ok r →
      ∃ pr, r = .obj pr
        ∧ (∀ k, get source k = .undefined →
            lookup pr k = lookup pd k ∧ (k ∈ pr.map Prod.fst ↔ k ∈ pd.map Prod.fst))
        ∧ (∀ k, get source k = .null → (lookup pd k = .null ∧ k ∈ pd.map Prod.fst) →
            (lookup pr k = .null ∧ k ∈ pr.map Prod.fst))
        ∧ (∀ k ∈ keys, get source k = .null → (lookup pr k = .null ∧ k ∈ pr.map Prod.fst)) := by
  induction keys with
  | nil =>
    intro pd r h
    simp only [List.foldlM_nil, pure, Except.pure, Except.ok.injEq] at h
    exact ⟨pd, h.symm, fun _ _ => ⟨rfl, Iff.rfl⟩, fun _ _ h => h, fun _ hk => by simp at hk⟩
  | cons key rest ih =>
    intro pd r h
    rw [List.foldlM_cons] at h
    cases hs : mergeStep toSequence source (.obj pd) key with
    | error e => rw [hs] at h; cases h
    | ok d1 =>
      rw [hs] at h
      obtain ⟨pd1, rfl, hor, hnull, hundef⟩ := mergeStep_obj toSequence source pd key d1 hs
      obtain ⟨pr, rfl, i1, i2, i3⟩ := ih pd1 r h
      have hother : ∀ k, k ≠ key →
          lookup pd1 k = lookup pd k ∧ (k ∈ pd1.map Prod.fst ↔ k ∈ pd.map Prod.fst) := by
        intro k hk
        have hk2 : ¬ key = k := fun e => hk e.symm
        rcases hor with rfl | ⟨x, rfl⟩
        · exact ⟨rfl, Iff.rfl⟩
        · constructor
          · rw [lookup_assign]; simp [hk2]
          · rw [mem_keys_assign]; simp [hk]
      have hstep : ∀ k, get source k = .null → (lookup pd k = .null ∧ k ∈ pd.map Prod.fst) →
          (lookup pd1 k = .null ∧ k ∈ pd1.map Prod.fst) := by
        intro k hn hq
        by_cases hk : k = key
        · subst hk
          rw [hnull hn, lookup_assign, mem_keys_assign]
          simp
        · obtain ⟨e1, e2⟩ := hother k hk
          exact ⟨e1 ▸ hq.1, e2.2 hq.2⟩
      refine ⟨pr, rfl, ?_, ?_, ?_⟩
      · intro k hu
        obtain ⟨a1, a2⟩ := i1 k hu
        by_cases hk : k = key
        · subst hk
          rw [hundef hu] at a1 a2
          exact ⟨a1, a2⟩
        · obtain ⟨e1, e2⟩ := hother k hk
          exact ⟨a1.trans e1, a2.trans e2⟩
      · intro k hn hq
        exact i2 k hn (hstep k hn hq)
      · intro k hk hn
        simp only [List.mem_cons] at hk
        rcases hk with rfl | hk
        · apply i2 k hn
          rw [hnull hn, lookup_assign, mem_keys_assign]
          simp
        · exact i3 k hk hn

theorem foldlM_mergeStep_scalars (toSequence : Value → Value) (source : Value)
    (keys : List String) (hs : ∀ k ∈ keys, isScalar (get source k) = true) :
    ∀ pd : Props, ∃ pr, keys.foldlM (mergeStep toSequence source) (.obj pd) = .ok (.obj pr) := by
  induction keys with
  | nil => intro pd; exact ⟨pd, rfl⟩
  | cons key rest ih =>
    intro pd
    have hk := hs key (List.mem_cons_self _ _)
    have hstep : ∃ pd1, mergeStep toSequence source (.obj pd) key = .ok (.obj pd1) := by
      unfold mergeStep
      simp only [hk, Bool.true_eq_false, false_and, if_false]
      split
      · exact ⟨pd, rfl⟩
      · exact ⟨_, rfl⟩
    obtain ⟨pd1, h1⟩ := hstep
    obtain ⟨pr, h2⟩ := ih (fun k hk => hs k (List.mem_cons_of_mem _ hk)) pd1
    refine ⟨pr, ?_⟩
    rw [List.foldlM_cons, h1]
    exact h2

/-- C25: `merge` assigns `null` but not `undefined`.  For every mapping destination `d` and
mapping source `s`, whenever `merge(d, s)` returns, every key of `s` whose value is `null` is
bound to `null` in the result, and a key whose value in `s` is `undefined` has the value and the
presence in the result that it had in `d`: nothing is overwritten and no key is added.  The call
returns whenever the values of `s` are scalars.  `merge({a: 1}, {a: null})` gives `{a: null}` and
`merge({a: 1}, {a: undefined, b: undefined})` gives `{a: 1}`. -/
theorem merge_null_undefined (toSequence : Value → Value) (pd ps : Props) :
    (∀ r, merge toSequence (.obj pd) (.obj ps) = .ok r →
        (∀ k ∈ ps.map Prod.fst, lookup ps k = .null →
          get r k = .null ∧ k ∈ forInKeys r)
        ∧ (∀ k, lookup ps k = .undefined →
          get r k = lookup pd k ∧ (k ∈ forInKeys r ↔ k ∈ pd.map Prod.fst)))
      ∧ ((∀ e ∈ ps, isScalar e.2 = true) →
          ∃ pr, merge toSequence (.obj pd) (.obj ps) = .ok (.obj pr))
      ∧ merge toSequence (.obj [("a", .num (.finite 1))]) (.obj [("a", .null)])
          = .ok (.obj [("a", .null)])
      ∧ merge toSequence (.obj [("a", .num (.finite 1))])
            (.obj [("a", .undefined), ("b", .undefined)])
          = .ok (.obj [("a", .num (.finite 1))]) := by
  refine ⟨?_, ?_, ?_, ?_⟩
  · intro r hr
    rw [merge_eq] at hr
    simp only [isScalar, Bool.false_eq_true, if_false, forInKeys] at hr
    obtain ⟨pr, rfl, i1, -, i3⟩ := foldlM_mergeStep toSequence (.obj ps) _ pd r hr
    exact ⟨fun k hk hn => i3 k hk hn, fun k hu => i1 k hu⟩
  · intro hs
    rw [merge_eq]
    simp only [isScalar, Bool.false_eq_true, if_false, forInKeys]
    apply foldlM_mergeStep_scalars
    intro k hk
    exact hs _ (mem_lookup_of_mem_keys ps k hk)
  · rw [merge_eq]
    simp [forInKeys, mergeStep, get, lookup, isScalar, setProp, assign]
  · rw [merge_eq]
    simp [forInKeys, mergeStep, get, lookup, isScalar, setProp, assign, pure, Except.pure,
      bind, Except.bind]

theorem merge_null_undefined_witness :
    ∃ pr, merge id (.obj [("a", .num (.finite 1))]) (.obj [("a", .null), ("b", .undefined)])
        = .ok (.obj pr)
      ∧ get (.obj pr) "a" = .null ∧ "a" ∈ forInKeys (.obj pr)
      ∧ get (.obj pr) "b" = .undefined ∧ ¬ "b" ∈ forInKeys (.obj pr) := by
  have h := merge_null_undefined id [("a", .num (.finite 1))] [("a", .null), ("b", .undefined)]
  obtain ⟨pr, hpr⟩ := h.2.1 (by simp [isScalar])
  obtain ⟨h1, h2⟩ := h.1 _ hpr
  have ha := h1 "a" (by simp) (by simp [lookup])
  have hb := h2 "b" (by simp [lookup])
  refine ⟨pr, hpr, ha.1, ha.2, ?_, ?_⟩
  · rw [hb.1]; simp [lookup]
  · rw [hb.2]; simp

/-! ## C26: `diffObjects` on mappings of scalars -/

theorem diffObjects_eq (a b : Value) :
    diffObjects a b = .obj ((forInKeys a ++ forInKeys b).foldl (diffStep a b) []) := by
  rw [diffObjects]
  rfl

theorem foldl_congr_mem {α β : Type} (f g : β → α → β) (l : List α)
    (h : ∀ x ∈ l, ∀ r, f r x = g r x) : ∀ init, l.foldl f init = l.foldl g init := by
  induction l with
  | nil => intro init; rfl
  | cons x rest ih =>
    intro init
    simp only [List.foldl_cons]
    rw [h x (List.mem_cons_self _ _) init]
    exact ih (fun y hy => h y (List.mem_cons_of_mem _ hy)) _

theorem foldl_assign_filter (c : String → Bool) (e : String → Value) (keys : List String) :
    ∀ init : Props,
      keys.foldl (fun res key => if c key then res else assign res key (e key)) init
        = (keys.filter fun key => !c key).foldl (fun res key => assign res key (e key)) init := by
  induction keys with
  | nil => intro init; rfl
  | cons key rest ih =>
    intro init
    by_cases hc : c key = true
    · simp [List.foldl_cons, List.filter_cons, hc, ih]
    · have hc2 : c key = false := by simpa using hc
      simp [List.foldl_cons, List.filter_cons, hc2, ih]

theorem presentScalar_of_mem (ps : Props) (hs : ∀ e ∈ ps, isScalar e.2 = true) (k : String)
    (hk : k ∈ ps.map Prod.fst) : presentScalar (.obj ps) k = true := by
  have := hs _ (mem_lookup_of_mem_keys ps k hk)
  simp only [presentScalar, forInKeys, get, Bool.and_eq_true, decide_eq_true_eq]
  exact ⟨hk, this⟩

/-- C26: for any two mappings `a` and `b` whose values are all scalar, `diffObjects(a, b)` has a
key `k` exactly when the values of `a` and `b` at `k` are not `deepEquals`, and then binds `k` to
the two-element sequence of `a`'s value and `b`'s value, with `null` standing for an input in
which `k` is absent.  `diffObjects({a: 'b', c: 'd'}, {a: 'b', c: 1})` is `{c: ['d', 1]}`. -/
theorem diffObjects_scalars (pa pb : Props) (ha : ∀ e ∈ pa, isScalar e.2 = true)
    (hb : ∀ e ∈ pb, isScalar e.2 = true) :
    ∃ R, diffObjects (.obj pa) (.obj pb) = .obj R
      ∧ ∀ k, (k ∈ R.map Prod.fst ↔ deepEquals (lookup pa k) (lookup pb k) = false)
        ∧ (k ∈ R.map Prod.fst →
            lookup R k
              = .arr 2 [("0", valueOrNull (.obj pa) k), ("1", valueOrNull (.obj pb) k)]) := by
  refine ⟨_, diffObjects_eq _ _, ?_⟩
  have hstep : ∀ key ∈ forInKeys (.obj pa) ++ forInKeys (.obj pb), ∀ res,
      diffStep (.obj pa) (.obj pb) res key
        = if deepEquals (lookup pa key) (lookup pb key) then res
          else assign res key
            (.arr 2 [("0", valueOrNull (.obj pa) key), ("1", valueOrNull (.obj pb) key)]) := by
    intro key hkey res
    have hp : (presentScalar (.obj pa) key || presentScalar (.obj pb) key) = true := by
      simp only [forInKeys, List.mem_append] at hkey
      rcases hkey with h | h
      · simp [presentScalar_of_mem pa ha key h]
      · simp [presentScalar_of_mem pb hb key h]
    simp only [diffStep, hp, if_true, get]
  rw [foldl_congr_mem _ _ _ hstep, foldl_assign_filter]
  intro k
  rw [mem_keys_foldl_assign, lookup_foldl_assign]
  have hiff : k ∈ (forInKeys (.obj pa) ++ forInKeys (.obj pb)).filter
        (fun key => !deepEquals (lookup pa key) (lookup pb key))
      ↔ deepEquals (lookup pa k) (lookup pb k) = false := by
    simp only [List.mem_filter, List.mem_append, forInKeys, Bool.not_eq_true',
      and_iff_right_iff_imp]
    intro hd
    by_contra hn
    simp only [not_or] at hn
    rw [lookup_of_not_mem pa k hn.1, lookup_of_not_mem pb k hn.2,
      deepEquals_scalar .undefined .undefined rfl rfl] at hd
    simp [scalarEquals, strictEquals] at hd
  constructor
  · simp only [List.map_nil, List.not_mem_nil, or_false]
    exact hiff
  · intro hk
    simp only [List.map_nil, List.not_mem_nil, or_false] at hk
    rw [if_pos hk]

theorem diffObjects_scalars_witness :
    diffObjects (.obj [("a", .str "b"), ("c", .str "d")])
        (.obj [("a", .str "b"), ("c", .num (.finite 1))])
      = .obj [("c", .arr 2 [("0", .str "d"), ("1", .num (.finite 1))])]
    ∧ ∃ R, diffObjects (.obj [("a", .str "b"), ("c", .str "d")])
          (.obj [("a", .str "b"), ("c", .num (.finite 1))]) = .obj R
      ∧ ∀ k, (k ∈ R.map Prod.fst ↔
            deepEquals (lookup [("a", .str "b"), ("c", .str "d")] k)
              (lookup [("a", .str "b"), ("c", .num (.finite 1))] k) = false)
        ∧ (k ∈ R.map Prod.fst →
            lookup R k
              = .arr 2 [("0", valueOrNull (.obj [("a", .str "b"), ("c", .str "d")]) k),
                  ("1", valueOrNull (.obj [("a", .str "b"), ("c", .num (.finite 1))]) k)]) := by
  refine ⟨?_, diffObjects_scalars [("a", .str "b"), ("c", .str "d")]
    [("a", .str "b"), ("c", .num (.finite 1))] (by simp [isScalar]) (by simp [isScalar])⟩
  rw [diffObjects_eq]
  simp [forInKeys, diffStep, presentScalar, get, lookup, isScalar, deepEquals_scalar,
    scalarEquals, strictEquals, valueOrNull, assign]

/-! ## C17: a copy shares no collection with its original -/

theorem deepCopyL_leaf (v : Value) (next : Nat) : deepCopyL (.leaf v) next = (.leaf v, next) := by
  rw [deepCopyL]

theorem deepCopyL_arr (id len : Nat) (ps : List (String × Located)) (next : Nat) :
    deepCopyL (.arr id len ps) next
      = (.arr next len ((List.range len).foldl
            (fun (st : List (String × Located) × Nat) i =>
              ((st.1 ++ [(indexKey i,
                  (deepCopyL (Located.get (.arr id len ps) (indexKey i)) st.2).1)]),
                (deepCopyL (Located.get (.arr id len ps) (indexKey i)) st.2).2))
            ([], next + 1)).1,
          ((List.range len).foldl
            (fun (st : List (String × Located) × Nat) i =>
              ((st.1 ++ [(indexKey i,
                  (deepCopyL (Located.get (.arr id len ps) (indexKey i)) st.2).1)]),
                (deepCopyL (Located.get (.arr id len ps) (indexKey i)) st.2).2))
            ([], next + 1)).2) := by
  rw [deepCopyL]

theorem deepCopyL_obj (id : Nat) (ps : List (String × Located)) (next : Nat) :
    deepCopyL (.obj id ps) next
      = (.obj next ((ps.map Prod.fst).foldl
            (fun (st : List (String × Located) × Nat) key =>
              (Located.assign st.1 key (deepCopyL (Located.get (.obj id ps) key) st.2).1,
                (deepCopyL (Located.get (.obj id ps) key) st.2).2))
            ([], next + 1)).1,
          ((ps.map Prod.fst).foldl
            (fun (st : List (String × Located) × Nat) key =>
              (Located.assign st.1 key (deepCopyL (Located.get (.obj id ps) key) st.2).1,
                (deepCopyL (Located.get (.obj id ps) key) st.2).2))
            ([], next + 1)).2) := by
  rw [deepCopyL]

theorem mem_idsProps (ps : List (String × Located)) (id : Nat) :
    id ∈ Located.idsProps ps ↔ ∃ e ∈ ps, id ∈ Located.ids e.2 := by
  induction ps with
  | nil => simp [Located.idsProps]
  | cons x rest ih =>
    obtain ⟨k0, v0⟩ := x
    simp only [Located.idsProps, List.mem_append, ih, List.mem_cons, exists_eq_or_imp]

theorem idsProps_append (ps qs : List (String × Located)) :
    Located.idsProps (ps ++ qs) = Located.idsProps ps ++ Located.idsProps qs := by
  induction ps with
  | nil => rfl
  | cons x rest ih =>
    obtain ⟨k0, v0⟩ := x
    show Located.ids v0 ++ Located.idsProps (rest ++ qs)
      = (Located.ids v0 ++ Located.idsProps rest) ++ Located.idsProps qs
    rw [ih, List.append_assoc]

theorem mem_idsProps_assign (ps : List (String × Located)) (k : String) (v : Located)
    (id : Nat) (h : id ∈ Located.idsProps (Located.assign ps k v)) :
    id ∈ Located.idsProps ps ∨ id ∈ Located.ids v := by
  induction ps with
  | nil => simpa [Located.assign, Located.idsProps] using h
  | cons x rest ih =>
    obtain ⟨k0, v0⟩ := x
    simp only [Located.assign] at h
    split at h
    · simp only [Located.idsProps, List.mem_append] at h ⊢
      tauto
    · simp only [Located.idsProps, List.mem_append] at h ⊢
      rcases h with h | h
      · exact Or.inl (Or.inl h)
      · rcases ih h with h | h
        · exact Or.inl (Or.inr h)
        · exact Or.inr h

theorem deepCopyL_fresh_aux (n : Nat) :
    ∀ (x : Located) (next : Nat), x.size < n →
      next ≤ (deepCopyL x next).2
        ∧ ∀ id ∈ (deepCopyL x next).1.ids, next ≤ id ∧ id < (deepCopyL x next).2 := by
  induction n with
  | zero => intro x next h; omega
  | succ n ih =>
    intro x next hn
    cases x with
    | leaf v =>
      rw [deepCopyL_leaf]
      exact ⟨Nat.le_refl _, fun id hid => by simp [Located.ids] at hid⟩
    | arr id0 len ps =>
      rw [deepCopyL_arr]
      have inv := foldl_invariant
        (fun st : List (String × Located) × Nat =>
          next + 1 ≤ st.2 ∧ ∀ id ∈ Located.idsProps st.1, next ≤ id ∧ id < st.2)
        (fun (st : List (String × Located) × Nat) i =>
          ((st.1 ++ [(indexKey i,
              (deepCopyL (Located.get (.arr id0 len ps) (indexKey i)) st.2).1)]),
            (deepCopyL (Located.get (.arr id0 len ps) (indexKey i)) st.2).2))
        (List.range len) ([], next + 1)
        ⟨Nat.le_refl _, fun id hid => by simp [Located.idsProps] at hid⟩
        (by
          intro st i _ hst
          dsimp only at hst ⊢
          have hc := ih (Located.get (.arr id0 len ps) (indexKey i)) st.2 (by
            have := locatedSize_get_arr id0 len ps (indexKey i); omega)
          refine ⟨by omega, ?_⟩
          intro id hid
          simp only [idsProps_append, List.mem_append, Located.idsProps, List.append_nil] at hid
          rcases hid with hid | hid
          · have := hst.2 id hid; omega
          · have := hc.2 id hid; omega)
      refine ⟨by omega, ?_⟩
      intro id hid
      simp only [Located.ids, List.mem_cons] at hid
      rcases hid with rfl | hid
      · exact ⟨Nat.le_refl _, by omega⟩
      · exact inv.2 id hid
    | obj id0 ps =>
      rw [deepCopyL_obj]
      have inv := foldl_invariant
        (fun st : List (String × Located) × Nat =>
          next + 1 ≤ st.2 ∧ ∀ id ∈ Located.idsProps st.1, next ≤ id ∧ id < st.2)
        (fun (st : List (String × Located) × Nat) key =>
          (Located.assign st.1 key (deepCopyL (Located.get (.obj id0 ps) key) st.2).1,
            (deepCopyL (Located.get (.obj id0 ps) key) st.2).2))
        (ps.map Prod.fst) ([], next + 1)
        ⟨Nat.le_refl _, fun id hid => by simp [Located.idsProps] at hid⟩
        (by
          intro st key _ hst
          dsimp only at hst ⊢
          have hc := ih (Located.get (.obj id0 ps) key) st.2 (by
            have := locatedSize_get_obj id0 ps key; omega)
          refine ⟨by omega, ?_⟩
          intro id hid
          rcases mem_idsProps_assign _ _ _ _ hid with hid | hid
          · have := hst.2 id hid; omega
          · have := hc.2 id hid; omega)
      refine ⟨by omega, ?_⟩
      intro id hid
      simp only [Located.ids, List.mem_cons] at hid
      rcases hid with rfl | hid
      · exact ⟨Nat.le_refl _, by omega⟩
      · exact inv.2 id hid

theorem locatedSize_mem_lt (ps : List (String × Located)) (e : String × Located) (h : e ∈ ps) :
    e.2.size < 1 + Located.sizeProps ps := by
  induction ps with
  | nil => simp at h
  | cons x rest ih =>
    obtain ⟨k0, v0⟩ := x
    simp only [List.mem_cons] at h
    simp only [Located.sizeProps]
    rcases h with h | h
    · subst h; simp only; omega
    · have := ih h; omega

theorem updateProps_eq_map (id : Nat) (f : Located → Located) (ps : List (String × Located)) :
    Located.updateProps id f ps = ps.map fun e => (e.1, Located.update id f e.2) := by
  induction ps with
  | nil => rfl
  | cons x rest ih =>
    obtain ⟨k0, v0⟩ := x
    simp only [Located.updateProps, List.map_cons, ih]

theorem update_of_not_mem_aux (id : Nat) (f : Located → Located) (n : Nat) :
    ∀ t : Located, t.size < n → id ∉ t.ids → Located.update id f t = t := by
  induction n with
  | zero => intro t h; omega
  | succ n ih =>
    intro t hn hid
    have hprops : ∀ ps : List (String × Located), Located.sizeProps ps < n →
        id ∉ Located.idsProps ps → Located.updateProps id f ps = ps := by
      intro ps hs hp
      rw [updateProps_eq_map]
      conv_rhs => rw [← List.map_id ps]
      apply List.map_congr_left
      intro e he
      have hlt := locatedSize_mem_lt ps e he
      have hne : id ∉ e.2.ids := fun h => hp ((mem_idsProps ps id).2 ⟨e, he, h⟩)
      rw [ih e.2 (by omega) hne]
      rfl
    cases t with
    | leaf v => rfl
    | arr i len ps =>
      simp only [Located.ids, List.mem_cons, not_or] at hid
      simp only [Located.size] at hn
      have hi : ¬ i = id := fun e => hid.1 e.symm
      simp only [Located.update, hi, if_false, hprops ps (by omega) hid.2]
    | obj i ps =>
      simp only [Located.ids, List.mem_cons, not_or] at hid
      simp only [Located.size] at hn
      have hi : ¬ i = id := fun e => hid.1 e.symm
      simp only [Located.update, hi, if_false, hprops ps (by omega) hid.2]

theorem update_of_not_mem (id : Nat) (f : Located → Located) (t : Located)
    (h : id ∉ t.ids) : Located.update id f t = t :=
  update_of_not_mem_aux id f _ t (Nat.lt_succ_self _) h

theorem erase_lookup (ps : List (String × Located)) (k : String) :
    (Located.lookup ps k).erase = lookup (Located.eraseProps ps) k := by
  induction ps with
  | nil => rfl
  | cons x rest ih =>
    obtain ⟨k0, v0⟩ := x
    simp only [Located.lookup, Located.eraseProps, lookup]
    split
    · rfl
    · exact ih

theorem erase_get (x : Located) (k : String) : (Located.get x k).erase = get x.erase k := by
  cases x with
  | leaf v => rfl
  | arr id len ps =>
    simp only [Located.get, Located.erase, get]
    split
    · rfl
    · exact erase_lookup ps k
  | obj id ps => exact erase_lookup ps k

theorem eraseProps_append (ps qs : List (String × Located)) :
    Located.eraseProps (ps ++ qs) = Located.eraseProps ps ++ Located.eraseProps qs := by
  induction ps with
  | nil => rfl
  | cons x rest ih =>
    obtain ⟨k0, v0⟩ := x
    show (k0, v0.erase) :: Located.eraseProps (rest ++ qs)
      = ((k0, v0.erase) :: Located.eraseProps rest) ++ Located.eraseProps qs
    rw [ih, List.cons_append]

theorem eraseProps_assign (ps : List (String × Located)) (k : String) (v : Located) :
    Located.eraseProps (Located.assign ps k v) = assign (Located.eraseProps ps) k v.erase := by
  induction ps with
  | nil => rfl
  | cons x rest ih =>
    obtain ⟨k0, v0⟩ := x
    simp only [Located.assign, Located.eraseProps, assign]
    split
    · rfl
    · simp only [Located.eraseProps, ih]

theorem keys_eraseProps (ps : List (String × Located)) :
    (Located.eraseProps ps).map Prod.fst = ps.map Prod.fst := by
  induction ps with
  | nil => rfl
  | cons x rest ih =>
    obtain ⟨k0, v0⟩ := x
    simp only [Located.eraseProps, List.map_cons, ih]

theorem scalarLeaves_lookup (ps : List (String × Located)) (k : String)
    (h : Located.scalarLeavesProps ps = true) : (Located.lookup ps k).scalarLeaves = true := by
  induction ps with
  | nil => rfl
  | cons x rest ih =>
    obtain ⟨k0, v0⟩ := x
    simp only [Located.scalarLeavesProps, Bool.and_eq_true] at h
    simp only [Located.lookup]
    split
    · exact h.1
    · exact ih h.2

theorem fold_push_erase (g : Nat → Nat → Located × Nat) (h : Nat → Value)
    (hg : ∀ i m, (g i m).1.erase = h i) (l : List Nat) :
    ∀ st : List (String × Located) × Nat,
      Located.eraseProps (l.foldl
          (fun (st : List (String × Located) × Nat) i =>
            (st.1 ++ [(indexKey i, (g i st.2).1)], (g i st.2).2)) st).1
        = Located.eraseProps st.1 ++ l.map fun i => (indexKey i, h i) := by
  induction l with
  | nil => intro st; simp
  | cons i rest ih =>
    intro st
    rw [List.foldl_cons, ih]
    simp only [eraseProps_append, Located.eraseProps, hg, List.map_cons, List.append_assoc,
      List.singleton_append]

theorem fold_assign_erase (g : String → Nat → Located × Nat) (h : String → Value)
    (hg : ∀ k m, (g k m).1.erase = h k) (l : List String) :
    ∀ st : List (String × Located) × Nat,
      Located.eraseProps (l.foldl
          (fun (st : List (String × Located) × Nat) key =>
            (Located.assign st.1 key (g key st.2).1, (g key st.2).2)) st).1
        = l.foldl (fun res key => assign res key (h key)) (Located.eraseProps st.1) := by
  induction l with
  | nil => intro st; rfl
  | cons k rest ih =>
    intro st
    rw [List.foldl_cons, ih, List.foldl_cons]
    simp only [eraseProps_assign, hg]

theorem erase_deepCopyL_aux (n : Nat) :
    ∀ (x : Located) (next : Nat), x.size < n → x.scalarLeaves = true →
      (deepCopyL x next).1.erase = deepCopy x.erase := by
  induction n with
  | zero => intro x next h; omega
  | succ n ih =>
    intro x next hn hs
    cases x with
    | leaf v =>
      rw [deepCopyL_leaf]
      exact (deepCopy_scalar v hs).symm
    | arr id0 len ps =>
      rw [deepCopyL_arr]
      simp only [Located.erase]
      rw [deepCopy_arr, fold_push_erase
        (fun i m => deepCopyL (Located.get (.arr id0 len ps) (indexKey i)) m)
        (fun i => deepCopy (get (.arr len (Located.eraseProps ps)) (indexKey i)))]
      · rfl
      · intro i m
        have hlt := locatedSize_get_arr id0 len ps (indexKey i)
        have hsc : (Located.get (.arr id0 len ps) (indexKey i)).scalarLeaves = true := by
          simp only [Located.get]
          split
          · rfl
          · exact scalarLeaves_lookup ps _ hs
        show (deepCopyL _ m).1.erase = _
        rw [ih _ m (by omega) hsc, erase_get]
        rfl
    | obj id0 ps =>
      rw [deepCopyL_obj]
      simp only [Located.erase]
      rw [deepCopy_obj, fold_assign_erase
        (fun key m => deepCopyL (Located.get (.obj id0 ps) key) m)
        (fun key => deepCopy (lookup (Located.eraseProps ps) key)), keys_eraseProps]
      · rfl
      · intro key m
        have hlt := locatedSize_get_obj id0 ps key
        have hsc : (Located.get (.obj id0 ps) key).scalarLeaves = true :=
          scalarLeaves_lookup ps _ hs
        show (deepCopyL _ m).1.erase = _
        rw [ih _ m (by omega) hsc, erase_get]
        rfl

/-- C17: `deepCopy(x)` shares no collection with `x` at any depth.  On trees whose collections
carry the identity of their object, with `next` the first identity not in use (every object of
`x` was allocated before the call), every sequence and mapping of the copy is a fresh object,
none of them an object of `x`; so an in-place change of any object of the copy leaves `x`
unchanged, and an in-place change of any object of `x` leaves the copy unchanged.  A scalar is
returned as it is, and with identities forgotten the copy is `deepCopy` of the tree. -/
theorem deepCopy_shares_nothing (x : Located) (next : Nat) (hx : ∀ id ∈ x.ids, id < next) :
    (∀ id ∈ (deepCopyL x next).1.ids, next ≤ id ∧ id ∉ x.ids)
      ∧ (∀ id ∈ x.ids, id ∉ (deepCopyL x next).1.ids)
      ∧ (∀ id ∈ (deepCopyL x next).1.ids, ∀ f, Located.update id f x = x)
      ∧ (∀ id ∈ x.ids, ∀ f,
          Located.update id f (deepCopyL x next).1 = (deepCopyL x next).1)
      ∧ (∀ v n, deepCopyL (.leaf v) n = (.leaf v, n))
      ∧ (x.scalarLeaves = true → (deepCopyL x next).1.erase = deepCopy x.erase) := by
  have hfresh := (deepCopyL_fresh_aux _ x next (Nat.lt_succ_self _)).2
  have h1 : ∀ id ∈ (deepCopyL x next).1.ids, next ≤ id ∧ id ∉ x.ids := by
    intro id hid
    refine ⟨(hfresh id hid).1, fun h => ?_⟩
    have := hx id h
    have := (hfresh id hid).1
    omega
  have h2 : ∀ id ∈ x.ids, id ∉ (deepCopyL x next).1.ids := fun id hid h => (h1 id h).2 hid
  exact ⟨h1, h2, fun id hid f => update_of_not_mem id f x (h1 id hid).2,
    fun id hid f => update_of_not_mem id f _ (h2 id hid), deepCopyL_leaf,
    erase_deepCopyL_aux _ x next (Nat.lt_succ_self _)⟩

theorem deepCopy_shares_nothing_witness :
    (∀ id ∈ (deepCopyL (.obj 0 [("biz", .obj 1 [("dat", .leaf (.date (.finite 0)))])]) 2).1.ids,
        ∀ f, Located.update id f (.obj 0 [("biz", .obj 1 [("dat", .leaf (.date (.finite 0)))])])
          = .obj 0 [("biz", .obj 1 [("dat", .leaf (.date (.finite 0)))])])
      ∧ (deepCopyL (.obj 0 [("biz", .obj 1 [("dat", .leaf (.date (.finite 0)))])]) 2).1.erase
          = deepCopy (.obj [("biz", .obj [("dat", .date (.finite 0))])]) :=
  ⟨(deepCopy_shares_nothing (.obj 0 [("biz", .obj 1 [("dat", .leaf (.date (.finite 0)))])]) 2
      (by decide)).2.2.1,
    (deepCopy_shares_nothing (.obj 0 [("biz", .obj 1 [("dat", .leaf (.date (.finite 0)))])]) 2
      (by decide)).2.2.2.2.2 rfl⟩

/-! ## C32: the loop of `getPath` terminates -/

theorem depth_lookup_le (ps : Props) (k : String) : depth (lookup ps k) ≤ depthProps ps := by
  induction ps with
  | nil => simp [lookup, depth]
  | cons e rest ih =>
    obtain ⟨k0, v⟩ := e
    simp only [lookup, depthProps]
    split
    · exact Nat.le_max_left _ _
    · exact Nat.le_trans ih (Nat.le_max_right _ _)

theorem depth_get_lt (cur : Value) (k : String) (h : isScalar cur = false) :
    depth (get cur k) < depth cur := by
  cases cur with
  | arr len ps =>
    simp only [get, depth]
    split
    · simp [depth]
    · have := depth_lookup_le ps k; omega
  | obj ps =>
    simp only [get, depth]
    have := depth_lookup_le ps k; omega
  | _ => simp [isScalar] at h

theorem getPathFuel_enough (s : Bool) (fuel : Nat) :
    ∀ (parts : List String) (cur : Value), parts.length + depth cur ≤ fuel →
      getPathFuel fuel s parts cur = some (getPathLoop s parts cur) := by
  induction fuel with
  | zero =>
    intro parts cur h
    cases parts with
    | nil => rw [getPathLoop_nil]; rfl
    | cons p r => simp at h
  | succ fuel ih =>
    intro parts cur h
    cases parts with
    | nil => rw [getPathLoop_nil]; rfl
    | cons part rest =>
      by_cases hs : isScalar cur = true
      · rw [getPathLoop_scalar s part rest cur hs]
        simp [getPathFuel, hs]
      · have hs2 : isScalar cur = false := by simpa using hs
        simp only [List.length_cons] at h
        by_cases hc : (isArray cur && s && !isDecimal part && length cur == 1) = true
        · rw [getPathLoop_skip s part rest cur hs2 hc]
          simp only [getPathFuel, hs2, Bool.false_eq_true, if_false, hc, if_true]
          apply ih
          have := depth_get_lt cur (indexKey 0) hs2
          simp only [List.length_cons]
          omega
        · have hc2 : (isArray cur && s && !isDecimal part && length cur == 1) = false := by
            simpa using hc
          rw [getPathLoop_step s part rest cur hs2 hc2]
          simp only [getPathFuel, hs2, Bool.false_eq_true, if_false, hc2]
          apply ih
          have := depth_get_lt cur part hs2
          omega

theorem skipWalk_spec (part : String) (n : Nat) :
    ∀ cur : Value, size cur < n →
      (skipWalk part cur).1 ≤ unitDepth cur ∧ unitDepth cur ≤ depth cur
        ∧ (isArray (skipWalk part cur).2 && true && !isDecimal part
            && length (skipWalk part cur).2 == 1) = false
        ∧ ∀ (fuel : Nat) (rest : List String),
            getPathFuel ((skipWalk part cur).1 + fuel) true (part :: rest) cur
              = getPathFuel fuel true (part :: rest) (skipWalk part cur).2 := by
  induction n with
  | zero => intro cur h; omega
  | succ n ih =>
    intro cur hn
    by_cases hs : isScalar cur = true
    · have h1 : skipWalk part cur = (0, cur) := by rw [skipWalk]; simp [hs]
      have h2 : unitDepth cur = 0 := by rw [unitDepth]; simp [hs]
      have h3 : isArray cur = false := by cases cur <;> simp_all [isScalar, isArray]
      rw [h1, h2]
      refine ⟨Nat.le_refl _, Nat.zero_le _, by simp [h3], ?_⟩
      intro fuel rest
      simp
    · have hs2 : isScalar cur = false := by simpa using hs
      have hd := depth_get_lt cur (indexKey 0) hs2
      have hsz := size_get_lt cur (indexKey 0) hs2
      obtain ⟨i1, i2, i3, i4⟩ := ih (get cur (indexKey 0)) (by omega)
      by_cases hu : (isArray cur && length cur == 1) = true
      · have h2 : unitDepth cur = 1 + unitDepth (get cur (indexKey 0)) := by
          rw [unitDepth]; simp only [hs2, Bool.false_eq_true, dite_false, hu, if_true]
        by_cases hp : isDecimal part = true
        · have h1 : skipWalk part cur = (0, cur) := by
            rw [skipWalk]; simp [hs2, hp]
          rw [h1, h2]
          refine ⟨Nat.zero_le _, by omega, by simp [hp], ?_⟩
          intro fuel rest
          simp
        · have hp2 : isDecimal part = false := by simpa using hp
          have hc : (isArray cur && !isDecimal part && length cur == 1) = true := by
            simp only [Bool.and_eq_true] at hu ⊢
            simp [hu.1, hu.2, hp2]
          have h1 : skipWalk part cur
              = ((skipWalk part (get cur (indexKey 0))).1 + 1,
                  (skipWalk part (get cur (indexKey 0))).2) := by
            rw [skipWalk]; simp only [hs2, Bool.false_eq_true, dite_false, hc, if_true]
          rw [h1, h2]
          refine ⟨by omega, by omega, i3, ?_⟩
          intro fuel rest
          have hc2 : (isArray cur && true && !isDecimal part && length cur == 1) = true := by
            simpa using hc
          have : (skipWalk part (get cur (indexKey 0))).1 + 1 + fuel
              = ((skipWalk part (get cur (indexKey 0))).1 + fuel) + 1 := by omega
          simp only [this, getPathFuel, hs2, Bool.false_eq_true, if_false, hc2, if_true]
          exact i4 fuel rest
      · have hu2 : (isArray cur && length cur == 1) = false := by simpa using hu
        have h2 : unitDepth cur = 0 := by
          rw [unitDepth]; simp only [hs2, Bool.false_eq_true, dite_false, hu2, if_false]
        have hc : (isArray cur && !isDecimal part && length cur == 1) = false := by
          cases ha : isArray cur <;> cases hl : (length cur == 1) <;> simp_all
        have h1 : skipWalk part cur = (0, cur) := by
          rw [skipWalk]; simp only [hs2, Bool.false_eq_true, dite_false, hc, if_false]
        rw [h1, h2]
        refine ⟨Nat.le_refl _, Nat.zero_le _, by simpa using hc, ?_⟩
        intro fuel rest
        simp

/-- C32: `getPath` terminates on every tree and every path, with allowSkipArrays set or not.
Run with a budget of loop iterations, in which a skip takes a unit like any other iteration, the
loop ends and returns the result of `getPath` as soon as the budget covers the number of segments
plus the depth of the tree.  Every iteration on a collection replaces the current node by a
strictly shallower one, a skip keeping the segments and any other iteration consuming one, so
the pair (remaining segments, depth of the current node) decreases lexicographically; and the
consecutive skips made at one segment number at most the nesting depth of single-element
sequences at the current node, which is at most its depth. -/
theorem getPath_terminates (obj : Value) (p : String) (allowSkipArrays : Bool) :
    (∀ fuel, (splitDots p).length + depth obj ≤ fuel →
        getPathFuel fuel allowSkipArrays (splitDots p) obj
          = some (getPath obj (.str p) allowSkipArrays))
      ∧ (∀ (cur : Value) (part : String) (rest : List String), isScalar cur = false →
          Prod.Lex (· < ·) (· < ·) ((part :: rest).length, depth (get cur (indexKey 0)))
              ((part :: rest).length, depth cur)
            ∧ Prod.Lex (· < ·) (· < ·) (rest.length, depth (get cur part))
              ((part :: rest).length, depth cur))
      ∧ (∀ (cur : Value) (part : String),
          (skipWalk part cur).1 ≤ unitDepth cur ∧ unitDepth cur ≤ depth cur
            ∧ (isArray (skipWalk part cur).2 && true && !isDecimal part
                && length (skipWalk part cur).2 == 1) = false
            ∧ ∀ (fuel : Nat) (rest : List String),
                getPathFuel ((skipWalk part cur).1 + fuel) true (part :: rest) cur
                  = getPathFuel fuel true (part :: rest) (skipWalk part cur).2) := by
  refine ⟨fun fuel h => getPathFuel_enough allowSkipArrays fuel _ obj h, ?_, ?_⟩
  · intro cur part rest hs
    exact ⟨Prod.Lex.right _ (depth_get_lt cur _ hs), Prod.Lex.left _ _ (by simp)⟩
  · intro cur part
    exact skipWalk_spec part _ cur (Nat.lt_succ_self _)

theorem getPath_terminates_witness :
    getPathFuel 7 true (splitDots "baz.arr2.zip")
        (.obj [("baz", .obj [("arr2", .arr 1 [("0", .obj [("zip", .num (.finite 4))])])])])
      = some (getPath
          (.obj [("baz", .obj [("arr2", .arr 1 [("0", .obj [("zip", .num (.finite 4))])])])])
          (.str "baz.arr2.zip") true) :=
  (getPath_terminates _ "baz.arr2.zip" true).1 7 (by decide)

/-! ## C31: collapsing, then expanding -/

theorem setPaths_cons (e : List String × Value) (L : List (List String × Value)) (acc : Value) :
    setPaths (e :: L) acc
      = match setPathLoop e.1 acc e.2 with
        | .ok acc1 => setPaths L acc1
        | .error err => .error err := by
  simp only [setPaths, List.foldlM_cons, bind, Except.bind]
  cases setPathLoop e.1 acc e.2 <;> rfl

theorem setPaths_append (L1 L2 : List (List String × Value)) (acc : Value) :
    setPaths (L1 ++ L2) acc
      = match setPaths L1 acc with
        | .ok acc1 => setPaths L2 acc1
        | .error err => .error err := by
  simp only [setPaths, List.foldlM_append, bind, Except.bind]
  cases List.foldlM (fun acc e => setPathLoop e.1 acc e.2) acc L1 <;> rfl

theorem assign_assign (ps : Props) (k : String) (x y : Value) :
    assign (assign ps k x) k y = assign ps k y := by
  induction ps with
  | nil => simp [assign]
  | cons e rest ih =>
    obtain ⟨k0, v0⟩ := e
    by_cases hk : k0 = k
    · simp [assign, hk]
    · simp [assign, hk, ih]

theorem setPathLoop_descend (A S : Props) (k : String) (p : List String) (hp : p ≠ [])
    (v : Value) (hk : lookup A k = .obj S) :
    setPathLoop (k :: p) (.obj A) v
      = match setPathLoop p (.obj S) v with
        | .ok sub => .ok (.obj (assign A k sub))
        | .error err => .error err := by
  cases p with
  | nil => exact absurd rfl hp
  | cons n r =>
    simp only [setPathLoop, get, hk, isScalar, Bool.false_eq_true, if_false, bind, Except.bind]
    cases setPathLoop (n :: r) (.obj S) v <;> rfl

theorem setPathLoop_create (A : Props) (k : String) (p : List String) (hp : p ≠ [])
    (v : Value) (hk : isScalar (lookup A k) = true) :
    setPathLoop (k :: p) (.obj A) v
      = setPathLoop (k :: p) (.obj (assign A k (.obj []))) v := by
  have hl : lookup (assign A k (.obj [])) k = .obj [] := by simp [lookup_assign]
  rw [setPathLoop_descend (assign A k (.obj [])) [] k p hp v hl]
  cases p with
  | nil => exact absurd rfl hp
  | cons n r =>
    simp only [setPathLoop, get, hk, if_true, setProp, bind, Except.bind, hl]
    cases setPathLoop (n :: r) (.obj []) v <;> rfl

theorem setPathLoop_mapping (A : Props) (p : List String) (hp : p ≠ []) (v r : Value)
    (h : setPathLoop p (.obj A) v = .ok r) : ∃ A1, r = .obj A1 := by
  cases p with
  | nil => exact absurd rfl hp
  | cons k rest =>
    cases rest with
    | nil =>
      simp only [setPathLoop, setProp, Except.ok.injEq] at h
      exact ⟨_, h.symm⟩
    | cons n r2 =>
      by_cases hs : isScalar (lookup A k) = true
      · rw [setPathLoop_create A k (n :: r2) (by simp) v hs,
          setPathLoop_descend (assign A k (.obj [])) [] k (n :: r2) (by simp) v
            (by simp [lookup_assign])] at h
        cases hsub : setPathLoop (n :: r2) (.obj []) v with
        | error e => rw [hsub] at h; cases h
        | ok sub =>
          rw [hsub] at h
          simp only [Except.ok.injEq] at h
          exact ⟨_, h.symm⟩
      · have hs2 : isScalar (lookup A k) = false := by simpa using hs
        cases hl : lookup A k with
        | obj S =>
          rw [setPathLoop_descend A S k (n :: r2) (by simp) v hl] at h
          cases hsub : setPathLoop (n :: r2) (.obj S) v with
          | error e => rw [hsub] at h; cases h
          | ok sub =>
            rw [hsub] at h
            simp only [Except.ok.injEq] at h
            exact ⟨_, h.symm⟩
        | arr len S =>
          simp only [setPathLoop, get, hl, isScalar, Bool.false_eq_true, if_false, bind,
            Except.bind] at h
          cases hsub : setPathLoop (n :: r2) (.arr len S) v with
          | error e => rw [hsub] at h; cases h
          | ok sub =>
            rw [hsub] at h
            simp only [pure, Except.pure, putProp, Except.ok.injEq] at h
            exact ⟨_, h.symm⟩
        | _ => rw [hl] at hs2; simp [isScalar] at hs2

theorem setPaths_descend (k : String) (L : List (List String × Value))
    (hL : ∀ e ∈ L, e.1 ≠ []) :
    ∀ (S S1 A : Props), setPaths L (.obj S) = .ok (.obj S1) → lookup A k = .obj S →
      setPaths (L.map fun e => (k :: e.1, e.2)) (.obj A) = .ok (.obj (assign A k (.obj S1))) := by
  induction L with
  | nil =>
    intro S S1 A h hk
    simp only [setPaths, List.foldlM_nil, pure, Except.pure, Except.ok.injEq,
      Value.obj.injEq] at h
    subst h
    simp only [List.map_nil, setPaths, List.foldlM_nil, pure, Except.pure]
    rw [← hk, assign_lookup_self A k (by rw [hk]; rfl)]
  | cons e L ih =>
    intro S S1 A h hk
    have he := hL e (List.mem_cons_self _ _)
    rw [setPaths_cons] at h
    rw [List.map_cons, setPaths_cons]
    simp only
    rw [setPathLoop_descend A S k e.1 he e.2 hk]
    cases hstep : setPathLoop e.1 (.obj S) e.2 with
    | error err => rw [hstep] at h; cases h
    | ok r =>
      rw [hstep] at h
      obtain ⟨S2, rfl⟩ := setPathLoop_mapping S e.1 he e.2 r hstep
      simp only at h ⊢
      rw [ih (fun x hx => hL x (List.mem_cons_of_mem _ hx)) S2 S1 (assign A k (.obj S2)) h
        (by simp [lookup_assign]), assign_assign]

theorem setPaths_create (k : String) (L : List (List String × Value)) (hne : L ≠ [])
    (hL : ∀ e ∈ L, e.1 ≠ []) (A S1 : Props) (hk : k ∉ A.map Prod.fst)
    (h : setPaths L (.obj []) = .ok (.obj S1)) :
    setPaths (L.map fun e => (k :: e.1, e.2)) (.obj A) = .ok (.obj (A ++ [(k, .obj S1)])) := by
  have hmain := setPaths_descend k L hL [] S1 (assign A k (.obj [])) h (by simp [lookup_assign])
  rw [assign_assign, assign_of_not_mem A k (.obj S1) hk] at hmain
  rw [← hmain]
  cases L with
  | nil => exact absurd rfl hne
  | cons e L =>
    have he := hL e (List.mem_cons_self _ _)
    rw [List.map_cons, setPaths_cons, setPaths_cons]
    simp only
    rw [setPathLoop_create A k e.1 he e.2 (by rw [lookup_of_not_mem A k hk]; rfl)]

theorem sequenceFreeProps_iff (ps : Props) :
    sequenceFreeProps ps = true ↔ ∀ e ∈ ps, sequenceFree e.2 = true := by
  induction ps with
  | nil => simp [sequenceFreeProps]
  | cons x rest ih =>
    obtain ⟨k0, v0⟩ := x
    simp only [sequenceFreeProps, Bool.and_eq_true, ih, List.mem_cons, forall_eq_or_imp]

theorem noEmptyBelowProps_iff (ps : Props) :
    noEmptyBelowProps ps = true
      ↔ ∀ e ∈ ps, isEmptyMapping e.2 = false ∧ noEmptyBelow e.2 = true := by
  induction ps with
  | nil => simp [noEmptyBelowProps]
  | cons x rest ih =>
    obtain ⟨k0, v0⟩ := x
    simp only [noEmptyBelowProps, Bool.and_eq_true, Bool.not_eq_true', ih, List.mem_cons,
      forall_eq_or_imp]

theorem leaves_nonempty : ∀ v : Value, sequenceFree v = true → isEmptyMapping v = false →
    noEmptyBelow v = true → scalarLeaves v ≠ [] := by
  apply value_induction
  · intro v hv _ _ _
    rw [scalarLeaves_scalar v hv]
    simp
  · intro len ps _ h
    simp [sequenceFree] at h
  · intro ps ih hsf hne hnb
    cases ps with
    | nil => simp [isEmptyMapping] at hne
    | cons e rest =>
      obtain ⟨k0, v0⟩ := e
      simp only [sequenceFree, sequenceFreeProps, Bool.and_eq_true] at hsf
      simp only [noEmptyBelow, noEmptyBelowProps, Bool.and_eq_true, Bool.not_eq_true'] at hnb
      have h0 := ih (k0, v0) (List.mem_cons_self _ _) hsf.1 hnb.1.1 hnb.1.2
      simp only [scalarLeaves, leavesProps]
      intro hnil
      have := (List.append_eq_nil.mp hnil).1
      exact h0 (List.map_eq_nil_iff.mp this)

theorem setPaths_props (ps : Props) :
    (∀ e ∈ ps, ∀ qs, e.2 = .obj qs → setPaths (leavesProps qs) (.obj []) = .ok (.obj qs)) →
    (∀ e ∈ ps, sequenceFree e.2 = true ∧ isEmptyMapping e.2 = false
      ∧ noEmptyBelow e.2 = true) →
    (ps.map Prod.fst).Nodup →
    ∀ A : Props, (∀ k ∈ ps.map Prod.fst, k ∉ A.map Prod.fst) →
      setPaths (leavesProps ps) (.obj A) = .ok (.obj (A ++ ps)) := by
  induction ps with
  | nil =>
    intro _ _ _ A _
    simp [leavesProps, setPaths, pure, Except.pure]
  | cons e rest ihl =>
    obtain ⟨k, v⟩ := e
    intro ih hnice hnd A hA
    simp only [List.map_cons, List.nodup_cons] at hnd
    have hkA : k ∉ A.map Prod.fst := hA k (by simp)
    obtain ⟨hsf, hne, hnb⟩ := hnice (k, v) (List.mem_cons_self _ _)
    have hfirst : setPaths ((scalarLeaves v).map fun x => (k :: x.1, x.2)) (.obj A)
        = .ok (.obj (A ++ [(k, v)])) := by
      cases v with
      | obj qv =>
        have hsub := ih (k, .obj qv) (List.mem_cons_self _ _) qv rfl
        have hnon := leaves_nonempty (.obj qv) hsf hne hnb
        simp only [scalarLeaves] at hnon ⊢
        refine setPaths_create k (leavesProps qv) hnon ?_ A qv hkA hsub
        intro x hx
        obtain ⟨k1, segs, h1, -⟩ := leavesProps_head qv x hx
        rw [h1]; simp
      | arr len qv => simp [sequenceFree] at hsf
      | _ =>
        simp only [scalarLeaves, List.map_cons, List.map_nil, setPaths, List.foldlM_cons,
          List.foldlM_nil, setPathLoop, setProp, bind, Except.bind, pure, Except.pure]
        rw [assign_of_not_mem A k _ hkA]
    simp only [leavesProps]
    rw [setPaths_append, hfirst]
    simp only
    rw [ihl (fun x hx => ih x (List.mem_cons_of_mem _ hx))
      (fun x hx => hnice x (List.mem_cons_of_mem _ hx)) hnd.2 (A ++ [(k, v)])]
    · simp
    · intro k2 hk2
      simp only [List.map_append, List.map_cons, List.map_nil, List.mem_append,
        List.mem_singleton, not_or]
      refine ⟨hA k2 (by simp [hk2]), ?_⟩
      intro e
      subst e
      exact hnd.1 hk2

theorem setPaths_leaves : ∀ v : Value, sequenceFree v = true → noEmptyBelow v = true →
    wellFormed v = true →
    ∀ qs, v = .obj qs → setPaths (leavesProps qs) (.obj []) = .ok (.obj qs) := by
  apply value_induction
  · intro v hv _ _ _ qs hq
    rw [hq] at hv; simp [isScalar] at hv
  · intro len ps _ _ _ _ qs hq
    cases hq
  · intro ps ih hsf hnb hwf qs hq
    cases hq
    simp only [sequenceFree] at hsf
    simp only [noEmptyBelow] at hnb
    simp only [wellFormed] at hwf
    obtain ⟨hnd, hwfall⟩ := (wellFormedProps_iff ps).1 hwf
    have h := setPaths_props ps
      (fun e he => ih e he ((sequenceFreeProps_iff ps).1 hsf e he)
        ((noEmptyBelowProps_iff ps).1 hnb e he).2 (hwfall e he))
      (fun e he => ⟨(sequenceFreeProps_iff ps).1 hsf e he,
        ((noEmptyBelowProps_iff ps).1 hnb e he).1, ((noEmptyBelowProps_iff ps).1 hnb e he).2⟩)
      hnd [] (by simp)
    simpa using h

theorem foldlM_congr_mem {α β : Type} (f g : β → α → Except JSError β) (l : List α)
    (h : ∀ x ∈ l, ∀ acc, f acc x = g acc x) : ∀ init, l.foldlM f init = l.foldlM g init := by
  induction l with
  | nil => intro init; rfl
  | cons x rest ih =>
    intro init
    simp only [List.foldlM_cons]
    rw [h x (List.mem_cons_self _ _) init]
    congr 1
    funext acc
    exact ih (fun y hy => h y (List.mem_cons_of_mem _ hy)) acc

theorem expandDotted_entries (E : Props) (hn : (E.map Prod.fst).Nodup) :
    expandDotted (.obj E) = E.foldlM (fun acc e => setPath acc e.1 e.2) (.obj []) := by
  simp only [expandDotted, forInKeys, get]
  rw [List.foldlM_map]
  apply foldlM_congr_mem
  intro e he acc
  rw [lookup_of_mem E e hn he]

theorem expandDotted_collapse (ps : Props) (hkeys : plainKeys (.obj ps) = true)
    (hwf : wellFormed (.obj ps) = true) :
    expandDotted (collapseToDotted (.obj ps) false false)
      = setPaths (leavesProps ps) (.obj []) := by
  obtain ⟨h1, h2⟩ := collapseToDotted_eq_visit false false (.obj ps) rfl hkeys hwf
  rw [visit_below false (.obj ps) rfl] at h1 h2
  have hv : visitProps false false (propsOf (.obj ps)) = leavesProps ps := by
    have := visit_default (.obj ps)
    simpa [visit, propsOf, scalarLeaves] using this
  rw [hv] at h1 h2
  rw [h1, expandDotted_entries _ h2, List.foldlM_map]
  simp only [setPaths]
  apply foldlM_congr_mem
  intro x hx acc
  obtain ⟨k, segs, hks, -⟩ := leavesProps_head ps x hx
  have hplain : ∀ y ∈ x.1, plainKey y = true := leaves_plain (.obj ps) hkeys x hx
  have hsplit : splitDots (".".intercalate x.1) = x.1 := by
    rw [intercalate_eq x.1 hplain]
    apply splitDots_foldl_joinPath_root x.1 hplain
    rw [hks] at hplain ⊢
    exact foldl_joinPath_ne_empty k segs hplain
  simp only [setPath, hsplit]

theorem deepEquals_self_aux (n : Nat) :
    ∀ x : Value, size x < n → noNaN x = true → deepEquals x x = true := by
  induction n with
  | zero => intro x h; omega
  | succ n ih =>
    intro x hsize hn
    by_cases hs : isScalar x = true
    · rw [deepEquals_scalar x x hs hs]
      exact scalarEquals_self x hs hn
    · have hs2 : isScalar x = false := by simpa using hs
      have hrec : ∀ k, deepEquals (get x k) (get x k) = true := fun k =>
        ih (get x k) (by have := size_get_lt x k hs2; omega) (noNaN_get x k hn)
      rw [deepEquals_collection x x (by simp [hs2])]
      simp only [isNullish_of_collection x hs2, Bool.or_self, Bool.false_eq_true, if_false,
        Bool.and_self, bne_self_eq_false, hrec, List.all_eq_true, implies_true, if_true]
      cases isArray x <;> simp

/-- C31, as stated, fails when the tree is a scalar: `collapseToDotted(null)` is the empty
mapping, it has no entry to apply, and the result of the expansion is the empty mapping, which
is not `null` and not `deepEquals` to it. -/
theorem expand_collapse_scalar :
    sequenceFree .null = true ∧ plainKeys .null = true ∧ noEmptyBelow .null = true
      ∧ expandDotted (collapseToDotted .null false false) = .ok (.obj [])
      ∧ Value.obj [] ≠ Value.null
      ∧ deepEquals (.obj []) .null = false := by
  refine ⟨rfl, rfl, rfl, ?_, ?_, ?_⟩
  · rw [collapseToDotted_scalar .null false false rfl]
    rfl
  · intro h; cases h
  · rw [deepEquals_collection (.obj []) .null rfl]
    rfl

/-- C31 (amended): collapse then expand is the identity on sequence-free mappings.  For every
(well-formed) mapping `obj` built only from mappings and scalars, in which every key is non-empty,
contains no `.` and is not `__proto__`, and no mapping below the root is empty, starting from an
empty mapping and
applying `setPath(acc, p, v)` for each entry `(p, v)` of `collapseToDotted(obj)`, in order,
returns normally and yields `obj` itself: the same keys in the same order, bound to the same
values; when `obj` holds no `NaN`, the result is `deepEquals` to `obj`. -/
theorem expand_collapse (ps : Props) (hseq : sequenceFree (.obj ps) = true)
    (hkeys : plainKeys (.obj ps) = true) (hne : noEmptyBelow (.obj ps) = true)
    (hwf : wellFormed (.obj ps) = true) (hproto : noProtoKey (.obj ps) = true) :
    expandDotted (collapseToDotted (.obj ps) false false) = .ok (.obj ps)
      ∧ (noNaN (.obj ps) = true →
          ∃ r, expandDotted (collapseToDotted (.obj ps) false false) = .ok r
            ∧ deepEquals r (.obj ps) = true) := by
  have h : expandDotted (collapseToDotted (.obj ps) false false) = .ok (.obj ps) := by
    rw [expandDotted_collapse ps hkeys hwf]
    exact setPaths_leaves (.obj ps) hseq hne hwf ps rfl
  refine ⟨h, fun hn => ⟨.obj ps, h, ?_⟩⟩
  exact deepEquals_self_aux _ (.obj ps) (Nat.lt_succ_self _) hn

theorem expand_collapse_witness :
    expandDotted (collapseToDotted
        (.obj [("foo", .num (.finite 123)),
          ("bar", .obj [("biz", .num (.finite 12)), ("baz", .obj [("buz", .num (.finite 1))])])])
        false false)
      = .ok (.obj [("foo", .num (.finite 123)),
          ("bar", .obj [("biz", .num (.finite 12)), ("baz", .obj [("buz", .num (.finite 1))])])]) :=
  (expand_collapse
    [("foo", .num (.finite 123)),
      ("bar", .obj [("biz", .num (.finite 12)), ("baz", .obj [("buz", .num (.finite 1))])])]
    (by decide) (by decide) (by decide) (by decide) (by decide)).1

end Objtools
